import Mathlib

/-!
# Aida: the archive replay engine (`cmd/runarchive-cli/runarchive/runarchive.go`)

A shallow embedding of `groupTransactions`, `runBlocks` and the aggregator
loop of `RunArchive`, followed by the properties proved about them.

Conventions of the embedding:
* `uint64` values are natural numbers; the one place where the source can
  wrap (`block - 1`) is written with an explicit reduction modulo `2^64`;
* a Go channel is the list of values sent on it, oldest first;
* calls on external collaborators (state backend, transaction processor) are
  recorded as events, and their error results are read from an environment.
-/

namespace Aida

set_option linter.dupNamespace false

/-! ## Data model -/

/-- The record type `substate.Transaction`: `Block uint64`, `Transaction int`
and the execution context `Substate`, which the engine only forwards (it is
represented by an identifier). -/
structure Transaction where
  Block : Nat
  Transaction : Int
  Substate : Nat
deriving DecidableEq, Repr

/-! ## `groupTransactions` -/

/-- The `for iter.Next()` loop of `groupTransactions` together with the final
`blocks <- transactions`. The result is the list of batches sent on `blocks`,
in emission order. `abort k` tells whether the non-blocking receive on the
`abort` channel succeeds in iteration `k`; `last` is `cfg.Last`. -/
def groupLoop (abort : Nat → Bool) (last : Nat) :
    List Transaction → Nat → Nat → List Transaction → List (List Transaction)
  | [], _, _, transactions => [transactions]
  | tx :: rest, k, currentBlock, transactions =>
    if abort k then
      []
    else if tx.Block ≠ currentBlock then
      if tx.Block > last then
        [transactions]
      else
        transactions :: groupLoop abort last rest (k + 1) tx.Block [tx]
    else
      groupLoop abort last rest (k + 1) currentBlock (transactions ++ [tx])

/-- The function `groupTransactions(iter, blocks, abort, cfg)`: `currentBlock`
starts at `0` and `transactions` starts empty. -/
def groupTransactions (abort : Nat → Bool) (last : Nat) (iter : List Transaction) :
    List (List Transaction) :=
  groupLoop abort last iter 0 0 []

/-- The abort channel on which nothing is ever received. -/
def noAbort : Nat → Bool := fun _ => false

/-- A stream in ascending block order: block numbers never decrease. -/
def Ascending (iter : List Transaction) : Prop :=
  iter.Pairwise (fun a b => a.Block ≤ b.Block)

instance (iter : List Transaction) : Decidable (Ascending iter) := by
  unfold Ascending; infer_instance

/-- Two batches are separated when every record of the first lies in a block
before every record of the second. -/
def Separated (b1 b2 : List Transaction) : Prop :=
  ∀ r1 ∈ b1, ∀ r2 ∈ b2, r1.Block < r2.Block

/-! ## `runBlocks` -/

/-- An error value returned by an external call. -/
abbrev Err := String

/-- A `state.StateDB` handle: the backend `db` handed to every worker, or the
archive snapshot that `db.GetArchiveState(n)` returned. -/
inductive Handle where
  | db
  | archive (n : Nat)
deriving DecidableEq, Repr

/-- The values `runBlocks` sends on `issues`, one constructor per `fmt.Errorf`
of the function. -/
inductive Issue where
  | getState (block : Nat) (err : Err)
  | process (block : Nat) (tx : Int) (err : Err)
  | close (block : Nat)
deriving DecidableEq, Repr

/-- What `runBlocks` does that is visible from outside: the calls it makes
(with the handle they are made on, resp. the handle passed to `ProcessTx`)
and the values it sends on its channels. -/
inductive Event where
  | GetArchiveState (recv : Handle) (block : Nat)
  | BeginBlock (recv : Handle) (block : Nat)
  | BeginTransaction (recv : Handle) (tx : Nat)
  | ProcessTx (handle : Handle) (block : Nat) (tx : Int) (substate : Nat)
  | EndTransaction (recv : Handle)
  | EndBlock (recv : Handle)
  | Close (recv : Handle)
  | issues (issue : Issue)
  | transactionDone (tx : Int)
  | blockDone (block : Nat)
  | closeDone
deriving DecidableEq, Repr

/-- The error results of the external calls of `runBlocks`, `none` standing
for `nil`. Each result is determined by the arguments of the call. -/
structure Env where
  GetArchiveState : Nat → Option Err
  ProcessTx : Handle → Nat → Int → Nat → Option Err
  Close : Handle → Option Err

/-- The `uint64` subtraction `block - 1`. -/
def subOne64 (block : Nat) : Nat :=
  (block + (2 ^ 64 - 1)) % 2 ^ 64

/-- The conversion `uint32(tx.Transaction)` of a Go `int`. -/
def toUint32 (n : Int) : Nat :=
  (n % 2 ^ 32).toNat

/-- The loop `for _, tx := range transactions` of `runBlocks`, on the
snapshot `state` of the batch with first block `block`. The first component
is the variable `err` when the loop is left (given as argument for an empty
range), the second the events of the loop. -/
def runTxLoop (env : Env) (state : Handle) (block : Nat) :
    Option Err → List Transaction → Option Err × List Event
  | err, [] => (err, [])
  | _, tx :: rest =>
    match env.ProcessTx Handle.db tx.Block tx.Transaction tx.Substate with
    | some e =>
      (some e,
        [Event.BeginTransaction state (toUint32 tx.Transaction),
         Event.ProcessTx Handle.db tx.Block tx.Transaction tx.Substate,
         Event.issues (Issue.process block tx.Transaction e)])
    | none =>
      let r := runTxLoop env state block none rest
      (r.1,
        [Event.BeginTransaction state (toUint32 tx.Transaction),
         Event.ProcessTx Handle.db tx.Block tx.Transaction tx.Substate,
         Event.EndTransaction state,
         Event.transactionDone tx.Transaction] ++ r.2)

/-- One iteration of `for transactions := range blocks` in `runBlocks`: the
variable `err` before the iteration and the batch received give `err` after
the iteration and the events of the iteration. -/
def runBatch (env : Env) (err : Option Err) (transactions : List Transaction) :
    Option Err × List Event :=
  match transactions with
  | [] => (err, [])
  | first :: _ =>
    let block := first.Block
    match env.GetArchiveState (subOne64 block) with
    | some e =>
      (some e,
        [Event.GetArchiveState Handle.db (subOne64 block),
         Event.issues (Issue.getState block e)])
    | none =>
      let state := Handle.archive (subOne64 block)
      let r := runTxLoop env state block none transactions
      match env.Close state with
      | some e =>
        (some e,
          [Event.GetArchiveState Handle.db (subOne64 block), Event.BeginBlock state block]
            ++ r.2 ++ [Event.Close state, Event.issues (Issue.close block), Event.blockDone block])
      | none =>
        (none,
          [Event.GetArchiveState Handle.db (subOne64 block), Event.BeginBlock state block]
            ++ r.2 ++ [Event.Close state, Event.blockDone block])

/-- The loop `for transactions := range blocks` over the batches this worker
receives until `blocks` is closed and drained. -/
def runBlocksLoop (env : Env) : Option Err → List (List Transaction) → List Event
  | _, [] => []
  | err, transactions :: blocks =>
    let r := runBatch env err transactions
    r.2 ++ runBlocksLoop env r.1 blocks

/-- The function `runBlocks`: `err` starts as `nil`, and the deferred
`close(done)` runs when the loop is left. -/
def runBlocks (env : Env) (blocks : List (List Transaction)) : List Event :=
  runBlocksLoop env none blocks ++ [Event.closeDone]

/-- The events that are calls on a backend handle or on the processor (the
others are channel operations). -/
def Event.isCall : Event → Bool
  | Event.GetArchiveState _ _ => true
  | Event.BeginBlock _ _ => true
  | Event.BeginTransaction _ _ => true
  | Event.ProcessTx _ _ _ _ => true
  | Event.EndTransaction _ => true
  | Event.EndBlock _ => true
  | Event.Close _ => true
  | _ => false

/-- The events that are a `Close` call on some handle. -/
def Event.isClose : Event → Bool
  | Event.Close _ => true
  | _ => false

/-- The events of a transaction that completes on the snapshot `state`:
`BeginTransaction`, `ProcessTx` returning `nil`, `EndTransaction`, and the
send on `transactionDone`. -/
def completedTx (state : Handle) (tx : Transaction) : List Event :=
  [Event.BeginTransaction state (toUint32 tx.Transaction),
   Event.ProcessTx Handle.db tx.Block tx.Transaction tx.Substate,
   Event.EndTransaction state,
   Event.transactionDone tx.Transaction]

/-- The events of a transaction whose processing fails with `e` in the batch
of block `block`: `BeginTransaction`, `ProcessTx`, and the send on `issues`. -/
def failedTx (state : Handle) (block : Nat) (tx : Transaction) (e : Err) : List Event :=
  [Event.BeginTransaction state (toUint32 tx.Transaction),
   Event.ProcessTx Handle.db tx.Block tx.Transaction tx.Substate,
   Event.issues (Issue.process block tx.Transaction e)]

/-- The events that end a batch of block `block` once its snapshot `state`
was obtained: `Close`, the send on `issues` when `Close` fails, and the send
on `blockDone`. -/
def closeBatch (env : Env) (state : Handle) (block : Nat) : List Event :=
  match env.Close state with
  | some _ => [Event.Close state, Event.issues (Issue.close block), Event.blockDone block]
  | none => [Event.Close state, Event.blockDone block]

/-- An environment in which processing transaction `tx` of block `block`
fails with `e` and every other external call succeeds. -/
def failAt (block : Nat) (tx : Int) (e : Err) : Env :=
  { GetArchiveState := fun _ => none
    ProcessTx := fun _ b t _ => if b = block ∧ t = tx then some e else none
    Close := fun _ => none }

/-- An environment in which every external call succeeds. -/
def okEnv : Env :=
  { GetArchiveState := fun _ => none
    ProcessTx := fun _ _ _ _ => none
    Close := fun _ => none }

/-! ## The aggregator loop of `RunArchive` -/

/-- The fields of `utils.Config` that the aggregator loop reads. -/
structure Config where
  Workers : Nat
  EnableProgress : Bool
deriving DecidableEq, Repr

/-- What the aggregator does besides updating its variables: it receives an
error from `issues`, it executes `close(abort)`. -/
inductive AggEvent where
  | recv (issue : Issue)
  | closeAbort
deriving DecidableEq, Repr

/-- The state of the loop `for i < len(dones)` of `RunArchive`: the channels
it selects on (`dones` holds, per worker, whether its `done` channel is
closed), the channel `abort` it closes, its local variables (`abort` is
`true` while the variable `abort` is not `nil`) and `log`, the history of its
`AggEvent`s. The wall-clock variables of the progress report are left out. -/
structure Aggregator where
  issues : List Issue
  finishedTransaction : List Int
  finishedBlock : List Nat
  dones : List Bool
  abortClosed : Bool
  err : Option Issue
  abort : Bool
  txCount : Int
  lastBlock : Nat
  i : Nat
  log : List AggEvent
deriving DecidableEq, Repr

/-- The state in which the loop is entered: all channels empty and open,
`err == nil`, `abort != nil`, `i == 0`, one `done` channel per worker. -/
def Aggregator.init (cfg : Config) : Aggregator :=
  { issues := []
    finishedTransaction := []
    finishedBlock := []
    dones := List.replicate cfg.Workers false
    abortClosed := false
    err := none
    abort := true
    txCount := 0
    lastBlock := 0
    i := 0
    log := [] }

/-- The steps of a run: a worker sends on one of the three buffered channels
or closes its `done` channel; the aggregator's `select` takes one of its four
cases. -/
inductive Action where
  | sendIssue (issue : Issue)
  | sendTransaction (tx : Int)
  | sendBlock (block : Nat)
  | closeDone (j : Nat)
  | recvIssue
  | recvTransaction
  | recvBlock
  | recvDone
deriving DecidableEq, Repr

/-- The result of a step: the next state; `blocked` when the step cannot be
taken in the state (a send on a full channel, a receive on an empty open
channel, a `select` after the loop has ended); `panic` for `close` of a
closed channel. -/
inductive Outcome where
  | ok (s : Aggregator)
  | blocked
  | panic
deriving DecidableEq, Repr

/-- One case of the `select` of `RunArchive`, taken in state `s`. -/
def Aggregator.select (cfg : Config) (a : Action) (s : Aggregator) : Outcome :=
  match a with
  | Action.recvIssue =>
    match s.issues with
    | [] => Outcome.blocked
    | issue :: queue =>
      if s.abort then
        if s.abortClosed then
          Outcome.panic
        else
          Outcome.ok { s with
            issues := queue, err := some issue, abortClosed := true, abort := false,
            log := s.log ++ [AggEvent.recv issue, AggEvent.closeAbort] }
      else
        Outcome.ok { s with
          issues := queue, err := some issue, log := s.log ++ [AggEvent.recv issue] }
  | Action.recvTransaction =>
    match s.finishedTransaction with
    | [] => Outcome.blocked
    | _ :: queue =>
      if !cfg.EnableProgress then
        Outcome.ok { s with finishedTransaction := queue }
      else
        Outcome.ok { s with finishedTransaction := queue, txCount := s.txCount + 1 }
  | Action.recvBlock =>
    match s.finishedBlock with
    | [] => Outcome.blocked
    | block :: queue =>
      if !cfg.EnableProgress then
        Outcome.ok { s with finishedBlock := queue }
      else
        Outcome.ok { s with
          finishedBlock := queue,
          lastBlock := if block > s.lastBlock then block else s.lastBlock }
  | Action.recvDone =>
    if s.dones.getD s.i false then Outcome.ok { s with i := s.i + 1 } else Outcome.blocked
  | _ => Outcome.blocked

/-- One step of a run. The three buffered channels have capacity
`10*cfg.Workers`; the aggregator selects only while `i < len(dones)`. -/
def Aggregator.step (cfg : Config) (a : Action) (s : Aggregator) : Outcome :=
  match a with
  | Action.sendIssue issue =>
    if s.issues.length < 10 * cfg.Workers then
      Outcome.ok { s with issues := s.issues ++ [issue] }
    else Outcome.blocked
  | Action.sendTransaction tx =>
    if s.finishedTransaction.length < 10 * cfg.Workers then
      Outcome.ok { s with finishedTransaction := s.finishedTransaction ++ [tx] }
    else Outcome.blocked
  | Action.sendBlock block =>
    if s.finishedBlock.length < 10 * cfg.Workers then
      Outcome.ok { s with finishedBlock := s.finishedBlock ++ [block] }
    else Outcome.blocked
  | Action.closeDone j =>
    if j < s.dones.length ∧ s.dones.getD j true = false then
      Outcome.ok { s with dones := s.dones.set j true }
    else Outcome.blocked
  | a => if s.i < s.dones.length then s.select cfg a else Outcome.blocked

/-- A run: the steps of a schedule taken one after the other. -/
def Aggregator.run (cfg : Config) : List Action → Aggregator → Outcome
  | [], s => Outcome.ok s
  | a :: schedule, s =>
    match s.step cfg a with
    | Outcome.ok t => t.run cfg schedule
    | o => o

/-- What `RunArchive` returns once its loop has ended (`return err`); `none`
while the loop is still running. -/
def Aggregator.returned (s : Aggregator) : Option (Option Issue) :=
  if s.i < s.dones.length then none else some s.err

/-- The errors the aggregator received, in the order it received them. -/
def received (log : List AggEvent) : List Issue :=
  log.filterMap fun
    | AggEvent.recv issue => some issue
    | AggEvent.closeAbort => none

/-- The errors the workers sent on `issues` in a schedule, in sending order. -/
def sent (schedule : List Action) : List Issue :=
  schedule.filterMap fun
    | Action.sendIssue issue => some issue
    | _ => none

/-- The history of an aggregator that received the errors `issues`, in this
order, and closed `abort` right after the first of them and at no other time. -/
def closesOnFirst : List Issue → List AggEvent
  | [] => []
  | issue :: later => AggEvent.recv issue :: AggEvent.closeAbort :: later.map AggEvent.recv

/-- The invariant of the aggregator loop: the history has the shape
`closesOnFirst`, `err` is the error received last, the variable `abort` is
non-`nil` as long as no error was received, and the channel `abort` is closed
once the variable is `nil`. -/
structure Aggregator.Inv (s : Aggregator) : Prop where
  log_eq : s.log = closesOnFirst (received s.log)
  err_eq : s.err = (received s.log).getLast?
  abort_eq : s.abort = (received s.log).isEmpty
  closed_eq : s.abortClosed = !s.abort

/-- The channel operations among the events of worker `j`, as steps of a
run: its sends on `issues`, `transactionDone` and `blockDone`, and the close
of its `done` channel. -/
def workerActions (j : Nat) (events : List Event) : List Action :=
  events.filterMap fun
    | Event.issues issue => some (Action.sendIssue issue)
    | Event.transactionDone tx => some (Action.sendTransaction tx)
    | Event.blockDone block => some (Action.sendBlock block)
    | Event.closeDone => some (Action.closeDone j)
    | _ => none

/-- An environment in which processing fails with `e` for every transaction
and every other external call succeeds. -/
def failEvery (e : Err) : Env :=
  { GetArchiveState := fun _ => none
    ProcessTx := fun _ _ _ _ => some e
    Close := fun _ => none }

/-- Whether processing `tx` returns `nil` in `env` (with the handle `runBlocks`
passes to `ProcessTx`). -/
def Env.processes (env : Env) (tx : Transaction) : Bool :=
  (env.ProcessTx Handle.db tx.Block tx.Transaction tx.Substate).isNone

/-- The events of the first transaction of `txs` whose processing fails, if
there is one: its `failedTx` events. -/
def firstFailure (env : Env) (state : Handle) (block : Nat) (txs : List Transaction) :
    List Event :=
  match txs.dropWhile env.processes with
  | [] => []
  | r :: _ =>
    match env.ProcessTx Handle.db r.Block r.Transaction r.Substate with
    | some e => failedTx state block r e
    | none => []

/-- The events `BeginTransaction`, `EndTransaction` and `Close`. -/
def Event.isTxLifecycle : Event → Bool
  | Event.BeginTransaction _ _ => true
  | Event.EndTransaction _ => true
  | Event.Close _ => true
  | _ => false

/-- The events `EndTransaction` and the sends on `transactionDone`. -/
def Event.isTxCompletion : Event → Bool
  | Event.EndTransaction _ => true
  | Event.transactionDone _ => true
  | _ => false

/-- The sends on `blockDone`. -/
def Event.isBlockDone : Event → Bool
  | Event.blockDone _ => true
  | _ => false

/-- The calls `GetArchiveState`. -/
def Event.isGetArchiveState : Event → Bool
  | Event.GetArchiveState _ _ => true
  | _ => false

/-! ## One worker next to the aggregator -/

/-- The channel operation of worker `j` behind an event, `none` for a call. -/
def Event.toAction (j : Nat) : Event → Option Action
  | Event.issues issue => some (Action.sendIssue issue)
  | Event.transactionDone tx => some (Action.sendTransaction tx)
  | Event.blockDone block => some (Action.sendBlock block)
  | Event.closeDone => some (Action.closeDone j)
  | _ => none

/-- A worker running next to the aggregator: the events `runBlocks` still has
to perform, in program order; the state of the aggregator and its channels;
and the events the worker has performed, each with the state of the `abort`
channel (closed or not) at the time it was performed. -/
structure WorkerRun where
  pending : List Event
  agg : Aggregator
  performed : List (Event × Bool)
deriving DecidableEq, Repr

/-- Whose turn it is: the worker performs its next event, or the `select` of
the aggregator takes a case. -/
inductive Turn where
  | worker
  | aggregator (a : Action)
deriving DecidableEq, Repr

/-- One turn. A call of the worker changes nothing outside the worker; a
channel operation of the worker is a step on the channels and is possible
only when that step is; `runBlocks` has no access to `abort`. -/
def WorkerRun.step (cfg : Config) (j : Nat) (turn : Turn) (s : WorkerRun) : Option WorkerRun :=
  match turn with
  | Turn.worker =>
    match s.pending with
    | [] => none
    | e :: pending =>
      match e.toAction j with
      | none =>
        some { pending := pending, agg := s.agg,
               performed := s.performed ++ [(e, s.agg.abortClosed)] }
      | some a =>
        match s.agg.step cfg a with
        | Outcome.ok t =>
          some { pending := pending, agg := t,
                 performed := s.performed ++ [(e, s.agg.abortClosed)] }
        | _ => none
  | Turn.aggregator a =>
    match a with
    | Action.recvIssue | Action.recvTransaction | Action.recvBlock | Action.recvDone =>
      match s.agg.step cfg a with
      | Outcome.ok t => some { s with agg := t }
      | _ => none
    | _ => none

/-- The turns of a schedule taken one after the other. -/
def WorkerRun.run (cfg : Config) (j : Nat) : List Turn → WorkerRun → Option WorkerRun
  | [], s => some s
  | turn :: turns, s =>
    match s.step cfg j turn with
    | some t => t.run cfg j turns
    | none => none

/-- The start of a run of worker 0 on the batches `blocks`. -/
def WorkerRun.init (cfg : Config) (env : Env) (blocks : List (List Transaction)) : WorkerRun :=
  { pending := runBlocks env blocks, agg := Aggregator.init cfg, performed := [] }

/-! ## The progress tracker (`executor/extension/progress_tracker.go`) -/

/-- The reduction of an integer to the range of the Go type `int` (64 bit,
two's complement). -/
def wrapInt (x : Int) : Int :=
  (x + 2 ^ 63) % 2 ^ 64 - 2 ^ 63

/-- The Go operator `%` on `int`: the sign follows the dividend; a zero
divisor is a run-time panic (`none`). -/
def goMod (a b : Int) : Option Int :=
  if b = 0 then none else some (wrapInt (a.tmod b))

/-- The struct `processInfo`; both fields are `uint64`. -/
structure processInfo where
  numTransactions : Nat
  gas : Nat
deriving DecidableEq, Repr

/-- The struct `progressTracker`, without the logger, the lock and the
wall-clock field `startOfLastInterval`. -/
structure progressTracker where
  reportFrequency : Int
  lastReportedBlock : Int
  lastIntervalInfo : processInfo
deriving DecidableEq, Repr

/-- The function `makeProgressTracker(config, reportFrequency, log)`, with
`first` the `uint64` value `config.First`. -/
def makeProgressTracker (first : Nat) (reportFrequency : Int) : Option progressTracker :=
  match goMod (wrapInt first) reportFrequency with
  | none => none
  | some m =>
    some { reportFrequency := reportFrequency
           lastReportedBlock := wrapInt (wrapInt first - m)
           lastIntervalInfo := { numTransactions := 0, gas := 0 } }

/-- The method `PostTransaction`; `gasUsed` is `state.Substate.Result.GasUsed`. -/
def progressTracker.PostTransaction (t : progressTracker) (gasUsed : Nat) : progressTracker :=
  { t with
    lastIntervalInfo :=
      { numTransactions := (t.lastIntervalInfo.numTransactions + 1) % 2 ^ 64
        gas := (t.lastIntervalInfo.gas + gasUsed) % 2 ^ 64 } }

/-- What `PostBlock` reads: `state.Block`, the result of
`state.State.GetMemoryUsage()` (`none` for `nil`, else its `UsedBytes`), and
the result of `utils.GetDirectorySize(t.config.StateDbSrc)`. -/
structure BlockState where
  Block : Int
  memoryUsage : Option Nat
  directorySize : Int
deriving DecidableEq, Repr

/-- A value passed to `Noticef`: an integer, or a rate, the quotient of a
count by the seconds elapsed since the last report (not computed here). -/
inductive Value where
  | int (v : Int)
  | perSecond (count : Nat)
deriving DecidableEq, Repr

/-- The constant `progressTrackerReportFormat`, as the text each of its five
verbs stands in: "Reached block %d", "~ %v bytes of memory", "~ %v bytes of
disk", "~ %v Tx/s", "~ %v Gas/s". -/
def progressTrackerReportFormat : List String :=
  ["Reached block", "bytes of memory", "bytes of disk", "Tx/s", "Gas/s"]

/-- The call `t.log.Noticef(format, args...)`: the k-th verb of the format
prints the k-th argument. -/
def Noticef (format : List String) (args : List Value) : List (String × Value) :=
  format.zip args

/-- The method `PostBlock`: the tracker after the call and the line logged,
if any; `none` when `%` panics. -/
def progressTracker.PostBlock (t : progressTracker) (state : BlockState) :
    Option (progressTracker × Option (List (String × Value))) :=
  match goMod state.Block t.reportFrequency with
  | none => none
  | some m =>
    let boundary := wrapInt (state.Block - m)
    if wrapInt (state.Block - t.lastReportedBlock) < t.reportFrequency then
      some (t, none)
    else
      let info := t.lastIntervalInfo
      let disk := state.directorySize
      let memory : Nat :=
        match state.memoryUsage with
        | some usedBytes => usedBytes
        | none => 0
      some ({ t with
              lastIntervalInfo := { numTransactions := 0, gas := 0 }
              lastReportedBlock := boundary },
            some (Noticef progressTrackerReportFormat
              [Value.int boundary, Value.int disk, Value.int memory,
               Value.perSecond info.numTransactions, Value.perSecond info.gas]))

/-- The hooks of the extension the pipeline calls during a run. -/
inductive Hook where
  | PostTransaction (gasUsed : Nat)
  | PostBlock (state : BlockState)
deriving DecidableEq, Repr

/-- A sequence of hook calls on the tracker: the tracker afterwards and the
lines logged, in order; `none` when a call panics. -/
def progressTracker.run :
    progressTracker → List Hook → Option (progressTracker × List (List (String × Value)))
  | t, [] => some (t, [])
  | t, Hook.PostTransaction gasUsed :: hooks => (t.PostTransaction gasUsed).run hooks
  | t, Hook.PostBlock state :: hooks =>
    match t.PostBlock state with
    | none => none
    | some (t', line) =>
      match t'.run hooks with
      | none => none
      | some (t'', lines) => some (t'', line.toList ++ lines)

/-- The value a logged line prints for the verb standing in `text`. -/
def printed (line : List (String × Value)) (text : String) : Option Value :=
  (line.find? (fun p => p.1 = text)).map Prod.snd

/-- The invariant of the tracker for the report frequency `rf`: `rf` is its
positive frequency and `lastReportedBlock` is a non-negative multiple of it
in the range of `int`. -/
def progressTracker.Aligned (rf : Int) (t : progressTracker) : Prop :=
  t.reportFrequency = rf ∧ 0 < rf ∧ rf ∣ t.lastReportedBlock ∧
    0 ≤ t.lastReportedBlock ∧ t.lastReportedBlock < 2 ^ 63

/-- The number of `PostTransaction` calls among the hooks, and the sum of
their `gasUsed`. -/
def transactionsSeen : List Hook → Nat × Nat
  | [] => (0, 0)
  | Hook.PostTransaction gasUsed :: hooks =>
    ((transactionsSeen hooks).1 + 1, (transactionsSeen hooks).2 + gasUsed)
  | Hook.PostBlock _ :: hooks => transactionsSeen hooks

/-- The block number a logged line prints for "Reached block". -/
def reachedBlock (line : List (String × Value)) : Int :=
  match printed line "Reached block" with
  | some (Value.int v) => v
  | _ => 0

/-! ## Priming (`executor/extension/primer/primer.go`, `utils/worldstate_update.go`) -/

/-- An account address (`common.Address`). -/
abbrev Address := Nat

/-- A storage key or value (`common.Hash`). -/
abbrev Hash := Nat

/-- The struct `substate.SubstateAccount`. -/
structure SubstateAccount where
  Nonce : Nat
  Balance : Nat
  Storage : List (Hash × Hash)
  Code : List Nat
deriving DecidableEq, Repr

/-- The map type `substate.SubstateAlloc`, as an association list. -/
abbrev SubstateAlloc := List (Address × SubstateAccount)

/-- The body of the loop of `ClearAccountStorage`: if `addr` is found in
`update`, its storage becomes the empty map. -/
def clearStorage (update : SubstateAlloc) (addr : Address) : SubstateAlloc :=
  if (update.lookup addr).isSome then
    update.map (fun entry =>
      if entry.1 = addr then (entry.1, { entry.2 with Storage := [] }) else entry)
  else
    update

/-- The function `ClearAccountStorage(update, accounts)`. -/
def ClearAccountStorage (update : SubstateAlloc) (accounts : List Address) : SubstateAlloc :=
  accounts.foldl clearStorage update

/-- A value of the update-set iterator: `Block`, `UpdateSet` and
`DeletedAccounts`. -/
structure UpdateBlock where
  Block : Nat
  UpdateSet : SubstateAlloc
  DeletedAccounts : List Address
deriving DecidableEq, Repr

/-- The parts `prime` uses that are not code of this repository or are not
under `src/`: the methods `EstimateIncrementalSize` and `Merge` of
`substate.SubstateAlloc`, and the results of the calls that can fail
(`none`, resp. `Except.ok`, for a `nil` error). -/
structure PrimeEnv where
  EstimateIncrementalSize : SubstateAlloc → SubstateAlloc → Nat
  Merge : SubstateAlloc → SubstateAlloc → SubstateAlloc
  OpenUpdateDBReadOnly : Option Err
  PrimeStateDB : SubstateAlloc → Option Err
  GenerateUpdateSet : Nat → Nat → Except Err (SubstateAlloc × List Address)
  DeleteDestroyedAccountsFromStateDB : Nat → Option Err

/-- The calls of `prime` on the state DB. `PrimeStateDB` is a call at line
112 or 141, handing over the chunk `update`; it records the value of
`totalSize` at that moment and the number of update sets merged into the
chunk. `PrimeGenerated` is the call at line 160. -/
inductive PrimeEvent where
  | PrimeStateDB (update : SubstateAlloc) (totalSize : Nat) (merged : Nat)
  | SuicideAccounts (accounts : List Address)
  | PrimeGenerated (update : SubstateAlloc)
  | DeleteDestroyedAccountsFromStateDB (target : Nat)
deriving DecidableEq, Repr

/-- The local variables of `prime`, and `merged`, the number of update sets
merged into `update` since it was last made. -/
structure PrimeState where
  totalSize : Nat
  block : Nat
  hasPrimed : Bool
  update : SubstateAlloc
  merged : Nat
deriving DecidableEq, Repr

/-- The loop `for updateIter.Next()` of `prime`; `bufferSize` is
`cfg.UpdateBufferSize` and `target` is `cfg.First-1`. The result is the calls
made and either the error returned from inside the loop or the variables
when the loop is left. -/
def primeLoop (env : PrimeEnv) (bufferSize target : Nat) :
    List UpdateBlock → PrimeState → List PrimeEvent × Except Err PrimeState
  | [], s => ([], Except.ok s)
  | newSet :: rest, s =>
    if newSet.Block > target then
      ([], Except.ok s)
    else
      let incrementalSize := env.EstimateIncrementalSize s.update newSet.UpdateSet
      if (s.totalSize + incrementalSize) % 2 ^ 64 > bufferSize then
        match env.PrimeStateDB s.update with
        | some e =>
          ([PrimeEvent.PrimeStateDB s.update s.totalSize s.merged],
            Except.error ("cannot prime state-db; " ++ e))
        | none =>
          let update := ClearAccountStorage [] newSet.DeletedAccounts
          let r := primeLoop env bufferSize target rest
            { totalSize := (0 + incrementalSize) % 2 ^ 64
              block := (newSet.Block + 1) % 2 ^ 64
              hasPrimed := true
              update := env.Merge update newSet.UpdateSet
              merged := 1 }
          ([PrimeEvent.PrimeStateDB s.update s.totalSize s.merged,
            PrimeEvent.SuicideAccounts newSet.DeletedAccounts] ++ r.1, r.2)
      else
        let update := ClearAccountStorage s.update newSet.DeletedAccounts
        let r := primeLoop env bufferSize target rest
          { totalSize := (s.totalSize + incrementalSize) % 2 ^ 64
            block := (newSet.Block + 1) % 2 ^ 64
            hasPrimed := s.hasPrimed
            update := env.Merge update newSet.UpdateSet
            merged := s.merged + 1 }
        ((if s.hasPrimed then [PrimeEvent.SuicideAccounts newSet.DeletedAccounts] else [])
          ++ r.1, r.2)

/-- The part of `prime` after the loop, from `if len(update) > 0` on. -/
def primeRest (env : PrimeEnv) (target : Nat) (s : PrimeState) :
    List PrimeEvent × Option Err :=
  let flush : List PrimeEvent × Except Err Bool :=
    if s.update.length > 0 then
      match env.PrimeStateDB s.update with
      | some e =>
        ([PrimeEvent.PrimeStateDB s.update s.totalSize s.merged],
          Except.error ("cannot prime state-db; " ++ e))
      | none => ([PrimeEvent.PrimeStateDB s.update s.totalSize s.merged], Except.ok true)
    else
      ([], Except.ok s.hasPrimed)
  match flush.2 with
  | Except.error e => (flush.1, some e)
  | Except.ok hasPrimed =>
    let generated : List PrimeEvent × Option Err :=
      if s.block < target ∨ target = 0 then
        match env.GenerateUpdateSet s.block target with
        | Except.error e => ([], some ("cannot generate update-set; " ++ e))
        | Except.ok (update, deletedAccounts) =>
          let suicide :=
            if hasPrimed then [PrimeEvent.SuicideAccounts deletedAccounts] else []
          match env.PrimeStateDB update with
          | some e =>
            (suicide ++ [PrimeEvent.PrimeGenerated update],
              some ("cannot prime state-db; " ++ e))
          | none => (suicide ++ [PrimeEvent.PrimeGenerated update], none)
      else
        ([], none)
    match generated.2 with
    | some e => (flush.1 ++ generated.1, some e)
    | none =>
      match env.DeleteDestroyedAccountsFromStateDB target with
      | some e =>
        (flush.1 ++ generated.1 ++ [PrimeEvent.DeleteDestroyedAccountsFromStateDB target],
          some ("cannot delete destroyed accounts from state-db; " ++ e))
      | none =>
        (flush.1 ++ generated.1 ++ [PrimeEvent.DeleteDestroyedAccountsFromStateDB target],
          none)

/-- The method `stateDbPrimer.prime`: the calls it makes on the state DB and
the error it returns. `first` is `cfg.First`, `updateSets` the values of the
update-set iterator. -/
def prime (env : PrimeEnv) (bufferSize first : Nat) (updateSets : List UpdateBlock) :
    List PrimeEvent × Option Err :=
  match env.OpenUpdateDBReadOnly with
  | some e => ([], some e)
  | none =>
    let loop := primeLoop env bufferSize (subOne64 first) updateSets
      { totalSize := 0, block := 0, hasPrimed := false, update := [], merged := 0 }
    match loop.2 with
    | Except.error e => (loop.1, some e)
    | Except.ok s =>
      let rest := primeRest env (subOne64 first) s
      (loop.1 ++ rest.1, rest.2)

/-- A stand-in for the library method `Merge`: the entries of `y` replace
those of `x` with the same address. -/
def mergeAlloc (x y : SubstateAlloc) : SubstateAlloc :=
  x.filter (fun entry => (y.lookup entry.1).isNone) ++ y

/-- A stand-in for the library method `EstimateIncrementalSize`: 8 bytes for
every account of `y` that `x` does not have. -/
def estimateAlloc (x y : SubstateAlloc) : Nat :=
  8 * (y.filter (fun entry => (x.lookup entry.1).isNone)).length

/-- An environment with the two stand-ins in which no call fails. -/
def okPrimeEnv : PrimeEnv :=
  { EstimateIncrementalSize := estimateAlloc
    Merge := mergeAlloc
    OpenUpdateDBReadOnly := none
    PrimeStateDB := fun _ => none
    GenerateUpdateSet := fun _ _ => Except.ok ([], [])
    DeleteDestroyedAccountsFromStateDB := fun _ => none }

/-- An account with nothing but a balance. -/
def plainAccount (balance : Nat) : SubstateAccount :=
  { Nonce := 0, Balance := balance, Storage := [], Code := [] }

/-- The bound on a chunk handed to `PrimeStateDB`: if the event is such a
hand-over, its `totalSize` is at most `bufferSize`, or the chunk holds one
update set only. -/
def PrimeEvent.Bounded (bufferSize : Nat) : PrimeEvent → Prop
  | PrimeEvent.PrimeStateDB _ totalSize merged => totalSize ≤ bufferSize ∨ merged = 1
  | _ => True

/-! ## The sequential pipeline (`cmd/aida-vm-sdb`) -/

/-- The record type `executor.TransactionInfo`: block, transaction index and
the payload `Data`, which the pipeline only forwards. -/
structure TransactionInfo where
  Block : Nat
  Transaction : Nat
  Data : Nat
deriving DecidableEq, Repr

/-- The calls the test `TestVmSdb_TxGenerator_AllTransactionsAreProcessedInOrder`
observes on the extension (`PreRun`, `PreTransaction`, `PostTransaction`,
`PostRun`), the processor (`Process`) and the state DB (`BeginBlock`,
`EndBlock`, `Close`). -/
inductive Call where
  | PreRun (block : Nat)
  | BeginBlock (block : Nat)
  | PreTransaction (block tx : Nat)
  | Process (block tx : Nat)
  | PostTransaction (block tx : Nat)
  | EndBlock
  | PostRun (block : Nat) (err : Option Err)
  | Close
deriving DecidableEq, Repr

/-- Modelled from the spec: the loop of the sequential pipeline
`runTransactions`, whose source is not under `src/` (only its test
`run_tx_generator_test.go` is). Following section 4.2 for a run without
error: for a record whose block differs from the block that is open (`none`
when no block is open) the pipeline issues `EndBlock()` for the open block,
if there is one, and `BeginBlock(block)`; for each record it issues
`PreTransaction`, `Process`, `PostTransaction` in order. -/
def runTransactionsLoop : Option Nat → List TransactionInfo → List Call
  | _, [] => []
  | current, r :: rest =>
    (if current = some r.Block then []
      else (if current.isSome then [Call.EndBlock] else []) ++ [Call.BeginBlock r.Block])
    ++ [Call.PreTransaction r.Block r.Transaction,
        Call.Process r.Block r.Transaction,
        Call.PostTransaction r.Block r.Transaction]
    ++ runTransactionsLoop (some r.Block) rest

/-- Modelled from the spec: the sequential pipeline `runTransactions` with one
extension, for a run without error; its source is not under `src/`.
`PreRun`/`PostRun` bracket the run (section 4.2), `PreRun` at the first block
of the range and `PostRun` at the block of the last record with a `nil`
error; as in the example trace of section 8 and in the test, `PostRun`
comes after the last `PostTransaction`, then `EndBlock()` for the block that
is open, then `Close()`. -/
def runTransactions (first : Nat) (records : List TransactionInfo) : List Call :=
  [Call.PreRun first]
  ++ runTransactionsLoop none records
  ++ [Call.PostRun ((records.getLast?.map (fun r => r.Block)).getD first) none]
  ++ (if records.isEmpty then [] else [Call.EndBlock])
  ++ [Call.Close]

/-- The calls for one block of a stream: `BeginBlock`, then for each of its
transactions (index and payload) `PreTransaction`, `Process`,
`PostTransaction`. -/
def blockCalls (block : Nat × List (Nat × Nat)) : List Call :=
  Call.BeginBlock block.1 :: block.2.flatMap (fun tx =>
    [Call.PreTransaction block.1 tx.1, Call.Process block.1 tx.1,
     Call.PostTransaction block.1 tx.1])

/-- The records of one block of a stream. -/
def blockRecords (block : Nat × List (Nat × Nat)) : List TransactionInfo :=
  block.2.map (fun tx => { Block := block.1, Transaction := tx.1, Data := tx.2 })

/-- The calls `PostRun`. -/
def Call.isPostRun : Call → Bool
  | Call.PostRun _ _ => true
  | _ => false

/-! ## The goroutines of `RunArchive` together -/

/-- Where the goroutine `groupTransactions` stands: at the head of its loop
(with the rest of the iterator and its two variables); at a send
`blocks <- batch`, followed by the loop in the state `next` or, for `none`,
by the return of the function; or returned, with `blocks` closed. -/
inductive Producer where
  | loop (iter : List Transaction) (currentBlock : Nat) (transactions : List Transaction)
  | send (batch : List Transaction) (next : Option (List Transaction × Nat × List Transaction))
  | closed
deriving DecidableEq, Repr

/-- Where a goroutine `runBlocks` stands: at `range blocks`, waiting for a
batch (with its variable `err`); inside an iteration, with the events of the
iteration it still has to perform and the value of `err` after them; or
returned, with its `done` channel closed. -/
inductive Worker where
  | idle (err : Option Err)
  | busy (events : List Event) (err : Option Err)
  | done
deriving DecidableEq, Repr

/-- The state of a run of `RunArchive`: the producer, the channel `blocks`
(its buffer and whether it is closed), the workers, and the aggregator with
the other channels. -/
structure System where
  producer : Producer
  blocks : List (List Transaction)
  blocksClosed : Bool
  workers : List Worker
  agg : Aggregator
deriving DecidableEq, Repr

/-- The state after `RunArchive` has started its goroutines. -/
def System.init (cfg : Config) (iter : List Transaction) : System :=
  { producer := Producer.loop iter 0 []
    blocks := []
    blocksClosed := false
    workers := List.replicate cfg.Workers (Worker.idle none)
    agg := Aggregator.init cfg }

/-- Which goroutine moves: the producer, worker `j`, or the aggregator, whose
`select` takes the case `a`. -/
inductive Move where
  | producer
  | worker (j : Nat)
  | aggregator (a : Action)
deriving DecidableEq, Repr

/-- A move of `groupTransactions`, the small-step form of `groupLoop`: one
pass through the loop up to its next channel send (the non-blocking receive
on `abort` succeeds exactly when `abort` is closed), or one send on `blocks`,
possible when the buffer of capacity `10*cfg.Workers` is not full; the send
after the loop is followed by the deferred `close(blocks)`. -/
def System.producerStep (cfg : Config) (last : Nat) (s : System) : Option System :=
  match s.producer with
  | Producer.loop [] _ transactions =>
    some { s with producer := Producer.send transactions none }
  | Producer.loop (tx :: rest) currentBlock transactions =>
    if s.agg.abortClosed then
      some { s with producer := Producer.closed, blocksClosed := true }
    else if tx.Block ≠ currentBlock then
      if tx.Block > last then
        some { s with producer := Producer.send transactions none }
      else
        some { s with producer := Producer.send transactions (some (rest, tx.Block, [tx])) }
    else
      some { s with producer := Producer.loop rest currentBlock (transactions ++ [tx]) }
  | Producer.send batch next =>
    if s.blocks.length < 10 * cfg.Workers then
      match next with
      | some (rest, currentBlock, transactions) =>
        some { s with
          producer := Producer.loop rest currentBlock transactions
          blocks := s.blocks ++ [batch] }
      | none =>
        some { s with
          producer := Producer.closed
          blocks := s.blocks ++ [batch]
          blocksClosed := true }
    else none
  | Producer.closed => none

/-- A move of worker `j`: it takes the next batch from `blocks` (the events of
the iteration are those of `runBatch`), or, when `blocks` is closed and
empty, returns and closes its `done` channel; inside an iteration it
performs its next event, a call (assumed to return) or a send, possible when
the channel is not full; after the last event it is back at `range blocks`. -/
def System.workerStep (cfg : Config) (env : Env) (j : Nat) (s : System) : Option System :=
  match s.workers[j]? with
  | none => none
  | some Worker.done => none
  | some (Worker.idle err) =>
    match s.blocks with
    | batch :: queue =>
      some { s with
        blocks := queue
        workers := s.workers.set j
          (Worker.busy (runBatch env err batch).2 (runBatch env err batch).1) }
    | [] =>
      if s.blocksClosed then
        some { s with
          workers := s.workers.set j Worker.done
          agg := { s.agg with dones := s.agg.dones.set j true } }
      else none
  | some (Worker.busy [] err) =>
    some { s with workers := s.workers.set j (Worker.idle err) }
  | some (Worker.busy (e :: events) err) =>
    match e.toAction j with
    | none => some { s with workers := s.workers.set j (Worker.busy events err) }
    | some a =>
      match s.agg.step cfg a with
      | Outcome.ok t =>
        some { s with workers := s.workers.set j (Worker.busy events err), agg := t }
      | _ => none

/-- A move of the aggregator: one case of its `select`. -/
def System.aggregatorStep (cfg : Config) (a : Action) (s : System) : Option System :=
  match a with
  | Action.recvIssue | Action.recvTransaction | Action.recvBlock | Action.recvDone =>
    match s.agg.step cfg a with
    | Outcome.ok t => some { s with agg := t }
    | _ => none
  | _ => none

/-- One move of the system; `none` when the goroutine cannot move (it is
blocked or has returned). -/
def System.step (cfg : Config) (env : Env) (last : Nat) (move : Move) (s : System) :
    Option System :=
  match move with
  | Move.producer => s.producerStep cfg last
  | Move.worker j => s.workerStep cfg env j
  | Move.aggregator a => s.aggregatorStep cfg a

/-- The moves of a schedule taken one after the other. -/
def System.run (cfg : Config) (env : Env) (last : Nat) : List Move → System → Option System
  | [], s => some s
  | move :: schedule, s =>
    match s.step cfg env last move with
    | some t => t.run cfg env last schedule
    | none => none

/-- The number of moves an event stands for: the event itself and, for a
send on one of the three telemetry channels, the receive by the aggregator. -/
def Event.cost : Event → Nat
  | Event.issues _ => 2
  | Event.transactionDone _ => 2
  | Event.blockDone _ => 2
  | _ => 1

/-- The cost of a list of events. -/
def eventsCost (events : List Event) : Nat :=
  (events.map Event.cost).sum

/-- A bound on the moves a queued batch stands for. -/
def batchBound (batch : List Transaction) : Nat :=
  5 * batch.length + 10

/-- A bound on the moves the producer still causes. -/
def Producer.measure : Producer → Nat
  | Producer.loop iter _ transactions => 5 * transactions.length + 17 * iter.length + 13
  | Producer.send batch (some (rest, _, transactions)) =>
    5 * batch.length + 11 + (5 * transactions.length + 17 * rest.length + 13)
  | Producer.send batch none => 5 * batch.length + 11
  | Producer.closed => 0

/-- A bound on the moves a worker still causes, apart from the batches it
will take. -/
def Worker.measure : Worker → Nat
  | Worker.idle _ => 1
  | Worker.busy events _ => eventsCost events + 2
  | Worker.done => 0

/-- The part of the measure that belongs to the aggregator and its channels. -/
def Aggregator.measure (a : Aggregator) : Nat :=
  a.issues.length + a.finishedTransaction.length + a.finishedBlock.length
    + (a.dones.length - a.i)

/-- A bound on the number of moves that remain possible. -/
def System.measure (s : System) : Nat :=
  s.producer.measure + (s.blocks.map batchBound).sum + (s.workers.map Worker.measure).sum
    + s.agg.measure

/-- The invariant of the system for `cfg.Workers` workers: there is one
worker state and one `done` channel per worker; a worker has returned
exactly when its `done` channel is closed; `blocks` is closed exactly when
the producer has returned; the `done` channels the aggregator has passed are
closed; a worker that has returned leaves `blocks` closed and empty; the
events of an iteration do not contain the close of `done`; and the
aggregator satisfies its own invariant. -/
structure System.Inv (cfg : Config) (s : System) : Prop where
  workers_length : s.workers.length = cfg.Workers
  dones_length : s.agg.dones.length = cfg.Workers
  done_iff : ∀ j : Nat, s.workers[j]? = some Worker.done ↔ s.agg.dones[j]? = some true
  closed_iff : s.blocksClosed = true ↔ s.producer = Producer.closed
  passed : ∀ j : Nat, j < s.agg.i → s.agg.dones[j]? = some true
  i_le : s.agg.i ≤ cfg.Workers
  drained : ∀ j : Nat, s.workers[j]? = some Worker.done → s.blocksClosed = true ∧ s.blocks = []
  no_close : ∀ (j : Nat) (events : List Event) (err : Option Err),
    s.workers[j]? = some (Worker.busy events err) → Event.closeDone ∉ events
  agg_inv : s.agg.Inv

/-! ## Collecting account addresses (`world-state/db/snapshot/account.go`) -/

/-- What `FilterUniqueAccounts` does with its output channel: a send
`out <- adr`, or the deferred `close(out)`. -/
inductive FilterEvent where
  | send (adr : Address)
  | closeOut
deriving DecidableEq, Repr

/-- The loop of `FilterUniqueAccounts`. The first argument is what the
channel `in` still delivers before it is closed, `k` counts the `select`
statements reached so far and `visited` holds the keys of the map `visited`.
`ctxDone k` tells whether `select` number `k` takes the case `<-ctxDone`,
which it can only when the context is cancelled. Every return runs the
deferred `close(out)`. -/
def filterLoop (ctxDone : Nat → Bool) : List Address → Nat → List Address → List FilterEvent
  | [], _, _ => [FilterEvent.closeOut]
  | adr :: rest, k, visited =>
    if ctxDone k then [FilterEvent.closeOut]
    else if adr ∈ visited then filterLoop ctxDone rest (k + 1) visited
    else if ctxDone (k + 1) then [FilterEvent.closeOut]
    else FilterEvent.send adr :: filterLoop ctxDone rest (k + 2) (adr :: visited)

/-- The function `FilterUniqueAccounts(ctx, in, out)`, as the events on `out`. -/
def FilterUniqueAccounts (ctxDone : Nat → Bool) (input : List Address) : List FilterEvent :=
  filterLoop ctxDone input 0 []

/-- A context that is never cancelled: no `select` takes `<-ctxDone`. -/
def noCancellation : Nat → Bool := fun _ => false

/-- The addresses sent, in order. -/
def FilterEvent.sent : List FilterEvent → List Address
  | [] => []
  | FilterEvent.send adr :: events => adr :: FilterEvent.sent events
  | FilterEvent.closeOut :: events => FilterEvent.sent events

/-- A sequence with every repeated address removed, keeping first
occurrences in their original order: the head stays, and is removed from
what the rest gives. -/
def firstOccurrences : List Address → List Address
  | [] => []
  | adr :: rest => adr :: (firstOccurrences rest).filter (fun other => decide (other ≠ adr))

/-- What `collectSubStateAccounts` does: a call `in.Next()` with its result,
a send `work <- tx`, a `select` that takes the case `<-ctxDone`,
`close(work)`, `wg.Wait()` and the deferred `close(out)`. -/
inductive CollectEvent where
  | Next (more : Bool)
  | work (tx : Transaction)
  | ctxDone
  | closeWork
  | Wait
  | closeOut
deriving DecidableEq, Repr

/-- The loop `for in.Next()` of `collectSubStateAccounts` over the
transactions the iterator still holds; `k` counts the `select` statements
reached and `ctxDone k` tells whether `select` number `k` takes the case
`<-ctxDone`. The `break` of that case leaves the `select` statement, so the
loop goes on with the next `in.Next()`; the `break` under the `toBlock` test
leaves the loop. -/
def collectLoop (toBlock : Nat) (ctxDone : Nat → Bool) :
    List Transaction → Nat → List CollectEvent
  | [], _ => [CollectEvent.Next false]
  | tx :: rest, k =>
    CollectEvent.Next true ::
      (if toBlock > 0 ∧ tx.Block > toBlock then []
       else if ctxDone k then CollectEvent.ctxDone :: collectLoop toBlock ctxDone rest (k + 1)
       else CollectEvent.work tx :: collectLoop toBlock ctxDone rest (k + 1))

/-- The function `collectSubStateAccounts`, as the events of its own
goroutine after the workers are started. -/
def collectSubStateAccounts (toBlock : Nat) (ctxDone : Nat → Bool) (iter : List Transaction) :
    List CollectEvent :=
  collectLoop toBlock ctxDone iter 0
    ++ [CollectEvent.closeWork, CollectEvent.Wait, CollectEvent.closeOut]

/-- The events after the first `select` that took the case `<-ctxDone`. -/
def afterCtxDone : List CollectEvent → List CollectEvent
  | [] => []
  | CollectEvent.ctxDone :: events => events
  | _ :: events => afterCtxDone events

/-- The calls `in.Next()`. -/
def CollectEvent.isNext : CollectEvent → Bool
  | CollectEvent.Next _ => true
  | _ => false

/-- The sends on `work`. -/
def CollectEvent.isWork : CollectEvent → Bool
  | CollectEvent.work _ => true
  | _ => false

/-! ## Fixed-layout trace operations (`tracer/operation`) -/

/-- The struct `Finalise`. -/
structure Finalise where
  DeleteEmptyObjects : Bool
deriving DecidableEq, Repr

/-- The struct `CreateAccount`; `ContractIndex` is a `uint32`. -/
structure CreateAccount where
  ContractIndex : Nat
deriving DecidableEq, Repr

/-- Modelled from the spec: the struct `GetNonce`, whose source file is
missing; its test builds it with `NewGetNonce(cIdx)` from an encoded contract
index, the `uint32` that `CreateAccount` holds. -/
structure GetNonce where
  ContractIndex : Nat
deriving DecidableEq, Repr

/-- Modelled from the spec: the struct `Snapshot`, whose source file is
missing; its test builds it with `NewSnapshot(snapID)` from an `int32`. -/
structure Snapshot where
  SnapshotID : Int
deriving DecidableEq, Repr

/-- The bytes `binary.Write` produces for a `bool` field: 1 for true and 0
for false. -/
def putBool (b : Bool) : List Nat :=
  [if b then 1 else 0]

/-- The bytes `binary.Write` produces for a `uint32` field in little-endian
order. -/
def putUint32 (v : Nat) : List Nat :=
  [v % 256, v / 256 % 256, v / 65536 % 256, v / 16777216 % 256]

/-- The bytes `binary.Write` produces for an `int32` field: those of the
value converted to `uint32`. -/
def putInt32 (v : Int) : List Nat :=
  putUint32 (v % 4294967296).toNat

/-- The error of `binary.Read` when the reader ends before the value is
complete: `io.EOF` when no byte was read, `io.ErrUnexpectedEOF` otherwise. -/
def shortRead (file : List Nat) : Err :=
  if file.isEmpty then "EOF" else "unexpected EOF"

/-- What `binary.Read` does for a struct of one `bool` field: it reads one
byte, which decodes to true when it is not zero. -/
def getBool (file : List Nat) : Bool × Option Err :=
  match file with
  | b :: _ => (b ≠ 0, none)
  | _ => (false, some (shortRead file))

/-- What `binary.Read` does for a struct of one `uint32` field: it reads
four bytes and decodes them in little-endian order. -/
def getUint32 (file : List Nat) : Nat × Option Err :=
  match file with
  | b0 :: b1 :: b2 :: b3 :: _ => (b0 + 256 * b1 + 65536 * b2 + 16777216 * b3, none)
  | _ => (0, some (shortRead file))

/-- What `binary.Read` does for a struct of one `int32` field: the `uint32`
read, converted to `int32`. -/
def getInt32 (file : List Nat) : Int × Option Err :=
  let r := getUint32 file
  (if r.1 < 2147483648 then (r.1 : Int) else (r.1 : Int) - 4294967296, r.2)

/-- The method `Finalise.Write` on a buffer: the bytes written. -/
def Finalise.Write (op : Finalise) : List Nat :=
  putBool op.DeleteEmptyObjects

/-- The function `ReadFinalise`: the operation and the error it returns. -/
def ReadFinalise (file : List Nat) : Finalise × Option Err :=
  ({ DeleteEmptyObjects := (getBool file).1 }, (getBool file).2)

/-- The method `CreateAccount.Write` on a buffer: the bytes written. -/
def CreateAccount.Write (op : CreateAccount) : List Nat :=
  putUint32 op.ContractIndex

/-- The function `ReadCreateAccount`: the operation and the error it
returns. -/
def ReadCreateAccount (file : List Nat) : CreateAccount × Option Err :=
  ({ ContractIndex := (getUint32 file).1 }, (getUint32 file).2)

/-- Modelled from the spec: the method `GetNonce.Write`, missing from the
source, as the fixed-layout write of its sibling `CreateAccount`. -/
def GetNonce.Write (op : GetNonce) : List Nat :=
  putUint32 op.ContractIndex

/-- Modelled from the spec: the function `ReadGetNonce`, missing from the
source, as the fixed-layout read of its sibling `ReadCreateAccount`. -/
def ReadGetNonce (file : List Nat) : GetNonce × Option Err :=
  ({ ContractIndex := (getUint32 file).1 }, (getUint32 file).2)

/-- Modelled from the spec: the method `Snapshot.Write`, missing from the
source, as the fixed-layout write of its one `int32` field. -/
def Snapshot.Write (op : Snapshot) : List Nat :=
  putInt32 op.SnapshotID

/-- Modelled from the spec: the function `ReadSnapshot`, missing from the
source, as the fixed-layout read of its one `int32` field. -/
def ReadSnapshot (file : List Nat) : Snapshot × Option Err :=
  ({ SnapshotID := (getInt32 file).1 }, (getInt32 file).2)

/-! ## The code-hash cache (`state/substate.go`) -/

/-- The struct `code_key`: an address and the code, as the bytes of the
string `string(code)`. -/
structure code_key where
  addr : Address
  code : List Nat
deriving DecidableEq, Repr

/-- The global map `code_hashes`, as an association list whose first entry
for a key is the one the map holds. -/
abbrev CodeHashes := List (code_key × Hash)

/-- The function `getHash(addr, code)`, with the hash function
`crypto.Keccak256Hash` as a parameter: the result and the map afterwards. -/
def getHash (Keccak256Hash : List Nat → Hash) (code_hashes : CodeHashes) (addr : Address)
    (code : List Nat) : Hash × CodeHashes :=
  match code_hashes.lookup ⟨addr, code⟩ with
  | some res => (res, code_hashes)
  | none => (Keccak256Hash code, (⟨addr, code⟩, Keccak256Hash code) :: code_hashes)

/-- The function `ReleaseCache()`: the map afterwards. -/
def ReleaseCache (_ : CodeHashes) : CodeHashes := []

/-- A call of one of the two functions that touch `code_hashes`. -/
inductive CacheCall where
  | getHash (addr : Address) (code : List Nat)
  | ReleaseCache
deriving DecidableEq, Repr

/-- The map after a sequence of calls. -/
def runCacheCalls (Keccak256Hash : List Nat → Hash) : List CacheCall → CodeHashes → CodeHashes
  | [], code_hashes => code_hashes
  | CacheCall.getHash addr code :: calls, code_hashes =>
    runCacheCalls Keccak256Hash calls (getHash Keccak256Hash code_hashes addr code).2
  | CacheCall.ReleaseCache :: calls, code_hashes =>
    runCacheCalls Keccak256Hash calls (ReleaseCache code_hashes)

/-- A critical section of one of the two functions: the store at the end of
a `getHash(addr, code)` that missed, or the reset in `ReleaseCache`; the
lookup of `getHash` changes nothing. -/
inductive CacheStep where
  | store (addr : Address) (code : List Nat)
  | release
deriving DecidableEq, Repr

/-- The map after critical sections taken in any order by any number of
goroutines. -/
def runCacheSteps (Keccak256Hash : List Nat → Hash) : List CacheStep → CodeHashes → CodeHashes
  | [], code_hashes => code_hashes
  | CacheStep.store addr code :: steps, code_hashes =>
    runCacheSteps Keccak256Hash steps ((⟨addr, code⟩, Keccak256Hash code) :: code_hashes)
  | CacheStep.release :: steps, _ => runCacheSteps Keccak256Hash steps []

/-- Every entry of the map holds the hash of the code of its key. -/
def CodeHashes.Sound (Keccak256Hash : List Nat → Hash) (code_hashes : CodeHashes) : Prop :=
  ∀ entry ∈ code_hashes, entry.2 = Keccak256Hash entry.1.code

/-! ## Generating the database from events (`cmd/db-cli/db/generate.go`) -/

/-- The fields of `utils.Config` that `prepareOpera` and `recordSubstate`
write: the `uint64` block numbers `First` and `Last`. -/
structure GenerateConfig where
  First : Nat
  Last : Nat
deriving DecidableEq, Repr

/-- The results of the calls the two functions make outside this file: the
file-system tests, the `opera` commands, the database merge, and for each of
the two calls of `getOperaBlock` what `opera.Connect` and
`opera.LatestStateRoot` return. -/
structure GenerateEnv where
  dbExists : Bool
  initOperaFromGenesis : Option Err
  eventsExist : Bool
  runCommand : Option Err
  Merge : Option Err
  Connect : Nat → Option Err
  LatestStateRoot : Nat → Except Err Nat

/-- The function `getOperaBlock`, for its call number `call`. -/
def getOperaBlock (env : GenerateEnv) (call : Nat) : Except Err Nat :=
  match env.Connect call with
  | some err => Except.error err
  | none =>
    match env.LatestStateRoot call with
    | Except.error err => Except.error ("state root not found; " ++ err)
    | Except.ok blockNumber =>
      if blockNumber < 1 then Except.error "opera; block number not found; <nil>"
      else Except.ok blockNumber

/-- The function `prepareOpera`: the configuration afterwards and the error
returned (the error texts leave out the formatted path). -/
def prepareOpera (env : GenerateEnv) (cfg : GenerateConfig) : GenerateConfig × Option Err :=
  match (if env.dbExists then none else env.initOperaFromGenesis) with
  | some err => (cfg, some ("aida-db; Error: " ++ err))
  | none =>
    match getOperaBlock env 0 with
    | Except.error err =>
      (cfg, some ("couldn't retrieve block from existing opera database ; Error: " ++ err))
    | Except.ok lastOperaBlock =>
      ({ cfg with First := (lastOperaBlock + 1) % 2 ^ 64 }, none)

/-- The function `recordSubstate`: the configuration afterwards and the
error returned (the error texts leave out the formatted path). -/
def recordSubstate (env : GenerateEnv) (cfg : GenerateConfig) : GenerateConfig × Option Err :=
  if !env.eventsExist then (cfg, some "supplied events file doesn't exist")
  else
    match env.runCommand with
    | some err => (cfg, some ("import events; " ++ err))
    | none =>
      match getOperaBlock env 1 with
      | Except.error err => ({ cfg with Last := 0 }, some ("getOperaBlock last; " ++ err))
      | Except.ok last =>
        if cfg.First ≥ last then
          ({ cfg with Last := last }, some "supplied events didn't produce any new blocks")
        else
          match env.Merge with
          | some err => ({ cfg with Last := last }, some err)
          | none => ({ cfg with Last := last }, none)

/-- The two steps as `Generate` runs them: `prepareOpera`, and if it
returns no error `recordSubstate`. -/
def prepareAndRecord (env : GenerateEnv) (cfg : GenerateConfig) : GenerateConfig × Option Err :=
  match prepareOpera env cfg with
  | (cfg1, none) => recordSubstate env cfg1
  | (cfg1, some err) => (cfg1, some err)

/-- An environment in which every call succeeds, the head block of opera is
`before` when `prepareOpera` reads it and `after` once the events are
imported. -/
def importEnv (before after : Nat) : GenerateEnv :=
  { dbExists := true
    initOperaFromGenesis := none
    eventsExist := true
    runCommand := none
    Merge := none
    Connect := fun _ => none
    LatestStateRoot := fun call => Except.ok (if call = 0 then before else after) }

/-! ## Replaying a storage trace (`cmd/trace-cli/trace/replay.go`) -/

/-- The operations of a trace the replay loop tells apart: `BeginBlock` with
its block number, the epoch operations, and any other operation by its
identifier. -/
inductive Operation where
  | BeginBlock (BlockNumber : Nat)
  | BeginEpoch (EpochNumber : Nat)
  | EndEpoch
  | other (id : Nat)
deriving DecidableEq, Repr

/-- The fields of `TraceConfig` the replay loop reads, all `uint64`. -/
structure TraceConfig where
  first : Nat
  last : Nat
  epochLength : Nat
deriving DecidableEq, Repr

/-- A call of the local function `run`: on an operation the loop made itself
(`artificial`) or on the operation received from the channel (`replayed`);
`divideByZero` is the run-time panic of `cfg.first / cfg.epochLength` when
`cfg.epochLength` is zero. -/
inductive Ran where
  | artificial (op : Operation)
  | replayed (op : Operation)
  | divideByZero
deriving DecidableEq, Repr

/-- The loop `for op := range opChannel` of `traceReplayTask` over the
operations the channel delivers before it is closed, with the variable
`firstBlock`. -/
def replayLoop (cfg : TraceConfig) : List Operation → Bool → List Ran
  | [], _ => []
  | Operation.BeginBlock block :: rest, firstBlock =>
    if firstBlock ∧ cfg.epochLength = 0 then [Ran.divideByZero]
    else
      (if firstBlock then
          [Ran.artificial (Operation.BeginEpoch (cfg.first / cfg.epochLength))]
        else [])
        ++ (if block > cfg.last then [Ran.artificial Operation.EndEpoch]
            else Ran.replayed (Operation.BeginBlock block) :: replayLoop cfg rest false)
  | op :: rest, firstBlock => Ran.replayed op :: replayLoop cfg rest firstBlock

/-- The replay loop of `traceReplayTask` from its start, where `firstBlock`
is true. -/
def traceReplayTask (cfg : TraceConfig) (opChannel : List Operation) : List Ran :=
  replayLoop cfg opChannel true

/-! ## Bulk load of the flat state database (`state/flat.go`) -/

/-- The methods of the embedded `state.StateDB` that `flatBulkLoad` calls in
`SetBalance`, over the state `σ` of that database; they are library code and
stay parameters. -/
structure FlatLibrary (σ : Type) where
  GetBalance : σ → Address → Int
  AddBalance : σ → Address → Int → σ
  EndBlock : σ → σ

/-- The memory `SetBalance` works on: the numbers the `big.Int` objects
hold, by pointer (the index in the list); the state of the database; and the
field `num_ops`, an `int64`. -/
structure BulkLoadState (σ : Type) where
  bigInts : List Int
  db : σ
  num_ops : Int

/-- The method `(*big.Int).Sub`: `z.Sub(x, y)` stores `x - y` in the object
`z` points to, and returns `z`. -/
def bigIntSub (bigInts : List Int) (z : Nat) (x y : Int) : List Int :=
  bigInts.set z (x - y)

/-- The method `flatBulkLoad.digest`. -/
def flatBulkLoad.digest {σ : Type} (lib : FlatLibrary σ) (l : BulkLoadState σ) :
    BulkLoadState σ :=
  let num_ops := wrapInt (l.num_ops + 1)
  if num_ops.tmod (1000 * 1000) ≠ 0 then { l with num_ops := num_ops }
  else { l with num_ops := num_ops, db := lib.EndBlock l.db }

/-- The method `flatBulkLoad.SetBalance(addr, value)`, where `value` is the
pointer the caller passes: `value.Sub(value, old)` writes to the caller's
object, and the pointer it returns is `value` again. -/
def flatBulkLoad.SetBalance {σ : Type} (lib : FlatLibrary σ) (l : BulkLoadState σ)
    (addr : Address) (value : Nat) : BulkLoadState σ :=
  let old := lib.GetBalance l.db addr
  let bigInts := bigIntSub l.bigInts value (l.bigInts.getD value 0) old
  let db := lib.AddBalance l.db addr (bigInts.getD value 0)
  flatBulkLoad.digest lib { l with bigInts := bigInts, db := db }

/-- A database that holds the balances in a list; `AddBalance` adds the
amount to the balance, which is zero for an address not in the list. -/
def balanceList : FlatLibrary (List (Address × Int)) :=
  { GetBalance := fun db addr => (db.lookup addr).getD 0
    AddBalance := fun db addr amount => (addr, (db.lookup addr).getD 0 + amount) :: db
    EndBlock := fun db => db }

/-! ## Comparing the logs of record and replay (`cmd/trace/trace_compare.go`) -/

/-- The results of the calls `traceCompareLogAction` makes: the number of
arguments, whether the debug flag is set and what `ctx.Set` returns, what
the two calls of `captureDebugLog` return, and the library function
`ReplaceAllString` of the compiled pattern. -/
structure CompareEnv where
  argsLen : Nat
  debugIsSet : Bool
  Set : Option Err
  record : String × Option Err
  replay : String × Option Err
  ReplaceAllString : String → String

/-- The function `isLogEqual`. -/
def isLogEqual (env : CompareEnv) (record replay : String) : Bool :=
  env.ReplaceAllString record == env.ReplaceAllString replay

/-- The function `traceCompareLogAction`: the error it returns. When the
capture of the replay trace fails it returns the variable `recErr`, which is
nil at that point. -/
def traceCompareLogAction (env : CompareEnv) : Option Err :=
  if env.argsLen ≠ 2 then some "trace replay-trace command requires exactly 2 arguments"
  else
    match (if !env.debugIsSet then env.Set else none) with
    | some ctxErr => some ctxErr
    | none =>
      let recErr := env.record.2
      if recErr ≠ none then recErr
      else
        let repErr := env.replay.2
        if repErr ≠ none then recErr
        else if !isLogEqual env env.record.1 env.replay.1 then
          some "Replay trace doesn't match record trace."
        else none

/-! ## Priming in random order (`cmd/trace-cli/trace/statedb.go`) -/

/-- The package `math/rand` as far as `primeStateDBRandom` uses it, over the
state `γ` of a generator: `NewSource(seed)` makes a new source, and `Intn`
is the draw below `n` that `Shuffle` takes from the generator it works on. -/
structure RandLibrary (γ : Type) where
  NewSource : Int → γ
  Intn : γ → Nat → Nat × γ

/-- The exchange `contracts[i], contracts[j] = contracts[j], contracts[i]`. -/
def swapContracts (contracts : List String) (i j : Nat) : List String :=
  (contracts.set i (contracts.getD j "")).set j (contracts.getD i "")

/-- The loop of `rand.Shuffle`, the Fisher-Yates shuffle: for `i` from
`n - 1` down to 1 it draws `j` below `i + 1` and calls `swap(i, j)`. The
first argument is the current `i`. -/
def shuffleLoop {γ : Type} (lib : RandLibrary γ) : Nat → γ → List String → List String × γ
  | 0, g, contracts => (contracts, g)
  | i + 1, g, contracts =>
    shuffleLoop lib i (lib.Intn g (i + 2)).2
      (swapContracts contracts (i + 1) (lib.Intn g (i + 2)).1)

/-- The package-level function `rand.Shuffle(n, swap)`, which works on the
global generator, here in the state `global`. -/
def Shuffle {γ : Type} (lib : RandLibrary γ) (global : γ) (contracts : List String) :
    List String × γ :=
  shuffleLoop lib (contracts.length - 1) global contracts

/-- The order of Go strings on the codes of their characters. -/
def stringLe (a b : String) : Bool :=
  decide (a.data.map Char.toNat ≤ b.data.map Char.toNat)

/-- The library function `sort.Strings`. -/
def sortStrings (contracts : List String) : List String :=
  List.insertionSort (fun a b => stringLe a b = true) contracts

/-- The function `primeStateDBRandom`: the addresses in the order in which
`primeOneAccount` is called, and the global generator afterwards. `ws` lists
the addresses of the world state in the order the `range` visits them,
`Hex` and `HexToAddress` are the library conversions, `global` is the state
of the global generator. The source made by `rand.NewSource(cfg.primeSeed)`
is not used. -/
def primeStateDBRandom {γ : Type} (lib : RandLibrary γ) (Hex : Address → String)
    (HexToAddress : String → Address) (global : γ) (ws : List Address) (primeSeed : Int) :
    List Address × γ :=
  let contracts := sortStrings (ws.map Hex)
  let _source := lib.NewSource primeSeed
  let shuffled := Shuffle lib global contracts
  (shuffled.1.map HexToAddress, shuffled.2)

/-- A generator whose state is the list of the raw values it will produce;
a draw below `n` reduces the next value modulo `n`, and a new source repeats
its seed. -/
def listRand : RandLibrary (List Nat) :=
  { NewSource := fun seed => List.replicate 8 seed.natAbs
    Intn := fun g n => (g.headD 0 % n, g.tail) }

/-- The conversion `Hex` on the addresses 1, 2 and 3. -/
def smallHex (addr : Address) : String :=
  if addr = 1 then "0x01" else if addr = 2 then "0x02" else "0x03"

/-- The conversion `HexToAddress` on the strings of `smallHex`. -/
def smallHexToAddress (c : String) : Address :=
  if c = "0x01" then 1 else if c = "0x02" then 2 else 3

/-! ## Properties of `groupTransactions` -/

theorem groupLoop_flatten (last : Nat) :
    ∀ (rest : List Transaction) (k cb : Nat) (txs : List Transaction),
      cb ≤ last → Ascending rest →
      (groupLoop noAbort last rest k cb txs).flatten
        = txs ++ rest.filter (fun t => decide (t.Block ≤ last))
  | [], k, cb, txs, _, _ => by simp [groupLoop]
  | tx :: rest, k, cb, txs, hcb, hs => by
    unfold Ascending at hs
    rw [List.pairwise_cons] at hs
    by_cases h1 : tx.Block = cb
    · have hle : tx.Block ≤ last := h1 ▸ hcb
      simp only [groupLoop, noAbort, h1, ne_eq, not_true_eq_false, if_false, Bool.false_eq_true]
      rw [groupLoop_flatten last rest (k + 1) cb (txs ++ [tx]) hcb hs.2]
      simp [List.filter_cons, hle]
    · by_cases h2 : tx.Block > last
      · have hnil : (tx :: rest).filter (fun t => decide (t.Block ≤ last)) = [] := by
          rw [List.filter_eq_nil_iff]
          intro a ha
          rcases List.mem_cons.1 ha with rfl | ha
          · simp; omega
          · have := hs.1 a ha
            simp; omega
        simp only [groupLoop, noAbort, ne_eq, h1, not_false_eq_true, if_true, h2,
          Bool.false_eq_true, if_false]
        rw [hnil]; simp
      · have hle : tx.Block ≤ last := by omega
        simp only [groupLoop, noAbort, ne_eq, h1, not_false_eq_true, if_true, h2,
          Bool.false_eq_true, if_false]
        rw [List.flatten_cons, groupLoop_flatten last rest (k + 1) tx.Block [tx] hle hs.2]
        simp [List.filter_cons, hle]

theorem groupLoop_mem (abort : Nat → Bool) (last : Nat) :
    ∀ (rest : List Transaction) (k cb : Nat) (txs : List Transaction),
      ∀ batch ∈ groupLoop abort last rest k cb txs, ∀ r ∈ batch, r ∈ txs ∨ r ∈ rest
  | [], k, cb, txs => by
    intro batch hb r hr
    simp only [groupLoop, List.mem_singleton] at hb
    subst hb
    exact Or.inl hr
  | tx :: rest, k, cb, txs => by
    intro batch hb r hr
    simp only [groupLoop] at hb
    split_ifs at hb with h0 h1 h2
    · simp at hb
    · simp only [List.mem_singleton] at hb
      subst hb
      exact Or.inl hr
    · rcases List.mem_cons.1 hb with rfl | hb
      · exact Or.inl hr
      · rcases groupLoop_mem abort last rest (k + 1) tx.Block [tx] batch hb r hr with h | h
        · exact Or.inr (by simp at h; simp [h])
        · exact Or.inr (List.mem_cons_of_mem _ h)
    · rcases groupLoop_mem abort last rest (k + 1) cb (txs ++ [tx]) batch hb r hr with h | h
      · rcases List.mem_append.1 h with h | h
        · exact Or.inl h
        · exact Or.inr (by simp at h; simp [h])
      · exact Or.inr (List.mem_cons_of_mem _ h)

theorem groupLoop_uniform (abort : Nat → Bool) (last : Nat) :
    ∀ (rest : List Transaction) (k cb : Nat) (txs : List Transaction),
      (∀ r ∈ txs, r.Block = cb) →
      ∀ batch ∈ groupLoop abort last rest k cb txs,
        ∀ r1 ∈ batch, ∀ r2 ∈ batch, r1.Block = r2.Block
  | [], k, cb, txs => by
    intro htx batch hb r1 hr1 r2 hr2
    simp only [groupLoop, List.mem_singleton] at hb
    subst hb
    exact (htx r1 hr1).trans (htx r2 hr2).symm
  | tx :: rest, k, cb, txs => by
    intro htx batch hb r1 hr1 r2 hr2
    have key : batch = txs → r1.Block = r2.Block := by
      intro hb
      subst hb
      exact (htx r1 hr1).trans (htx r2 hr2).symm
    simp only [groupLoop] at hb
    split_ifs at hb with h0 h1 h2
    · simp at hb
    · exact key (by simpa using hb)
    · rcases List.mem_cons.1 hb with hb | hb
      · exact key hb
      · exact groupLoop_uniform abort last rest (k + 1) tx.Block [tx] (by simp) batch hb
          r1 hr1 r2 hr2
    · refine groupLoop_uniform abort last rest (k + 1) cb (txs ++ [tx]) ?_ batch hb
        r1 hr1 r2 hr2
      intro r hr
      rcases List.mem_append.1 hr with h | h
      · exact htx r h
      · have : r = tx := by simpa using h
        subst this
        exact not_not.1 h1

theorem groupLoop_separated (abort : Nat → Bool) (last : Nat) :
    ∀ (rest : List Transaction) (k cb : Nat) (txs : List Transaction),
      Ascending rest → (∀ r ∈ txs, r.Block = cb) → (∀ r ∈ rest, cb ≤ r.Block) →
      (groupLoop abort last rest k cb txs).Pairwise Separated
  | [], k, cb, txs => by
    intro _ _ _
    simp [groupLoop]
  | tx :: rest, k, cb, txs => by
    intro hasc htx hge
    have hasc2 := List.pairwise_cons.1 hasc
    simp only [groupLoop]
    split_ifs with h0 h1 h2
    · exact List.Pairwise.nil
    · simp
    · rw [List.pairwise_cons]
      constructor
      · intro batch hb r1 hr1 r2 hr2
        have hlt : cb < tx.Block :=
          lt_of_le_of_ne (hge tx (List.mem_cons_self _ _)) (Ne.symm h1)
        rw [htx r1 hr1]
        rcases groupLoop_mem abort last rest (k + 1) tx.Block [tx] batch hb r2 hr2 with h | h
        · have : r2 = tx := by simpa using h
          rw [this]; exact hlt
        · exact lt_of_lt_of_le hlt (hasc2.1 r2 h)
      · exact groupLoop_separated abort last rest (k + 1) tx.Block [tx] hasc2.2 (by simp)
          hasc2.1
    · refine groupLoop_separated abort last rest (k + 1) cb (txs ++ [tx]) hasc2.2 ?_ ?_
      · intro r hr
        rcases List.mem_append.1 hr with h | h
        · exact htx r h
        · have : r = tx := by simpa using h
          subst this
          exact not_not.1 h1
      · intro r hr
        exact hge r (List.mem_cons_of_mem _ hr)

theorem filter_block_self (txs : List Transaction) (cb b : Nat)
    (htx : ∀ r ∈ txs, r.Block = cb) (hb : b = cb) :
    txs.filter (fun t => decide (t.Block = b)) = txs := by
  rw [List.filter_eq_self]
  intro a ha
  simp [htx a ha, hb]

theorem filter_block_nil (txs : List Transaction) (b : Nat)
    (htx : ∀ r ∈ txs, r.Block ≠ b) :
    txs.filter (fun t => decide (t.Block = b)) = [] := by
  rw [List.filter_eq_nil_iff]
  intro a ha
  simp [htx a ha]

theorem groupLoop_whole_block (last : Nat) :
    ∀ (rest : List Transaction) (k cb : Nat) (txs : List Transaction),
      Ascending rest → (∀ r ∈ txs, r.Block = cb) → (∀ r ∈ rest, cb ≤ r.Block) →
      ∀ batch ∈ groupLoop noAbort last rest k cb txs, ∀ r ∈ batch,
        batch = (txs ++ rest).filter (fun t => decide (t.Block = r.Block))
  | [], k, cb, txs => by
    intro _ htx _ batch hb r hr
    simp only [groupLoop, List.mem_singleton] at hb
    subst hb
    rw [List.append_nil, filter_block_self batch cb r.Block htx (htx r hr)]
  | tx :: rest, k, cb, txs => by
    intro hasc htx hge batch hb r hr
    have hasc2 := List.pairwise_cons.1 hasc
    have key : tx.Block ≠ cb → batch = txs →
        batch = (txs ++ tx :: rest).filter (fun t => decide (t.Block = r.Block)) := by
      intro h1 hb
      subst hb
      have hlt : cb < tx.Block :=
        lt_of_le_of_ne (hge tx (List.mem_cons_self _ _)) (Ne.symm h1)
      rw [List.filter_append, filter_block_self batch cb r.Block htx (htx r hr),
        filter_block_nil (tx :: rest) r.Block, List.append_nil]
      intro a ha
      rw [htx r hr]
      rcases List.mem_cons.1 ha with rfl | ha
      · exact h1
      · have := hasc2.1 a ha
        omega
    simp only [groupLoop, noAbort, Bool.false_eq_true, if_false] at hb
    split_ifs at hb with h1 h2
    · exact key h1 (by simpa using hb)
    · rcases List.mem_cons.1 hb with hb | hb
      · exact key h1 hb
      · have ih := groupLoop_whole_block last rest (k + 1) tx.Block [tx] hasc2.2 (by simp)
          hasc2.1 batch hb r hr
        have hlt : cb < tx.Block :=
          lt_of_le_of_ne (hge tx (List.mem_cons_self _ _)) (Ne.symm h1)
        have hr2 : tx.Block ≤ r.Block := by
          rcases groupLoop_mem noAbort last rest (k + 1) tx.Block [tx] batch hb r hr with h | h
          · have : r = tx := by simpa using h
            rw [this]
          · exact hasc2.1 r h
        rw [List.filter_append, filter_block_nil txs r.Block, List.nil_append]
        · simpa using ih
        · intro a ha
          rw [htx a ha]
          omega
    · have h1 : tx.Block = cb := not_not.1 h1
      have ih := groupLoop_whole_block last rest (k + 1) cb (txs ++ [tx]) hasc2.2 ?_ ?_
        batch hb r hr
      · simpa using ih
      · intro r hr
        rcases List.mem_append.1 hr with h | h
        · exact htx r h
        · have : r = tx := by simpa using h
          subst this
          exact h1
      · intro r hr
        exact hge r (List.mem_cons_of_mem _ hr)

theorem groupLoop_nonempty (abort : Nat → Bool) (last : Nat) :
    ∀ (rest : List Transaction) (k cb : Nat) (txs : List Transaction),
      txs ≠ [] → ∀ batch ∈ groupLoop abort last rest k cb txs, batch ≠ []
  | [], k, cb, txs => by
    intro htx batch hb
    simp only [groupLoop, List.mem_singleton] at hb
    subst hb
    exact htx
  | tx :: rest, k, cb, txs => by
    intro htx batch hb
    simp only [groupLoop] at hb
    split_ifs at hb with h0 h1 h2
    · simp at hb
    · simp only [List.mem_singleton] at hb
      subst hb
      exact htx
    · rcases List.mem_cons.1 hb with hb | hb
      · subst hb
        exact htx
      · exact groupLoop_nonempty abort last rest (k + 1) tx.Block [tx] (by simp) batch hb
    · exact groupLoop_nonempty abort last rest (k + 1) cb (txs ++ [tx]) (by simp) batch hb

theorem groupLoop_tail_nonempty (abort : Nat → Bool) (last : Nat) :
    ∀ (rest : List Transaction) (k cb : Nat) (txs : List Transaction),
      ∀ batch ∈ (groupLoop abort last rest k cb txs).tail, batch ≠ []
  | [], k, cb, txs => by
    intro batch hb
    simp [groupLoop] at hb
  | tx :: rest, k, cb, txs => by
    intro batch hb
    simp only [groupLoop] at hb
    split_ifs at hb with h0 h1 h2
    · simp at hb
    · simp at hb
    · rw [List.tail_cons] at hb
      exact groupLoop_nonempty abort last rest (k + 1) tx.Block [tx] (by simp) batch hb
    · exact groupLoop_tail_nonempty abort last rest (k + 1) cb (txs ++ [tx]) batch hb

theorem groupLoop_head (last : Nat) :
    ∀ (rest : List Transaction) (k cb : Nat) (txs : List Transaction),
      (groupLoop noAbort last rest k cb txs).head?
        = some (txs ++ rest.takeWhile (fun t => decide (t.Block = cb)))
  | [], k, cb, txs => by simp [groupLoop]
  | tx :: rest, k, cb, txs => by
    simp only [groupLoop, noAbort, Bool.false_eq_true, if_false]
    split_ifs with h1 h2
    · simp [List.takeWhile_cons, h1]
    · simp [List.takeWhile_cons, h1]
    · have h1 : tx.Block = cb := not_not.1 h1
      rw [groupLoop_head last rest (k + 1) cb (txs ++ [tx])]
      simp [List.takeWhile_cons, h1]

/-- C1: for a stream in ascending block order and without abort, the batches
sent on `blocks`, concatenated in emission order, are the input restricted to
the records with `Block ≤ cfg.Last` (so each such record is in exactly one
batch, in its original position), and no record of a batch lies beyond
`cfg.Last`. -/
theorem groupTransactions_concat (last : Nat) (iter : List Transaction)
    (hasc : Ascending iter) :
    (groupTransactions noAbort last iter).flatten
        = iter.filter (fun t => decide (t.Block ≤ last)) ∧
      ∀ batch ∈ groupTransactions noAbort last iter, ∀ r ∈ batch, r.Block ≤ last := by
  have h := groupLoop_flatten last iter 0 0 [] (Nat.zero_le _) hasc
  rw [List.nil_append] at h
  refine ⟨h, ?_⟩
  intro batch hb r hr
  have hmem : r ∈ (groupTransactions noAbort last iter).flatten :=
    List.mem_flatten.2 ⟨batch, hb, hr⟩
  unfold groupTransactions at hmem
  rw [h, List.mem_filter] at hmem
  simpa using hmem.2

theorem groupTransactions_concat_witness :
    Ascending [⟨2, 1, 0⟩, ⟨2, 2, 0⟩, ⟨3, 1, 0⟩, ⟨4, 1, 0⟩] ∧
      (groupTransactions noAbort 3 [⟨2, 1, 0⟩, ⟨2, 2, 0⟩, ⟨3, 1, 0⟩, ⟨4, 1, 0⟩]).flatten
        = [⟨2, 1, 0⟩, ⟨2, 2, 0⟩, ⟨3, 1, 0⟩] :=
  ⟨by decide,
    (groupTransactions_concat 3 [⟨2, 1, 0⟩, ⟨2, 2, 0⟩, ⟨3, 1, 0⟩, ⟨4, 1, 0⟩] (by decide)).1.trans
      (by decide)⟩

/-- C2: every batch sent on `blocks` holds records of one block only, for
every input stream and abort behaviour; for a stream with non-decreasing
block numbers, records of different batches lie in different blocks (earlier
batch, smaller block), and without abort a batch holding a record of block
`b` is the list of all records of block `b` of the stream. -/
theorem groupTransactions_one_block_per_batch (abort : Nat → Bool) (last : Nat)
    (iter : List Transaction) :
    (∀ batch ∈ groupTransactions abort last iter,
        ∀ r1 ∈ batch, ∀ r2 ∈ batch, r1.Block = r2.Block) ∧
      (Ascending iter → (groupTransactions abort last iter).Pairwise Separated) ∧
      (Ascending iter → ∀ batch ∈ groupTransactions noAbort last iter, ∀ r ∈ batch,
        batch = iter.filter (fun t => decide (t.Block = r.Block))) := by
  refine ⟨?_, ?_, ?_⟩
  · exact groupLoop_uniform abort last iter 0 0 [] (by simp)
  · intro hasc
    exact groupLoop_separated abort last iter 0 0 [] hasc (by simp) (by simp)
  · intro hasc batch hb r hr
    have h := groupLoop_whole_block last iter 0 0 [] hasc (by simp) (by simp) batch hb r hr
    simpa using h

/-- C2 at the stream `(2,1),(2,2),(3,1),(4,1)` with `cfg.Last = 4`. -/
theorem groupTransactions_one_block_per_batch_witness :
    Ascending [⟨2, 1, 0⟩, ⟨2, 2, 0⟩, ⟨3, 1, 0⟩, ⟨4, 1, 0⟩] ∧
      (groupTransactions noAbort 4 [⟨2, 1, 0⟩, ⟨2, 2, 0⟩, ⟨3, 1, 0⟩, ⟨4, 1, 0⟩]).Pairwise
        Separated ∧
      groupTransactions noAbort 4 [⟨2, 1, 0⟩, ⟨2, 2, 0⟩, ⟨3, 1, 0⟩, ⟨4, 1, 0⟩]
        = [[], [⟨2, 1, 0⟩, ⟨2, 2, 0⟩], [⟨3, 1, 0⟩], [⟨4, 1, 0⟩]] :=
  ⟨by decide,
    (groupTransactions_one_block_per_batch noAbort 4
      [⟨2, 1, 0⟩, ⟨2, 2, 0⟩, ⟨3, 1, 0⟩, ⟨4, 1, 0⟩]).2.1 (by decide),
    by decide⟩

/-- C3, counterexample: for the empty stream the only batch sent is empty,
and for a stream starting in block 5 the first batch sent is empty. -/
theorem groupTransactions_sends_empty_batch :
    groupTransactions noAbort 10 [] = [[]] ∧
      groupTransactions noAbort 10 [⟨5, 0, 0⟩] = [[], [⟨5, 0, 0⟩]] := by
  decide

/-- C3, amended: every batch sent on `blocks` after the first one is
non-empty, for every input stream and abort behaviour; without abort the
first batch consists of the leading records of block 0 (it is empty when the
stream is empty or starts in another block); and `runBlocks` skips an empty
batch without any call or channel operation. -/
theorem groupTransactions_nonempty_after_first (abort : Nat → Bool) (last : Nat)
    (iter : List Transaction) :
    (∀ batch ∈ (groupTransactions abort last iter).tail, batch ≠ []) ∧
      (groupTransactions noAbort last iter).head?
        = some (iter.takeWhile (fun t => decide (t.Block = 0))) ∧
      ∀ (env : Env) (err : Option Err), runBatch env err [] = (err, []) := by
  refine ⟨groupLoop_tail_nonempty abort last iter 0 0 [], ?_, fun _ _ => rfl⟩
  have h := groupLoop_head last iter 0 0 []
  simpa using h

/-! ## Properties of `runBlocks` -/

theorem runTxLoop_ok (env : Env) (state : Handle) (block : Nat) :
    ∀ (err : Option Err) (txs : List Transaction),
      (∀ tx ∈ txs, env.ProcessTx Handle.db tx.Block tx.Transaction tx.Substate = none) →
      (runTxLoop env state block err txs).2 = txs.flatMap (completedTx state)
  | _, [] => by
    intro _
    simp [runTxLoop]
  | _, tx :: rest => by
    intro h
    have h1 := h tx (List.mem_cons_self _ _)
    have ih := runTxLoop_ok env state block none rest
      (fun t ht => h t (List.mem_cons_of_mem _ ht))
    simp only [runTxLoop, h1, List.flatMap_cons, ih, completedTx]

theorem runTxLoop_fail (env : Env) (state : Handle) (block : Nat) (r : Transaction)
    (e : Err) (post : List Transaction)
    (hfail : env.ProcessTx Handle.db r.Block r.Transaction r.Substate = some e) :
    ∀ (err : Option Err) (pre : List Transaction),
      (∀ tx ∈ pre, env.ProcessTx Handle.db tx.Block tx.Transaction tx.Substate = none) →
      (runTxLoop env state block err (pre ++ r :: post)).2
        = pre.flatMap (completedTx state) ++ failedTx state block r e
  | _, [] => by
    intro _
    simp [runTxLoop, hfail, failedTx]
  | _, tx :: pre => by
    intro h
    have h1 := h tx (List.mem_cons_self _ _)
    have ih := runTxLoop_fail env state block r e post hfail none pre
      (fun t ht => h t (List.mem_cons_of_mem _ ht))
    rw [List.cons_append]
    simp only [runTxLoop, h1, ih, List.flatMap_cons, completedTx, List.append_assoc]

theorem runBatch_events (env : Env) (err : Option Err) (first : Transaction)
    (rest : List Transaction)
    (hopen : env.GetArchiveState (subOne64 first.Block) = none) :
    (runBatch env err (first :: rest)).2
      = [Event.GetArchiveState Handle.db (subOne64 first.Block),
          Event.BeginBlock (Handle.archive (subOne64 first.Block)) first.Block]
        ++ (runTxLoop env (Handle.archive (subOne64 first.Block)) first.Block none
              (first :: rest)).2
        ++ closeBatch env (Handle.archive (subOne64 first.Block)) first.Block := by
  simp only [runBatch, hopen, closeBatch]
  cases env.Close (Handle.archive (subOne64 first.Block)) <;> simp

theorem subOne64_pos (block : Nat) (h0 : 0 < block) (h64 : block < 2 ^ 64) :
    subOne64 block = block - 1 := by
  unfold subOne64
  have h : block + (2 ^ 64 - 1) = (block - 1) + 2 ^ 64 := by omega
  rw [h, Nat.add_mod_right, Nat.mod_eq_of_lt (by omega)]

theorem completedTx_calls (state : Handle) (txs : List Transaction) :
    (txs.flatMap (completedTx state)).filter Event.isCall
      = txs.flatMap (fun tx =>
          [Event.BeginTransaction state (toUint32 tx.Transaction),
           Event.ProcessTx Handle.db tx.Block tx.Transaction tx.Substate,
           Event.EndTransaction state]) := by
  induction txs with
  | nil => rfl
  | cons tx txs ih =>
    rw [List.flatMap_cons, List.flatMap_cons, List.filter_append, ih]
    rfl

theorem runTxLoop_no_close (env : Env) (state : Handle) (block : Nat) :
    ∀ (err : Option Err) (txs : List Transaction),
      (runTxLoop env state block err txs).2.filter Event.isClose = []
  | _, [] => rfl
  | _, tx :: rest => by
    have ih := runTxLoop_no_close env state block none rest
    simp only [runTxLoop]
    cases env.ProcessTx Handle.db tx.Block tx.Transaction tx.Substate with
    | none =>
      simp only [List.filter_append, ih, List.append_nil]
      rfl
    | some e => rfl

theorem closeBatch_close (env : Env) (state : Handle) (block : Nat) :
    (closeBatch env state block).filter Event.isClose = [Event.Close state] ∧
      (closeBatch env state block).filter Event.isCall = [Event.Close state] := by
  unfold closeBatch
  cases env.Close state <;> exact ⟨rfl, rfl⟩

/-- C4: for a non-empty batch of block `b` whose snapshot opens and whose
transactions all process without error, the calls of `runBlocks` for the
batch are, in this order: `GetArchiveState(b-1)` on `db`, `BeginBlock(b)` on
the snapshot, for each record in batch order `BeginTransaction(index)` on the
snapshot, `ProcessTx` (with the handle `db` as first argument, see C5) and
`EndTransaction` on the snapshot, and finally `Close` on the snapshot. The
`uint64` value `b-1` is `b - 1` whenever `0 < b < 2^64`. -/
theorem runBlocks_call_sequence (env : Env) (err : Option Err) (first : Transaction)
    (rest : List Transaction)
    (hopen : env.GetArchiveState (subOne64 first.Block) = none)
    (hproc : ∀ tx ∈ first :: rest, ∀ h : Handle,
      env.ProcessTx h tx.Block tx.Transaction tx.Substate = none) :
    (runBatch env err (first :: rest)).2.filter Event.isCall
        = [Event.GetArchiveState Handle.db (subOne64 first.Block),
            Event.BeginBlock (Handle.archive (subOne64 first.Block)) first.Block]
          ++ (first :: rest).flatMap (fun tx =>
              [Event.BeginTransaction (Handle.archive (subOne64 first.Block))
                (toUint32 tx.Transaction),
               Event.ProcessTx Handle.db tx.Block tx.Transaction tx.Substate,
               Event.EndTransaction (Handle.archive (subOne64 first.Block))])
          ++ [Event.Close (Handle.archive (subOne64 first.Block))] ∧
      (0 < first.Block → first.Block < 2 ^ 64 → subOne64 first.Block = first.Block - 1) := by
  refine ⟨?_, subOne64_pos first.Block⟩
  rw [runBatch_events env err first rest hopen,
    runTxLoop_ok env _ _ none (first :: rest) (fun tx ht => hproc tx ht Handle.db),
    List.filter_append, List.filter_append, completedTx_calls, (closeBatch_close env _ _).2]
  rfl

/-- C4 at the batch `(5,0),(5,1)` with every call succeeding. -/
theorem runBlocks_call_sequence_witness :
    (runBatch okEnv none [⟨5, 0, 0⟩, ⟨5, 1, 0⟩]).2.filter Event.isCall
      = [Event.GetArchiveState Handle.db 4,
         Event.BeginBlock (Handle.archive 4) 5,
         Event.BeginTransaction (Handle.archive 4) 0,
         Event.ProcessTx Handle.db 5 0 0,
         Event.EndTransaction (Handle.archive 4),
         Event.BeginTransaction (Handle.archive 4) 1,
         Event.ProcessTx Handle.db 5 1 0,
         Event.EndTransaction (Handle.archive 4),
         Event.Close (Handle.archive 4)] :=
  (runBlocks_call_sequence okEnv none ⟨5, 0, 0⟩ [⟨5, 1, 0⟩] rfl (fun _ _ _ => rfl)).1.trans
    (by decide)

/-- C5, the code at a batch holding the one record `(5,0)`: the snapshot of
block 4 is obtained, `BeginBlock`, `BeginTransaction`, `EndTransaction` and
`Close` are called on it, and `ProcessTx` is called with the shared handle
`db`, not with the snapshot. -/
theorem runBlocks_processes_on_db :
    runBlocks okEnv [[⟨5, 0, 0⟩]]
      = [Event.GetArchiveState Handle.db 4,
         Event.BeginBlock (Handle.archive 4) 5,
         Event.BeginTransaction (Handle.archive 4) 0,
         Event.ProcessTx Handle.db 5 0 0,
         Event.EndTransaction (Handle.archive 4),
         Event.transactionDone 0,
         Event.Close (Handle.archive 4),
         Event.blockDone 5,
         Event.closeDone] := by
  decide

/-- C10: for every non-empty batch whose snapshot was obtained, and whatever
the results of processing and closing are, the `Close` calls made for the
batch are exactly one `Close` on that snapshot. -/
theorem runBlocks_close_once (env : Env) (err : Option Err) (first : Transaction)
    (rest : List Transaction)
    (hopen : env.GetArchiveState (subOne64 first.Block) = none) :
    (runBatch env err (first :: rest)).2.filter Event.isClose
      = [Event.Close (Handle.archive (subOne64 first.Block))] := by
  rw [runBatch_events env err first rest hopen, List.filter_append, List.filter_append,
    runTxLoop_no_close, (closeBatch_close env _ _).1]
  rfl

/-- C10 at the batch `(5,0),(5,1),(5,2)` in which processing `(5,1)` fails. -/
theorem runBlocks_close_once_witness :
    (runBatch (failAt 5 1 "boom") none [⟨5, 0, 0⟩, ⟨5, 1, 0⟩, ⟨5, 2, 0⟩]).2
        = [Event.GetArchiveState Handle.db 4,
           Event.BeginBlock (Handle.archive 4) 5,
           Event.BeginTransaction (Handle.archive 4) 0,
           Event.ProcessTx Handle.db 5 0 0,
           Event.EndTransaction (Handle.archive 4),
           Event.transactionDone 0,
           Event.BeginTransaction (Handle.archive 4) 1,
           Event.ProcessTx Handle.db 5 1 0,
           Event.issues (Issue.process 5 1 "boom"),
           Event.Close (Handle.archive 4),
           Event.blockDone 5] ∧
      (runBatch (failAt 5 1 "boom") none [⟨5, 0, 0⟩, ⟨5, 1, 0⟩, ⟨5, 2, 0⟩]).2.filter
          Event.isClose
        = [Event.Close (Handle.archive 4)] :=
  ⟨by decide,
    (runBlocks_close_once (failAt 5 1 "boom") none ⟨5, 0, 0⟩ [⟨5, 1, 0⟩, ⟨5, 2, 0⟩] rfl).trans
      (by decide)⟩

theorem runTxLoop_congr (env env' : Env) (state : Handle) (block : Nat) :
    ∀ (err : Option Err) (txs : List Transaction),
      (∀ tx ∈ txs, env'.ProcessTx Handle.db tx.Block tx.Transaction tx.Substate
        = env.ProcessTx Handle.db tx.Block tx.Transaction tx.Substate) →
      runTxLoop env' state block err txs = runTxLoop env state block err txs
  | _, [] => fun _ => rfl
  | _, tx :: rest => by
    intro h
    have ih := runTxLoop_congr env env' state block none rest
      (fun t ht => h t (List.mem_cons_of_mem _ ht))
    simp only [runTxLoop, h tx (List.mem_cons_self _ _), ih]

theorem runBatch_congr (env env' : Env)
    (hget : ∀ n, env'.GetArchiveState n = env.GetArchiveState n)
    (hclose : ∀ h, env'.Close h = env.Close h)
    (err err' : Option Err) (batch : List Transaction)
    (hproc : ∀ tx ∈ batch, env'.ProcessTx Handle.db tx.Block tx.Transaction tx.Substate
      = env.ProcessTx Handle.db tx.Block tx.Transaction tx.Substate) :
    (runBatch env' err' batch).2 = (runBatch env err batch).2 := by
  cases batch with
  | nil => rfl
  | cons first rest =>
    simp only [runBatch, hget, hclose,
      runTxLoop_congr env env' _ _ none (first :: rest) hproc]

theorem runBlocksLoop_congr (env env' : Env)
    (hget : ∀ n, env'.GetArchiveState n = env.GetArchiveState n)
    (hclose : ∀ h, env'.Close h = env.Close h) :
    ∀ (blocks : List (List Transaction)) (err err' : Option Err),
      (∀ batch ∈ blocks, ∀ tx ∈ batch,
        env'.ProcessTx Handle.db tx.Block tx.Transaction tx.Substate
          = env.ProcessTx Handle.db tx.Block tx.Transaction tx.Substate) →
      runBlocksLoop env' err' blocks = runBlocksLoop env err blocks
  | [], _, _ => fun _ => rfl
  | batch :: blocks, err, err' => by
    intro h
    simp only [runBlocksLoop]
    rw [runBatch_congr env env' hget hclose err err' batch (h batch (List.mem_cons_self _ _)),
      runBlocksLoop_congr env env' hget hclose blocks (runBatch env err batch).1
        (runBatch env' err' batch).1 (fun b hb => h b (List.mem_cons_of_mem _ hb))]

/-- C6: let a batch whose snapshot opens consist of the records `pre`, all
processed without error, the record `r`, whose processing fails with `e`,
and the records `post`. Then the events of the worker for this batch are:
the opening of the snapshot, the completed transactions `pre`, the begun and
failed transaction `r` with one send on `issues` for it, `Close` and the send
on `blockDone`; no record of `post` is begun or processed. The events for the
batches received afterwards are those of a worker starting on these batches
with any value of `err`, in any environment `env'` that gives the same
results on them (in particular one in which `r` does not fail). -/
theorem runBlocks_failure_contained (env env' : Env) (err err' : Option Err)
    (pre post : List Transaction) (r : Transaction) (e : Err)
    (blocks : List (List Transaction))
    (hopen : env.GetArchiveState (subOne64 (pre.headD r).Block) = none)
    (hpre : ∀ tx ∈ pre, ∀ h : Handle,
      env.ProcessTx h tx.Block tx.Transaction tx.Substate = none)
    (hfail : ∀ h : Handle, env.ProcessTx h r.Block r.Transaction r.Substate = some e)
    (hget : ∀ n, env'.GetArchiveState n = env.GetArchiveState n)
    (hclose : ∀ h, env'.Close h = env.Close h)
    (hproc : ∀ batch ∈ blocks, ∀ tx ∈ batch, ∀ h : Handle,
      env'.ProcessTx h tx.Block tx.Transaction tx.Substate
        = env.ProcessTx h tx.Block tx.Transaction tx.Substate) :
    runBlocksLoop env err ((pre ++ r :: post) :: blocks)
      = [Event.GetArchiveState Handle.db (subOne64 (pre.headD r).Block),
          Event.BeginBlock (Handle.archive (subOne64 (pre.headD r).Block)) (pre.headD r).Block]
        ++ pre.flatMap (completedTx (Handle.archive (subOne64 (pre.headD r).Block)))
        ++ failedTx (Handle.archive (subOne64 (pre.headD r).Block)) (pre.headD r).Block r e
        ++ closeBatch env (Handle.archive (subOne64 (pre.headD r).Block)) (pre.headD r).Block
        ++ runBlocksLoop env' err' blocks := by
  have hrest := runBlocksLoop_congr env env' hget hclose blocks
    (runBatch env err (pre ++ r :: post)).1 err' (fun b hb tx ht => hproc b hb tx ht Handle.db)
  have hbatch : (runBatch env err (pre ++ r :: post)).2
      = [Event.GetArchiveState Handle.db (subOne64 (pre.headD r).Block),
          Event.BeginBlock (Handle.archive (subOne64 (pre.headD r).Block)) (pre.headD r).Block]
        ++ pre.flatMap (completedTx (Handle.archive (subOne64 (pre.headD r).Block)))
        ++ failedTx (Handle.archive (subOne64 (pre.headD r).Block)) (pre.headD r).Block r e
        ++ closeBatch env (Handle.archive (subOne64 (pre.headD r).Block))
            (pre.headD r).Block := by
    cases pre with
    | nil =>
      rw [List.nil_append, runBatch_events env err r post hopen,
        ← List.nil_append (r :: post),
        runTxLoop_fail env _ _ r e post (hfail Handle.db) none [] (by simp)]
      simp
    | cons first pre =>
      rw [List.cons_append, runBatch_events env err first (pre ++ r :: post) hopen,
        ← List.cons_append,
        runTxLoop_fail env _ _ r e post (hfail Handle.db) none (first :: pre)
          (fun tx ht => hpre tx ht Handle.db)]
      simp
  simp only [runBlocksLoop]
  rw [hbatch, hrest]

/-- C6 at the batches `(5,0),(5,1),(5,2)` and `(6,0)`, processing `(5,1)`
failing: the second batch is processed as in the environment without the
failure. -/
theorem runBlocks_failure_contained_witness :
    runBlocksLoop (failAt 5 1 "boom") none [[⟨5, 0, 0⟩, ⟨5, 1, 0⟩, ⟨5, 2, 0⟩], [⟨6, 0, 0⟩]]
      = [Event.GetArchiveState Handle.db 4,
         Event.BeginBlock (Handle.archive 4) 5,
         Event.BeginTransaction (Handle.archive 4) 0,
         Event.ProcessTx Handle.db 5 0 0,
         Event.EndTransaction (Handle.archive 4),
         Event.transactionDone 0,
         Event.BeginTransaction (Handle.archive 4) 1,
         Event.ProcessTx Handle.db 5 1 0,
         Event.issues (Issue.process 5 1 "boom"),
         Event.Close (Handle.archive 4),
         Event.blockDone 5]
        ++ runBlocksLoop okEnv none [[⟨6, 0, 0⟩]] :=
  (runBlocks_failure_contained (failAt 5 1 "boom") okEnv none none [⟨5, 0, 0⟩] [⟨5, 2, 0⟩]
    ⟨5, 1, 0⟩ "boom" [[⟨6, 0, 0⟩]] rfl
    (by
      intro tx ht h
      rw [List.mem_singleton] at ht
      subst ht
      rfl)
    (fun _ => rfl) (fun _ => rfl) (fun _ => rfl)
    (by
      intro batch hb tx ht h
      rw [List.mem_singleton] at hb
      subst hb
      rw [List.mem_singleton] at ht
      subst ht
      rfl)).trans
    (by decide)

/-! ## Properties of the aggregator loop of `RunArchive` -/

theorem received_append (log : List AggEvent) (more : List AggEvent) :
    received (log ++ more) = received log ++ received more := by
  simp [received, List.filterMap_append]

theorem closesOnFirst_append (issues : List Issue) (issue : Issue) (h : issues ≠ []) :
    closesOnFirst (issues ++ [issue]) = closesOnFirst issues ++ [AggEvent.recv issue] := by
  cases issues with
  | nil => exact absurd rfl h
  | cons first later => simp [closesOnFirst]

theorem Aggregator.init_inv (cfg : Config) : (Aggregator.init cfg).Inv :=
  ⟨rfl, rfl, rfl, rfl⟩

theorem Aggregator.recvIssue_inv (cfg : Config) (s : Aggregator) (hs : s.Inv) :
    s.select cfg Action.recvIssue ≠ Outcome.panic ∧
      ∀ t, s.select cfg Action.recvIssue = Outcome.ok t → t.Inv := by
  obtain ⟨hlog, herr, habort, hclosed⟩ := hs
  simp only [Aggregator.select]
  cases hq : s.issues with
  | nil => simp
  | cons issue queue =>
    by_cases hab : s.abort = true
    · have hcl : s.abortClosed = false := by rw [hclosed, hab]; rfl
      have hrec : received s.log = [] := by
        rw [hab] at habort
        exact List.isEmpty_iff.1 habort.symm
      have hl : s.log = [] := by rw [hlog, hrec]; rfl
      simp only [hab, hcl, if_true, Bool.false_eq_true, if_false, ne_eq, reduceCtorEq,
        not_false_eq_true, Outcome.ok.injEq, true_and]
      intro t ht
      subst ht
      constructor <;> simp [hl, received, closesOnFirst]
    · have hne : received s.log ≠ [] := by
        intro h
        rw [h] at habort
        exact hab habort
      have hr : received (s.log ++ [AggEvent.recv issue]) = received s.log ++ [issue] := by
        rw [received_append]; rfl
      simp only [hab, if_false, ne_eq, reduceCtorEq, not_false_eq_true, Outcome.ok.injEq,
        true_and]
      intro t ht
      subst ht
      constructor
      · show s.log ++ [AggEvent.recv issue] = closesOnFirst (received (s.log ++ _))
        rw [hr, closesOnFirst_append _ _ hne, ← hlog]
      · show some issue = (received (s.log ++ _)).getLast?
        rw [hr]; simp
      · show false = (received (s.log ++ _)).isEmpty
        rw [hr]
        simp
      · show s.abortClosed = !false
        rw [hclosed, Bool.eq_false_iff.2 hab]

theorem Aggregator.select_inv (cfg : Config) (a : Action) (s : Aggregator) (hs : s.Inv) :
    s.select cfg a ≠ Outcome.panic ∧ ∀ t, s.select cfg a = Outcome.ok t → t.Inv := by
  cases a with
  | recvIssue => exact Aggregator.recvIssue_inv cfg s hs
  | recvTransaction =>
    obtain ⟨hlog, herr, habort, hclosed⟩ := hs
    simp only [Aggregator.select]
    cases hq : s.finishedTransaction with
    | nil => simp
    | cons tx queue =>
      refine ⟨by split_ifs <;> simp, ?_⟩
      intro t ht
      split_ifs at ht <;>
      · simp only [Outcome.ok.injEq] at ht
        subst ht
        exact ⟨hlog, herr, habort, hclosed⟩
  | recvBlock =>
    obtain ⟨hlog, herr, habort, hclosed⟩ := hs
    simp only [Aggregator.select]
    cases hq : s.finishedBlock with
    | nil => simp
    | cons block queue =>
      refine ⟨by split_ifs <;> simp, ?_⟩
      intro t ht
      split_ifs at ht <;>
      · simp only [Outcome.ok.injEq] at ht
        subst ht
        exact ⟨hlog, herr, habort, hclosed⟩
  | recvDone =>
    obtain ⟨hlog, herr, habort, hclosed⟩ := hs
    simp only [Aggregator.select]
    refine ⟨by split_ifs <;> simp, ?_⟩
    intro t ht
    split_ifs at ht
    simp only [Outcome.ok.injEq] at ht
    subst ht
    exact ⟨hlog, herr, habort, hclosed⟩
  | sendIssue _ => simp [Aggregator.select]
  | sendTransaction _ => simp [Aggregator.select]
  | sendBlock _ => simp [Aggregator.select]
  | closeDone _ => simp [Aggregator.select]

theorem Aggregator.step_inv (cfg : Config) (a : Action) (s : Aggregator) (hs : s.Inv) :
    s.step cfg a ≠ Outcome.panic ∧ ∀ t, s.step cfg a = Outcome.ok t → t.Inv := by
  have hsel := Aggregator.select_inv cfg a s hs
  obtain ⟨hlog, herr, habort, hclosed⟩ := hs
  cases a with
  | sendIssue issue =>
    simp only [Aggregator.step]
    refine ⟨by split_ifs <;> simp, ?_⟩
    intro t ht
    split_ifs at ht
    simp only [Outcome.ok.injEq] at ht
    subst ht
    exact ⟨hlog, herr, habort, hclosed⟩
  | sendTransaction tx =>
    simp only [Aggregator.step]
    refine ⟨by split_ifs <;> simp, ?_⟩
    intro t ht
    split_ifs at ht
    simp only [Outcome.ok.injEq] at ht
    subst ht
    exact ⟨hlog, herr, habort, hclosed⟩
  | sendBlock block =>
    simp only [Aggregator.step]
    refine ⟨by split_ifs <;> simp, ?_⟩
    intro t ht
    split_ifs at ht
    simp only [Outcome.ok.injEq] at ht
    subst ht
    exact ⟨hlog, herr, habort, hclosed⟩
  | closeDone j =>
    simp only [Aggregator.step]
    refine ⟨by split_ifs <;> simp, ?_⟩
    intro t ht
    split_ifs at ht
    simp only [Outcome.ok.injEq] at ht
    subst ht
    exact ⟨hlog, herr, habort, hclosed⟩
  | recvIssue =>
    simp only [Aggregator.step]
    split_ifs
    · exact hsel
    · simp
  | recvTransaction =>
    simp only [Aggregator.step]
    split_ifs
    · exact hsel
    · simp
  | recvBlock =>
    simp only [Aggregator.step]
    split_ifs
    · exact hsel
    · simp
  | recvDone =>
    simp only [Aggregator.step]
    split_ifs
    · exact hsel
    · simp

theorem Aggregator.run_inv (cfg : Config) :
    ∀ (schedule : List Action) (s : Aggregator), s.Inv →
      s.run cfg schedule ≠ Outcome.panic ∧ ∀ t, s.run cfg schedule = Outcome.ok t → t.Inv
  | [], s, hs => by
    simp only [Aggregator.run, ne_eq, reduceCtorEq, not_false_eq_true, Outcome.ok.injEq,
      true_and]
    intro t ht
    exact ht ▸ hs
  | a :: schedule, s, hs => by
    have hstep := Aggregator.step_inv cfg a s hs
    simp only [Aggregator.run]
    cases hst : s.step cfg a with
    | ok t => exact Aggregator.run_inv cfg schedule t (hstep.2 t hst)
    | blocked => simp
    | panic => exact absurd hst hstep.1

theorem Aggregator.select_conserve (cfg : Config) (a : Action) (s t : Aggregator)
    (h : s.select cfg a = Outcome.ok t) :
    received t.log ++ t.issues = received s.log ++ s.issues := by
  cases a with
  | recvIssue =>
    simp only [Aggregator.select] at h
    cases hq : s.issues with
    | nil => rw [hq] at h; simp at h
    | cons issue queue =>
      rw [hq] at h
      simp only at h
      split_ifs at h
      · simp only [Outcome.ok.injEq] at h
        subst h
        show received (s.log ++ _) ++ queue = _
        rw [received_append, List.append_assoc]
        rfl
      · simp only [Outcome.ok.injEq] at h
        subst h
        show received (s.log ++ _) ++ queue = _
        rw [received_append, List.append_assoc]
        rfl
  | recvTransaction =>
    simp only [Aggregator.select] at h
    cases hq : s.finishedTransaction with
    | nil => rw [hq] at h; simp at h
    | cons tx queue =>
      rw [hq] at h
      simp only at h
      split_ifs at h <;>
      · simp only [Outcome.ok.injEq] at h
        subst h
        rfl
  | recvBlock =>
    simp only [Aggregator.select] at h
    cases hq : s.finishedBlock with
    | nil => rw [hq] at h; simp at h
    | cons block queue =>
      rw [hq] at h
      simp only at h
      split_ifs at h <;>
      · simp only [Outcome.ok.injEq] at h
        subst h
        rfl
  | recvDone =>
    simp only [Aggregator.select] at h
    split_ifs at h
    simp only [Outcome.ok.injEq] at h
    subst h
    rfl
  | sendIssue _ => simp [Aggregator.select] at h
  | sendTransaction _ => simp [Aggregator.select] at h
  | sendBlock _ => simp [Aggregator.select] at h
  | closeDone _ => simp [Aggregator.select] at h

theorem Aggregator.step_conserve (cfg : Config) (a : Action) (s t : Aggregator)
    (h : s.step cfg a = Outcome.ok t) :
    received t.log ++ t.issues = received s.log ++ s.issues ++ sent [a] := by
  have hsel := Aggregator.select_conserve cfg a s t
  cases a with
  | sendIssue issue =>
    simp only [Aggregator.step] at h
    split_ifs at h
    simp only [Outcome.ok.injEq] at h
    subst h
    simp [sent]
  | sendTransaction tx =>
    simp only [Aggregator.step] at h
    split_ifs at h
    simp only [Outcome.ok.injEq] at h
    subst h
    simp [sent]
  | sendBlock block =>
    simp only [Aggregator.step] at h
    split_ifs at h
    simp only [Outcome.ok.injEq] at h
    subst h
    simp [sent]
  | closeDone j =>
    simp only [Aggregator.step] at h
    split_ifs at h
    simp only [Outcome.ok.injEq] at h
    subst h
    simp [sent]
  | recvIssue =>
    simp only [Aggregator.step] at h
    split_ifs at h
    rw [hsel h]
    simp [sent]
  | recvTransaction =>
    simp only [Aggregator.step] at h
    split_ifs at h
    rw [hsel h]
    simp [sent]
  | recvBlock =>
    simp only [Aggregator.step] at h
    split_ifs at h
    rw [hsel h]
    simp [sent]
  | recvDone =>
    simp only [Aggregator.step] at h
    split_ifs at h
    rw [hsel h]
    simp [sent]

theorem sent_cons (a : Action) (schedule : List Action) :
    sent (a :: schedule) = sent [a] ++ sent schedule := by
  unfold sent
  rw [← List.filterMap_append]
  rfl

theorem Aggregator.run_conserve (cfg : Config) :
    ∀ (schedule : List Action) (s t : Aggregator), s.run cfg schedule = Outcome.ok t →
      received t.log ++ t.issues = received s.log ++ s.issues ++ sent schedule
  | [], s, t, h => by
    simp only [Aggregator.run, Outcome.ok.injEq] at h
    subst h
    simp [sent]
  | a :: schedule, s, t, h => by
    simp only [Aggregator.run] at h
    cases hst : s.step cfg a with
    | ok u =>
      rw [hst] at h
      rw [sent_cons a schedule, Aggregator.run_conserve cfg schedule u t h,
        Aggregator.step_conserve cfg a s u hst]
      simp only [List.append_assoc]
    | blocked => rw [hst] at h; simp at h
    | panic => rw [hst] at h; simp at h

theorem count_closeAbort_closesOnFirst (issues : List Issue) :
    (closesOnFirst issues).count AggEvent.closeAbort ≤ 1 := by
  cases issues with
  | nil => simp [closesOnFirst]
  | cons first later =>
    have h : (later.map AggEvent.recv).count AggEvent.closeAbort = 0 := by
      rw [List.count_eq_zero]
      simp
    simp [closesOnFirst, List.count_cons, h]

/-- C7, counterexample: one worker, two batches whose transactions both fail.
The worker sends the error of `(5,1)`, then the error of `(6,0)`; the
aggregator receives them in this order and `RunArchive` returns the error of
`(6,0)`, the second one it received. -/
theorem RunArchive_returns_second_error :
    workerActions 0 (runBlocks (failEvery "boom") [[⟨5, 1, 0⟩], [⟨6, 0, 0⟩]])
        = [Action.sendIssue (Issue.process 5 1 "boom"), Action.sendBlock 5,
           Action.sendIssue (Issue.process 6 0 "boom"), Action.sendBlock 6,
           Action.closeDone 0] ∧
      ∃ s, (Aggregator.init ⟨1, false⟩).run ⟨1, false⟩
            [Action.sendIssue (Issue.process 5 1 "boom"), Action.sendBlock 5,
             Action.sendIssue (Issue.process 6 0 "boom"), Action.sendBlock 6,
             Action.closeDone 0,
             Action.recvIssue, Action.recvIssue, Action.recvBlock, Action.recvBlock,
             Action.recvDone] = Outcome.ok s ∧
        received s.log = [Issue.process 5 1 "boom", Issue.process 6 0 "boom"] ∧
        s.returned = some (some (Issue.process 6 0 "boom")) := by
  refine ⟨by decide, _, rfl, ?_, ?_⟩ <;> decide

/-- C7, amended: in every run, the error `RunArchive` returns is the last one
its aggregator loop received (`nil` when it received none). -/
theorem RunArchive_returns_last_received (cfg : Config) (schedule : List Action)
    (s : Aggregator) (result : Option Issue)
    (hrun : (Aggregator.init cfg).run cfg schedule = Outcome.ok s)
    (hret : s.returned = some result) :
    result = (received s.log).getLast? := by
  have hinv := (Aggregator.run_inv cfg schedule _ (Aggregator.init_inv cfg)).2 s hrun
  unfold Aggregator.returned at hret
  split_ifs at hret
  simp only [Option.some.injEq] at hret
  rw [← hret, hinv.err_eq]

/-- C7, amended, at a run in which three errors are received. -/
theorem RunArchive_returns_last_received_witness :
    some (Issue.getState 7 "gone")
      = (received [AggEvent.recv (Issue.process 5 1 "boom"), AggEvent.closeAbort,
          AggEvent.recv (Issue.close 5), AggEvent.recv (Issue.getState 7 "gone")]).getLast? :=
  RunArchive_returns_last_received ⟨1, false⟩
    [Action.sendIssue (Issue.process 5 1 "boom"), Action.sendIssue (Issue.close 5),
     Action.sendIssue (Issue.getState 7 "gone"), Action.closeDone 0,
     Action.recvIssue, Action.recvIssue, Action.recvIssue, Action.recvDone]
    { issues := []
      finishedTransaction := []
      finishedBlock := []
      dones := [true]
      abortClosed := true
      err := some (Issue.getState 7 "gone")
      abort := false
      txCount := 0
      lastBlock := 0
      i := 1
      log := [AggEvent.recv (Issue.process 5 1 "boom"), AggEvent.closeAbort,
        AggEvent.recv (Issue.close 5), AggEvent.recv (Issue.getState 7 "gone")] }
    (some (Issue.getState 7 "gone")) (by decide) (by decide)

/-- C8 fails on the code: the loop ends with the last `done` channel and
nothing reads `issues` afterwards. One worker, one batch whose transaction
fails: the worker sends the error and the block number and closes `done`; the
`select` of the aggregator, with `issues`, `finishedBlock` and `dones[0]` all
ready, takes `dones[0]`; the loop ends, `RunArchive` returns `nil`, and the
error is still in the queue. -/
theorem RunArchive_error_left_unread :
    workerActions 0 (runBlocks (failAt 5 1 "boom") [[⟨5, 1, 0⟩]])
        = [Action.sendIssue (Issue.process 5 1 "boom"), Action.sendBlock 5,
           Action.closeDone 0] ∧
      ∃ s, (Aggregator.init ⟨1, false⟩).run ⟨1, false⟩
            [Action.sendIssue (Issue.process 5 1 "boom"), Action.sendBlock 5,
             Action.closeDone 0, Action.recvDone] = Outcome.ok s ∧
        s.issues = [Issue.process 5 1 "boom"] ∧
        s.returned = some none := by
  refine ⟨by decide, _, rfl, ?_, ?_⟩ <;> decide

/-- What the aggregator loop does with the errors in every run: `RunArchive`
returns a non-nil error exactly when the loop received at least one error
before it ended, and the errors the workers put on the queue are the
received ones followed by those still queued when the loop ends. -/
theorem RunArchive_error_iff_received (cfg : Config) (schedule : List Action)
    (s : Aggregator) (result : Option Issue)
    (hrun : (Aggregator.init cfg).run cfg schedule = Outcome.ok s)
    (hret : s.returned = some result) :
    (result ≠ none ↔ received s.log ≠ []) ∧ sent schedule = received s.log ++ s.issues := by
  have hinv := (Aggregator.run_inv cfg schedule _ (Aggregator.init_inv cfg)).2 s hrun
  have hcons := Aggregator.run_conserve cfg schedule _ s hrun
  unfold Aggregator.returned at hret
  split_ifs at hret
  simp only [Option.some.injEq] at hret
  constructor
  · rw [← hret, hinv.err_eq, ne_eq, ne_eq, List.getLast?_eq_none_iff]
  · rw [hcons]
    rfl

/-- C9: no run of the aggregator loop closes a closed channel; its history is
always: the first error received, `close(abort)`, then the later errors
received with no further `close(abort)`. So `abort` is closed at most once,
and it is closed exactly when at least one error was received. -/
theorem RunArchive_closes_abort_once (cfg : Config) (schedule : List Action) :
    (Aggregator.init cfg).run cfg schedule ≠ Outcome.panic ∧
      ∀ s, (Aggregator.init cfg).run cfg schedule = Outcome.ok s →
        s.log = closesOnFirst (received s.log) ∧
        s.log.count AggEvent.closeAbort ≤ 1 ∧
        (s.abortClosed = true ↔ received s.log ≠ []) := by
  have h := Aggregator.run_inv cfg schedule _ (Aggregator.init_inv cfg)
  refine ⟨h.1, ?_⟩
  intro s hs
  have hinv := h.2 s hs
  refine ⟨hinv.log_eq, ?_, ?_⟩
  · rw [hinv.log_eq]
    exact count_closeAbort_closesOnFirst _
  · rw [hinv.closed_eq, hinv.abort_eq]
    cases received s.log <;> simp

/-- C9 at a run with two workers in which three errors are received. -/
theorem RunArchive_closes_abort_once_witness :
    (Aggregator.init ⟨2, true⟩).run ⟨2, true⟩
        [Action.sendIssue (Issue.process 5 1 "boom"), Action.sendIssue (Issue.close 5),
         Action.sendIssue (Issue.getState 7 "gone"),
         Action.recvIssue, Action.recvIssue, Action.recvIssue] ≠ Outcome.panic ∧
      [AggEvent.recv (Issue.process 5 1 "boom"), AggEvent.closeAbort,
          AggEvent.recv (Issue.close 5), AggEvent.recv (Issue.getState 7 "gone")].count
        AggEvent.closeAbort ≤ 1 :=
  ⟨(RunArchive_closes_abort_once ⟨2, true⟩ _).1,
    ((RunArchive_closes_abort_once ⟨2, true⟩
      [Action.sendIssue (Issue.process 5 1 "boom"), Action.sendIssue (Issue.close 5),
       Action.sendIssue (Issue.getState 7 "gone"),
       Action.recvIssue, Action.recvIssue, Action.recvIssue]).2
      { issues := []
        finishedTransaction := []
        finishedBlock := []
        dones := [false, false]
        abortClosed := true
        err := some (Issue.getState 7 "gone")
        abort := false
        txCount := 0
        lastBlock := 0
        i := 0
        log := [AggEvent.recv (Issue.process 5 1 "boom"), AggEvent.closeAbort,
          AggEvent.recv (Issue.close 5), AggEvent.recv (Issue.getState 7 "gone")] }
      (by decide)).2.1⟩

theorem runTxLoop_events (env : Env) (state : Handle) (block : Nat) :
    ∀ (err : Option Err) (txs : List Transaction),
      (runTxLoop env state block err txs).2
        = (txs.takeWhile env.processes).flatMap (completedTx state)
          ++ firstFailure env state block txs
  | _, [] => rfl
  | _, tx :: rest => by
    have ih := runTxLoop_events env state block none rest
    cases h : env.ProcessTx Handle.db tx.Block tx.Transaction tx.Substate with
    | none =>
      have hp : env.processes tx = true := by simp [Env.processes, h]
      simp only [runTxLoop, h, ih, List.takeWhile_cons, hp, if_true, List.flatMap_cons,
        firstFailure, List.dropWhile_cons, completedTx, List.append_assoc, List.cons_append,
        List.nil_append]
    | some e =>
      have hp : env.processes tx = false := by simp [Env.processes, h]
      simp [runTxLoop, h, List.takeWhile_cons, hp, firstFailure, List.dropWhile_cons,
        failedTx]

theorem dropWhile_head_false {α : Type} (p : α → Bool) :
    ∀ (l : List α) (r : α) (t : List α), l.dropWhile p = r :: t → p r = false
  | [], _, _, h => by simp at h
  | a :: l, r, t, h => by
    rw [List.dropWhile_cons] at h
    split_ifs at h with hp
    · exact dropWhile_head_false p l r t h
    · simp only [List.cons.injEq] at h
      rw [← h.1]
      simpa using hp

theorem firstFailure_filter (env : Env) (state : Handle) (block : Nat)
    (txs : List Transaction) :
    (firstFailure env state block txs).filter Event.isTxLifecycle
        = ((txs.dropWhile env.processes).head?.map
            (fun r => Event.BeginTransaction state (toUint32 r.Transaction))).toList ∧
      (firstFailure env state block txs).filter Event.isTxCompletion = [] ∧
      (firstFailure env state block txs).filter Event.isBlockDone = [] := by
  unfold firstFailure
  cases h : txs.dropWhile env.processes with
  | nil => exact ⟨rfl, rfl, rfl⟩
  | cons r t =>
    have hr := dropWhile_head_false env.processes txs r t h
    cases hp : env.ProcessTx Handle.db r.Block r.Transaction r.Substate with
    | none => simp [Env.processes, hp] at hr
    | some e =>
      simp only [hp]
      exact ⟨rfl, rfl, rfl⟩

theorem completedTx_filter (state : Handle) (txs : List Transaction) :
    (txs.flatMap (completedTx state)).filter Event.isTxLifecycle
        = txs.flatMap (fun tx =>
            [Event.BeginTransaction state (toUint32 tx.Transaction),
             Event.EndTransaction state]) ∧
      (txs.flatMap (completedTx state)).filter Event.isTxCompletion
        = txs.flatMap (fun tx =>
            [Event.EndTransaction state, Event.transactionDone tx.Transaction]) ∧
      (txs.flatMap (completedTx state)).filter Event.isBlockDone = [] := by
  induction txs with
  | nil => exact ⟨rfl, rfl, rfl⟩
  | cons tx txs ih =>
    simp only [List.flatMap_cons, List.filter_append, ih.1, ih.2.1, ih.2.2]
    exact ⟨rfl, rfl, rfl⟩

theorem closeBatch_filter (env : Env) (state : Handle) (block : Nat) :
    (closeBatch env state block).filter Event.isTxLifecycle = [Event.Close state] ∧
      (closeBatch env state block).filter Event.isTxCompletion = [] ∧
      (closeBatch env state block).filter Event.isBlockDone = [Event.blockDone block] := by
  unfold closeBatch
  cases env.Close state <;> exact ⟨rfl, rfl, rfl⟩

/-- C11, counterexample: in the batch `(5,0),(5,1)` processing `(5,1)` fails.
The calls of `runBlocks` for the batch contain no `EndTransaction` between
`BeginTransaction(1)` and `Close`, and no `EndBlock` after `BeginBlock(5)`. -/
theorem runBlocks_begin_without_end :
    (runBatch (failAt 5 1 "boom") none [⟨5, 0, 0⟩, ⟨5, 1, 0⟩]).2.filter Event.isCall
      = [Event.GetArchiveState Handle.db 4,
         Event.BeginBlock (Handle.archive 4) 5,
         Event.BeginTransaction (Handle.archive 4) 0,
         Event.ProcessTx Handle.db 5 0 0,
         Event.EndTransaction (Handle.archive 4),
         Event.BeginTransaction (Handle.archive 4) 1,
         Event.ProcessTx Handle.db 5 1 0,
         Event.Close (Handle.archive 4)] := by
  decide

/-- C11, amended: for every non-empty batch whose snapshot was obtained, on
every path, the `BeginTransaction`, `EndTransaction` and `Close` calls are:
for each transaction processed without error, in batch order,
`BeginTransaction` followed by `EndTransaction`; then, if a transaction
fails, its `BeginTransaction` alone; then one `Close`. -/
theorem runBlocks_transaction_brackets (env : Env) (err : Option Err) (first : Transaction)
    (rest : List Transaction)
    (hopen : env.GetArchiveState (subOne64 first.Block) = none) :
    (runBatch env err (first :: rest)).2.filter Event.isTxLifecycle
      = ((first :: rest).takeWhile env.processes).flatMap (fun tx =>
            [Event.BeginTransaction (Handle.archive (subOne64 first.Block))
              (toUint32 tx.Transaction),
             Event.EndTransaction (Handle.archive (subOne64 first.Block))])
        ++ (((first :: rest).dropWhile env.processes).head?.map (fun r =>
            Event.BeginTransaction (Handle.archive (subOne64 first.Block))
              (toUint32 r.Transaction))).toList
        ++ [Event.Close (Handle.archive (subOne64 first.Block))] := by
  rw [runBatch_events env err first rest hopen, runTxLoop_events, List.filter_append,
    List.filter_append, List.filter_append, (completedTx_filter _ _).1,
    (firstFailure_filter env _ _ _).1, (closeBatch_filter env _ _).1]
  rfl

/-- C11, amended, at the batch `(5,0),(5,1),(5,2)` in which processing `(5,1)`
fails. -/
theorem runBlocks_transaction_brackets_witness :
    (runBatch (failAt 5 1 "boom") none [⟨5, 0, 0⟩, ⟨5, 1, 0⟩, ⟨5, 2, 0⟩]).2.filter
        Event.isTxLifecycle
      = [Event.BeginTransaction (Handle.archive 4) 0,
         Event.EndTransaction (Handle.archive 4),
         Event.BeginTransaction (Handle.archive 4) 1,
         Event.Close (Handle.archive 4)] :=
  (runBlocks_transaction_brackets (failAt 5 1 "boom") none ⟨5, 0, 0⟩
    [⟨5, 1, 0⟩, ⟨5, 2, 0⟩] rfl).trans (by decide)

/-- C14, counterexample: the only transaction of the batch of block 5 fails,
so the block did not complete, and `runBlocks` still sends 5 on `blockDone`. -/
theorem runBlocks_blockDone_after_failure :
    (runBatch (failAt 5 1 "boom") none [⟨5, 1, 0⟩]).2
      = [Event.GetArchiveState Handle.db 4,
         Event.BeginBlock (Handle.archive 4) 5,
         Event.BeginTransaction (Handle.archive 4) 1,
         Event.ProcessTx Handle.db 5 1 0,
         Event.issues (Issue.process 5 1 "boom"),
         Event.Close (Handle.archive 4),
         Event.blockDone 5] := by
  decide

/-- C14, amended: for a non-empty batch whose snapshot was obtained, the sends
on `transactionDone` are one per transaction processed without error, each
right after the `EndTransaction` of that transaction and in batch order, and
there is exactly one send on `blockDone`, whether or not a transaction of
the batch failed; for a batch whose snapshot could not be obtained and for
an empty batch there is no send on either channel. -/
theorem runBlocks_progress_samples (env : Env) (err : Option Err) (first : Transaction)
    (rest : List Transaction) :
    (env.GetArchiveState (subOne64 first.Block) = none →
        (runBatch env err (first :: rest)).2.filter Event.isTxCompletion
          = ((first :: rest).takeWhile env.processes).flatMap (fun tx =>
              [Event.EndTransaction (Handle.archive (subOne64 first.Block)),
               Event.transactionDone tx.Transaction]) ∧
        (runBatch env err (first :: rest)).2.filter Event.isBlockDone
          = [Event.blockDone first.Block]) ∧
      (env.GetArchiveState (subOne64 first.Block) ≠ none →
        (runBatch env err (first :: rest)).2.filter Event.isTxCompletion = [] ∧
        (runBatch env err (first :: rest)).2.filter Event.isBlockDone = []) ∧
      (runBatch env err []).2 = [] := by
  refine ⟨?_, ?_, rfl⟩
  · intro hopen
    rw [runBatch_events env err first rest hopen, runTxLoop_events]
    simp only [List.filter_append, (completedTx_filter _ _).2.1, (completedTx_filter _ _).2.2,
      (firstFailure_filter env _ _ _).2.1, (firstFailure_filter env _ _ _).2.2,
      (closeBatch_filter env _ _).2.1, (closeBatch_filter env _ _).2.2]
    constructor <;> simp [List.filter, Event.isTxCompletion, Event.isBlockDone]
  · intro hfail
    cases h : env.GetArchiveState (subOne64 first.Block) with
    | none => exact absurd h hfail
    | some e =>
      simp only [runBatch, h]
      exact ⟨rfl, rfl⟩

/-- C14, amended, at the batch `(5,0),(5,1),(5,2)` in which processing `(5,1)`
fails. -/
theorem runBlocks_progress_samples_witness :
    (runBatch (failAt 5 1 "boom") none [⟨5, 0, 0⟩, ⟨5, 1, 0⟩, ⟨5, 2, 0⟩]).2.filter
          Event.isTxCompletion
        = [Event.EndTransaction (Handle.archive 4), Event.transactionDone 0] ∧
      (runBatch (failAt 5 1 "boom") none [⟨5, 0, 0⟩, ⟨5, 1, 0⟩, ⟨5, 2, 0⟩]).2.filter
          Event.isBlockDone
        = [Event.blockDone 5] :=
  ⟨((runBlocks_progress_samples (failAt 5 1 "boom") none ⟨5, 0, 0⟩
      [⟨5, 1, 0⟩, ⟨5, 2, 0⟩]).1 rfl).1.trans (by decide),
    ((runBlocks_progress_samples (failAt 5 1 "boom") none ⟨5, 0, 0⟩
      [⟨5, 1, 0⟩, ⟨5, 2, 0⟩]).1 rfl).2⟩

theorem runTxLoop_no_open (env : Env) (state : Handle) (block : Nat) :
    ∀ (err : Option Err) (txs : List Transaction),
      (runTxLoop env state block err txs).2.filter Event.isGetArchiveState = [] ∧
        Event.closeDone ∉ (runTxLoop env state block err txs).2
  | _, [] => by simp [runTxLoop]
  | _, tx :: rest => by
    have ih := runTxLoop_no_open env state block none rest
    simp only [runTxLoop]
    cases env.ProcessTx Handle.db tx.Block tx.Transaction tx.Substate with
    | none =>
      simp only [List.filter_append, ih.1, List.append_nil, List.mem_append, not_or]
      exact ⟨rfl, by simp, ih.2⟩
    | some e => exact ⟨rfl, by simp⟩

theorem runBatch_open (env : Env) (err : Option Err) (batch : List Transaction) :
    (runBatch env err batch).2.filter Event.isGetArchiveState
        = (batch.head?.map (fun first =>
            Event.GetArchiveState Handle.db (subOne64 first.Block))).toList ∧
      Event.closeDone ∉ (runBatch env err batch).2 := by
  cases batch with
  | nil => simp [runBatch]
  | cons first rest =>
    cases h : env.GetArchiveState (subOne64 first.Block) with
    | some e =>
      simp only [runBatch, h]
      exact ⟨rfl, by simp⟩
    | none =>
      have hl := runTxLoop_no_open env (Handle.archive (subOne64 first.Block)) first.Block
        none (first :: rest)
      rw [runBatch_events env err first rest h]
      constructor
      · rw [List.filter_append, List.filter_append, hl.1]
        unfold closeBatch
        cases env.Close (Handle.archive (subOne64 first.Block)) <;> rfl
      · simp only [List.mem_append, not_or]
        refine ⟨⟨by simp, hl.2⟩, ?_⟩
        unfold closeBatch
        cases env.Close (Handle.archive (subOne64 first.Block)) <;> simp

theorem runBlocksLoop_open (env : Env) :
    ∀ (blocks : List (List Transaction)) (err : Option Err),
      (runBlocksLoop env err blocks).filter Event.isGetArchiveState
          = blocks.filterMap (fun batch => batch.head?.map (fun first =>
              Event.GetArchiveState Handle.db (subOne64 first.Block))) ∧
        Event.closeDone ∉ runBlocksLoop env err blocks
  | [], _ => by simp [runBlocksLoop]
  | batch :: blocks, err => by
    have hb := runBatch_open env err batch
    have ih := runBlocksLoop_open env blocks (runBatch env err batch).1
    simp only [runBlocksLoop, List.filter_append, hb.1, ih.1, List.mem_append, not_or]
    refine ⟨?_, hb.2, ih.2⟩
    cases batch with
    | nil => rfl
    | cons first rest => rfl

theorem WorkerRun.step_program (cfg : Config) (j : Nat) (turn : Turn) (s t : WorkerRun)
    (h : s.step cfg j turn = some t) :
    t.performed.map Prod.fst ++ t.pending = s.performed.map Prod.fst ++ s.pending := by
  cases turn with
  | worker =>
    simp only [WorkerRun.step] at h
    cases hp : s.pending with
    | nil => rw [hp] at h; simp at h
    | cons e pending =>
      rw [hp] at h
      simp only at h
      cases ha : e.toAction j with
      | none =>
        rw [ha] at h
        simp only [Option.some.injEq] at h
        subst h
        simp
      | some a =>
        rw [ha] at h
        simp only at h
        cases hst : s.agg.step cfg a with
        | ok u =>
          rw [hst] at h
          simp only [Option.some.injEq] at h
          subst h
          simp
        | blocked => rw [hst] at h; simp at h
        | panic => rw [hst] at h; simp at h
  | aggregator a =>
    simp only [WorkerRun.step] at h
    cases a with
    | recvIssue =>
      simp only at h
      cases hst : s.agg.step cfg Action.recvIssue with
      | ok u => rw [hst] at h; simp only [Option.some.injEq] at h; subst h; rfl
      | blocked => rw [hst] at h; simp at h
      | panic => rw [hst] at h; simp at h
    | recvTransaction =>
      simp only at h
      cases hst : s.agg.step cfg Action.recvTransaction with
      | ok u => rw [hst] at h; simp only [Option.some.injEq] at h; subst h; rfl
      | blocked => rw [hst] at h; simp at h
      | panic => rw [hst] at h; simp at h
    | recvBlock =>
      simp only at h
      cases hst : s.agg.step cfg Action.recvBlock with
      | ok u => rw [hst] at h; simp only [Option.some.injEq] at h; subst h; rfl
      | blocked => rw [hst] at h; simp at h
      | panic => rw [hst] at h; simp at h
    | recvDone =>
      simp only at h
      cases hst : s.agg.step cfg Action.recvDone with
      | ok u => rw [hst] at h; simp only [Option.some.injEq] at h; subst h; rfl
      | blocked => rw [hst] at h; simp at h
      | panic => rw [hst] at h; simp at h
    | sendIssue _ => simp at h
    | sendTransaction _ => simp at h
    | sendBlock _ => simp at h
    | closeDone _ => simp at h

theorem WorkerRun.run_program (cfg : Config) (j : Nat) :
    ∀ (turns : List Turn) (s t : WorkerRun), s.run cfg j turns = some t →
      t.performed.map Prod.fst ++ t.pending = s.performed.map Prod.fst ++ s.pending
  | [], s, t, h => by
    simp only [WorkerRun.run, Option.some.injEq] at h
    rw [h]
  | turn :: turns, s, t, h => by
    simp only [WorkerRun.run] at h
    cases hst : s.step cfg j turn with
    | none => rw [hst] at h; simp at h
    | some u =>
      rw [hst] at h
      rw [WorkerRun.run_program cfg j turns u t h, WorkerRun.step_program cfg j turn s u hst]

/-- C12, counterexample: one worker; the batches of the stream `(5,1),(6,0)`
are all queued; processing `(5,1)` fails, the worker sends the error, the
aggregator receives it and closes `abort`. The worker then takes the next
batch and opens the snapshot for block 6 with `abort` closed. -/
theorem runBlocks_opens_snapshot_after_abort :
    ∃ s, (WorkerRun.init ⟨1, false⟩ (failAt 5 1 "boom")
            (groupTransactions noAbort 6 [⟨5, 1, 0⟩, ⟨6, 0, 0⟩])).run ⟨1, false⟩ 0
          [Turn.worker, Turn.worker, Turn.worker, Turn.worker, Turn.worker,
           Turn.aggregator Action.recvIssue,
           Turn.worker, Turn.worker, Turn.worker, Turn.worker, Turn.worker, Turn.worker,
           Turn.worker, Turn.worker, Turn.worker, Turn.worker, Turn.worker] = some s ∧
        s.pending = [] ∧
        s.performed.filter (fun p => p.1.isGetArchiveState)
          = [(Event.GetArchiveState Handle.db 4, false),
             (Event.GetArchiveState Handle.db 5, true)] := by
  refine ⟨_, rfl, ?_, ?_⟩ <;> decide

/-- C12, amended: `runBlocks` does not read the cancellation signal. In every
run of a worker next to the aggregator, whatever the aggregator has done, the
events the worker has performed followed by those it still has to perform
are the events of `runBlocks` on the batches it takes; among them is one
`GetArchiveState` call for every non-empty batch, and the close of `done`
comes only after the last batch. -/
theorem runBlocks_ignores_abort (cfg : Config) (env : Env) (blocks : List (List Transaction))
    (turns : List Turn) (s : WorkerRun)
    (hrun : (WorkerRun.init cfg env blocks).run cfg 0 turns = some s) :
    s.performed.map Prod.fst ++ s.pending = runBlocks env blocks ∧
      (runBlocks env blocks).filter Event.isGetArchiveState
        = blocks.filterMap (fun batch => batch.head?.map (fun first =>
            Event.GetArchiveState Handle.db (subOne64 first.Block))) ∧
      Event.closeDone ∉ runBlocksLoop env none blocks := by
  have h := WorkerRun.run_program cfg 0 turns _ s hrun
  have ho := runBlocksLoop_open env blocks none
  refine ⟨?_, ?_, ho.2⟩
  · rw [h]
    rfl
  · unfold runBlocks
    rw [List.filter_append, ho.1]
    simp [List.filter, Event.isGetArchiveState]

/-- C12, amended, at the run of the counterexample, stopped after the worker
has opened the snapshot for block 6. -/
theorem runBlocks_ignores_abort_witness :
    [Event.GetArchiveState Handle.db 4,
        Event.BeginBlock (Handle.archive 4) 5,
        Event.BeginTransaction (Handle.archive 4) 1,
        Event.ProcessTx Handle.db 5 1 0,
        Event.issues (Issue.process 5 1 "boom"),
        Event.Close (Handle.archive 4),
        Event.blockDone 5,
        Event.GetArchiveState Handle.db 5]
      ++ [Event.BeginBlock (Handle.archive 5) 6,
          Event.BeginTransaction (Handle.archive 5) 0,
          Event.ProcessTx Handle.db 6 0 0,
          Event.EndTransaction (Handle.archive 5),
          Event.transactionDone 0,
          Event.Close (Handle.archive 5),
          Event.blockDone 6,
          Event.closeDone]
      = runBlocks (failAt 5 1 "boom") [[], [⟨5, 1, 0⟩], [⟨6, 0, 0⟩]] :=
  (runBlocks_ignores_abort ⟨1, false⟩ (failAt 5 1 "boom") [[], [⟨5, 1, 0⟩], [⟨6, 0, 0⟩]]
    [Turn.worker, Turn.worker, Turn.worker, Turn.worker, Turn.worker,
     Turn.aggregator Action.recvIssue, Turn.worker, Turn.worker, Turn.worker]
    { pending := [Event.BeginBlock (Handle.archive 5) 6,
        Event.BeginTransaction (Handle.archive 5) 0,
        Event.ProcessTx Handle.db 6 0 0,
        Event.EndTransaction (Handle.archive 5),
        Event.transactionDone 0,
        Event.Close (Handle.archive 5),
        Event.blockDone 6,
        Event.closeDone]
      agg :=
        { issues := []
          finishedTransaction := []
          finishedBlock := [5]
          dones := [false]
          abortClosed := true
          err := some (Issue.process 5 1 "boom")
          abort := false
          txCount := 0
          lastBlock := 0
          i := 0
          log := [AggEvent.recv (Issue.process 5 1 "boom"), AggEvent.closeAbort] }
      performed :=
        [(Event.GetArchiveState Handle.db 4, false),
         (Event.BeginBlock (Handle.archive 4) 5, false),
         (Event.BeginTransaction (Handle.archive 4) 1, false),
         (Event.ProcessTx Handle.db 5 1 0, false),
         (Event.issues (Issue.process 5 1 "boom"), false),
         (Event.Close (Handle.archive 4), true),
         (Event.blockDone 5, true),
         (Event.GetArchiveState Handle.db 5, true)] }
    (by decide)).1

/-! ## Properties of the progress tracker -/

theorem wrapInt_id (x : Int) (h0 : 0 ≤ x) (h1 : x < 2 ^ 63) : wrapInt x = x := by
  unfold wrapInt
  omega

theorem goMod_nonneg (b rf : Int) (hb : 0 ≤ b) (hb2 : b < 2 ^ 63) (hrf : 0 < rf) :
    goMod b rf = some (b % rf) ∧ 0 ≤ b % rf ∧ b % rf ≤ b ∧ rf ∣ b - b % rf := by
  have hne : rf ≠ 0 := ne_of_gt hrf
  have h1 : 0 ≤ b % rf := Int.emod_nonneg b hne
  have h2 : b % rf ≤ b := by
    have hd : 0 ≤ b / rf := Int.ediv_nonneg hb (le_of_lt hrf)
    have := Int.ediv_add_emod b rf
    nlinarith [mul_nonneg (le_of_lt hrf) hd]
  refine ⟨?_, h1, h2, Int.dvd_sub_of_emod_eq rfl⟩
  unfold goMod
  rw [if_neg hne, Int.tmod_eq_emod hb (le_of_lt hrf), wrapInt_id _ h1 (by omega)]

theorem boundary_ge (b rf last : Int) (hrf : 0 < rf) (hdvd : rf ∣ last)
    (hle : last + rf ≤ b) : last + rf ≤ b - b % rf := by
  obtain ⟨k, hk⟩ := hdvd
  have h1 : (k + 1) * rf ≤ b := by rw [hk] at hle; linarith [mul_comm rf k]
  have h2 : k + 1 ≤ b / rf := Int.le_ediv_of_mul_le hrf h1
  have h3 : rf * (k + 1) ≤ rf * (b / rf) := mul_le_mul_of_nonneg_left h2 (le_of_lt hrf)
  have h4 := Int.ediv_add_emod b rf
  rw [hk]
  linarith

theorem printed_reachedBlock (a b c d e : Value) :
    printed (Noticef progressTrackerReportFormat [a, b, c, d, e]) "Reached block" = some a ∧
      printed (Noticef progressTrackerReportFormat [a, b, c, d, e]) "bytes of memory"
        = some b ∧
      printed (Noticef progressTrackerReportFormat [a, b, c, d, e]) "bytes of disk"
        = some c ∧
      printed (Noticef progressTrackerReportFormat [a, b, c, d, e]) "Tx/s" = some d ∧
      printed (Noticef progressTrackerReportFormat [a, b, c, d, e]) "Gas/s" = some e := by
  refine ⟨?_, ?_, ?_, ?_, ?_⟩ <;>
    simp [printed, Noticef, progressTrackerReportFormat, List.find?]

theorem progressTracker.PostBlock_aligned (rf : Int) (t : progressTracker) (s : BlockState)
    (ht : t.Aligned rf) (hb : 0 ≤ s.Block) (hb2 : s.Block < 2 ^ 63) :
    ∃ t' line, t.PostBlock s = some (t', line) ∧ t'.Aligned rf ∧
      (line.isSome ↔ rf ≤ s.Block - t.lastReportedBlock) ∧
      (line = none → t' = t) ∧
      ∀ l, line = some l →
        reachedBlock l = t'.lastReportedBlock ∧
        t.lastReportedBlock < t'.lastReportedBlock ∧
        t'.lastReportedBlock ≤ s.Block ∧
        t'.lastIntervalInfo = { numTransactions := 0, gas := 0 } ∧
        printed l "Tx/s" = some (Value.perSecond t.lastIntervalInfo.numTransactions) ∧
        printed l "Gas/s" = some (Value.perSecond t.lastIntervalInfo.gas) := by
  obtain ⟨hrf, hpos, hdvd, h0, h63⟩ := ht
  obtain ⟨hm, hm0, hmle, hmdvd⟩ := goMod_nonneg s.Block rf hb hb2 hpos
  have hw1 : wrapInt (s.Block - t.lastReportedBlock) = s.Block - t.lastReportedBlock := by
    unfold wrapInt
    omega
  have hw2 : wrapInt (s.Block - s.Block % rf) = s.Block - s.Block % rf :=
    wrapInt_id _ (by omega) (by omega)
  unfold progressTracker.PostBlock
  rw [hrf, hm]
  simp only [hw1, hw2]
  by_cases hlt : s.Block - t.lastReportedBlock < rf
  · rw [if_pos hlt]
    refine ⟨t, none, rfl, ⟨hrf, hpos, hdvd, h0, h63⟩, ?_, fun _ => rfl, ?_⟩
    · simp only [Option.isSome_none, Bool.false_eq_true, false_iff, not_le]
      exact hlt
    · intro l hl
      exact absurd hl (by simp)
  · rw [if_neg hlt]
    have hge := boundary_ge s.Block rf t.lastReportedBlock hpos hdvd (by omega)
    refine ⟨_, _, rfl, ⟨rfl, hpos, hmdvd, by show 0 ≤ s.Block - s.Block % rf; omega,
      by show s.Block - s.Block % rf < 2 ^ 63; omega⟩, ?_, ?_, ?_⟩
    · simp only [Option.isSome_some, true_iff]
      omega
    · intro h
      exact absurd h (by simp)
    · intro l hl
      simp only [Option.some.injEq] at hl
      subst hl
      have hp := printed_reachedBlock (Value.int (s.Block - s.Block % rf))
        (Value.int s.directorySize)
        (Value.int ((match s.memoryUsage with
          | some usedBytes => usedBytes
          | none => 0 : Nat) : Int))
        (Value.perSecond t.lastIntervalInfo.numTransactions)
        (Value.perSecond t.lastIntervalInfo.gas)
      refine ⟨?_, by show t.lastReportedBlock < s.Block - s.Block % rf; omega,
        by show s.Block - s.Block % rf ≤ s.Block; omega, rfl, hp.2.2.2.1, hp.2.2.2.2⟩
      unfold reachedBlock
      rw [hp.1]

theorem progressTracker.run_aligned (rf : Int) :
    ∀ (hooks : List Hook) (t : progressTracker), t.Aligned rf →
      (∀ s, Hook.PostBlock s ∈ hooks → 0 ≤ s.Block ∧ s.Block < 2 ^ 63) →
      ∃ t' lines, t.run hooks = some (t', lines) ∧ t'.Aligned rf ∧
        t.lastReportedBlock ≤ t'.lastReportedBlock ∧
        (lines.map reachedBlock).Pairwise (· < ·) ∧
        ∀ l ∈ lines, rf ∣ reachedBlock l ∧ t.lastReportedBlock < reachedBlock l ∧
          reachedBlock l ≤ t'.lastReportedBlock
  | [], t, ht, _ => ⟨t, [], rfl, ht, le_refl _, by simp, by simp⟩
  | Hook.PostTransaction gasUsed :: hooks, t, ht, hb => by
    have ht1 : (t.PostTransaction gasUsed).Aligned rf := ht
    obtain ⟨t', lines, hrun, hal, hle, hpw, hl⟩ :=
      progressTracker.run_aligned rf hooks (t.PostTransaction gasUsed) ht1
        (fun s hs => hb s (List.mem_cons_of_mem _ hs))
    exact ⟨t', lines, hrun, hal, hle, hpw, hl⟩
  | Hook.PostBlock s :: hooks, t, ht, hb => by
    have hs := hb s (List.mem_cons_self _ _)
    obtain ⟨t1, line, hpost, hal1, _, hnone, hsome⟩ :=
      progressTracker.PostBlock_aligned rf t s ht hs.1 hs.2
    obtain ⟨t2, lines, hrun, hal2, hle, hpw, hl⟩ :=
      progressTracker.run_aligned rf hooks t1 hal1
        (fun s hs => hb s (List.mem_cons_of_mem _ hs))
    refine ⟨t2, line.toList ++ lines, ?_, hal2, ?_, ?_, ?_⟩
    · simp only [progressTracker.run, hpost, hrun]
    · cases line with
      | none => rw [hnone rfl] at hle; exact hle
      | some l => exact le_trans (le_of_lt (hsome l rfl).2.1) hle
    · cases line with
      | none => simpa using hpw
      | some l =>
        simp only [Option.toList, List.singleton_append, List.map_cons, List.pairwise_cons]
        refine ⟨?_, hpw⟩
        intro b hb'
        obtain ⟨l', hl', rfl⟩ := List.mem_map.1 hb'
        rw [(hsome l rfl).1]
        exact (hl l' hl').2.1
    · intro l hmem
      cases line with
      | none =>
        rw [hnone rfl] at hl
        exact hl l (by simpa using hmem)
      | some l0 =>
        simp only [Option.toList, List.singleton_append, List.mem_cons] at hmem
        rcases hmem with rfl | hmem
        · rw [(hsome l rfl).1]
          exact ⟨hal1.2.2.1, (hsome l rfl).2.1, hle⟩
        · have h := hl l hmem
          exact ⟨h.1, lt_trans (hsome l0 rfl).2.1 h.2.1, h.2.2⟩

theorem makeProgressTracker_aligned (first : Nat) (rf : Int) (hrf : 0 < rf)
    (hfirst : first < 2 ^ 63) :
    ∃ t0, makeProgressTracker first rf = some t0 ∧ t0.Aligned rf ∧
      t0.lastIntervalInfo = { numTransactions := 0, gas := 0 } := by
  have hf0 : (0 : Int) ≤ (first : Int) := Int.ofNat_nonneg _
  have hf1 : (first : Int) < 2 ^ 63 := by exact_mod_cast hfirst
  have hw : wrapInt (first : Int) = first := wrapInt_id _ hf0 hf1
  obtain ⟨hm, hm0, hmle, hmdvd⟩ := goMod_nonneg first rf hf0 hf1 hrf
  have hw2 : wrapInt ((first : Int) - (first : Int) % rf) = first - (first : Int) % rf :=
    wrapInt_id _ (by omega) (by omega)
  refine ⟨{ reportFrequency := rf
            lastReportedBlock := (first : Int) - (first : Int) % rf
            lastIntervalInfo := { numTransactions := 0, gas := 0 } }, ?_, ?_, rfl⟩
  · unfold makeProgressTracker
    rw [hw, hm]
    simp only [hw2]
  · exact ⟨rfl, hrf, hmdvd, by show 0 ≤ (first : Int) - first % rf; omega,
      by show (first : Int) - first % rf < 2 ^ 63; omega⟩

theorem progressTracker.run_append :
    ∀ (pre hooks : List Hook) (t t1 : progressTracker) (lines1 : List (List (String × Value))),
      t.run pre = some (t1, lines1) →
      t.run (pre ++ hooks)
        = (t1.run hooks).map (fun r => (r.1, lines1 ++ r.2))
  | [], hooks, t, t1, lines1, h => by
    simp only [progressTracker.run, Option.some.injEq, Prod.mk.injEq] at h
    obtain ⟨rfl, rfl⟩ := h
    rw [List.nil_append]
    cases t.run hooks <;> simp
  | Hook.PostTransaction g :: pre, hooks, t, t1, lines1, h => by
    rw [List.cons_append]
    simp only [progressTracker.run] at h ⊢
    exact progressTracker.run_append pre hooks _ t1 lines1 h
  | Hook.PostBlock s :: pre, hooks, t, t1, lines1, h => by
    rw [List.cons_append]
    simp only [progressTracker.run] at h ⊢
    cases hp : t.PostBlock s with
    | none => rw [hp] at h; simp at h
    | some r =>
      obtain ⟨t', line⟩ := r
      rw [hp] at h
      simp only at h ⊢
      cases hr : t'.run pre with
      | none => rw [hr] at h; simp at h
      | some r2 =>
        obtain ⟨t'', lines⟩ := r2
        rw [hr] at h
        simp only [Option.some.injEq, Prod.mk.injEq] at h
        obtain ⟨rfl, rfl⟩ := h
        rw [progressTracker.run_append pre hooks t' t'' lines hr]
        cases t''.run hooks <;> simp

theorem progressTracker.PostBlock_info (t t' : progressTracker) (s : BlockState)
    (line : Option (List (String × Value))) (h : t.PostBlock s = some (t', line)) :
    (line = none → t' = t) ∧
      ∀ l, line = some l →
        t'.lastIntervalInfo = { numTransactions := 0, gas := 0 } ∧
        printed l "Tx/s" = some (Value.perSecond t.lastIntervalInfo.numTransactions) ∧
        printed l "Gas/s" = some (Value.perSecond t.lastIntervalInfo.gas) := by
  unfold progressTracker.PostBlock at h
  cases hm : goMod s.Block t.reportFrequency with
  | none => rw [hm] at h; simp at h
  | some m =>
    rw [hm] at h
    simp only at h
    split_ifs at h with hlt
    · simp only [Option.some.injEq, Prod.mk.injEq] at h
      obtain ⟨rfl, rfl⟩ := h
      exact ⟨fun _ => rfl, fun l hl => absurd hl (by simp)⟩
    · simp only [Option.some.injEq, Prod.mk.injEq] at h
      obtain ⟨rfl, rfl⟩ := h
      refine ⟨fun hn => absurd hn (by simp), ?_⟩
      intro l hl
      simp only [Option.some.injEq] at hl
      subst hl
      have hp := printed_reachedBlock (Value.int (wrapInt (s.Block - m)))
        (Value.int s.directorySize)
        (Value.int ((match s.memoryUsage with
          | some usedBytes => usedBytes
          | none => 0 : Nat) : Int))
        (Value.perSecond t.lastIntervalInfo.numTransactions)
        (Value.perSecond t.lastIntervalInfo.gas)
      exact ⟨rfl, hp.2.2.2.1, hp.2.2.2.2⟩

theorem progressTracker.run_no_report :
    ∀ (hooks : List Hook) (t t1 : progressTracker),
      t.lastIntervalInfo.numTransactions < 2 ^ 64 → t.lastIntervalInfo.gas < 2 ^ 64 →
      t.run hooks = some (t1, []) →
      t1.lastIntervalInfo.numTransactions
          = (t.lastIntervalInfo.numTransactions + (transactionsSeen hooks).1) % 2 ^ 64 ∧
        t1.lastIntervalInfo.gas
          = (t.lastIntervalInfo.gas + (transactionsSeen hooks).2) % 2 ^ 64
  | [], t, t1, hn, hg, h => by
    simp only [progressTracker.run, Option.some.injEq, Prod.mk.injEq, and_true] at h
    subst h
    simp only [transactionsSeen, Nat.add_zero]
    exact ⟨(Nat.mod_eq_of_lt hn).symm, (Nat.mod_eq_of_lt hg).symm⟩
  | Hook.PostTransaction g :: hooks, t, t1, _, _, h => by
    simp only [progressTracker.run] at h
    have ih := progressTracker.run_no_report hooks (t.PostTransaction g) t1
      (Nat.mod_lt _ (by norm_num)) (Nat.mod_lt _ (by norm_num)) h
    simp only [progressTracker.PostTransaction] at ih
    simp only [transactionsSeen]
    rw [ih.1, ih.2]
    constructor <;> omega
  | Hook.PostBlock s :: hooks, t, t1, hn, hg, h => by
    simp only [progressTracker.run] at h
    cases hp : t.PostBlock s with
    | none => rw [hp] at h; simp at h
    | some r =>
      obtain ⟨t', line⟩ := r
      rw [hp] at h
      simp only at h
      cases hr : t'.run hooks with
      | none => rw [hr] at h; simp at h
      | some r2 =>
        obtain ⟨t'', lines⟩ := r2
        rw [hr] at h
        simp only [Option.some.injEq, Prod.mk.injEq, List.append_eq_nil] at h
        obtain ⟨rfl, hline, rfl⟩ := h
        have hnone : line = none := by
          cases line with
          | none => rfl
          | some l => simp at hline
        have ht' := (progressTracker.PostBlock_info t t' s line hp).1 hnone
        subst ht'
        simp only [transactionsSeen]
        exact progressTracker.run_no_report hooks t' t'' hn hg hr

/-- C17: for every positive report frequency, every `config.First` below
`2^63` and every sequence of hook calls whose `PostBlock` calls carry block
numbers in `[0, 2^63)`: the tracker is created and the calls return;
`lastReportedBlock` is a multiple of the frequency at the start and at the
end; the reported boundaries are strictly increasing multiples of the
frequency, each greater than the initial `lastReportedBlock`; and at every
`PostBlock` call of the sequence `lastReportedBlock` is a multiple of the
frequency and a line is logged exactly when
`Block - lastReportedBlock >= reportFrequency`. -/
theorem progressTracker_reports_on_aligned_boundaries (first : Nat) (rf : Int)
    (hooks : List Hook) (hrf : 0 < rf) (hfirst : first < 2 ^ 63)
    (hblocks : ∀ s, Hook.PostBlock s ∈ hooks → 0 ≤ s.Block ∧ s.Block < 2 ^ 63) :
    ∃ t0 t lines, makeProgressTracker first rf = some t0 ∧ t0.run hooks = some (t, lines) ∧
      rf ∣ t0.lastReportedBlock ∧ rf ∣ t.lastReportedBlock ∧
      (lines.map reachedBlock).Pairwise (· < ·) ∧
      (∀ l ∈ lines, rf ∣ reachedBlock l ∧ t0.lastReportedBlock < reachedBlock l) ∧
      ∀ (pre : List Hook) (s : BlockState) (post : List Hook),
        hooks = pre ++ Hook.PostBlock s :: post →
        ∃ t1 lines1 t2 line, t0.run pre = some (t1, lines1) ∧
          t1.PostBlock s = some (t2, line) ∧ rf ∣ t1.lastReportedBlock ∧
          (line.isSome ↔ rf ≤ s.Block - t1.lastReportedBlock) := by
  obtain ⟨t0, hmake, hal0, _⟩ := makeProgressTracker_aligned first rf hrf hfirst
  obtain ⟨t, lines, hrun, hal, _, hpw, hl⟩ := progressTracker.run_aligned rf hooks t0 hal0 hblocks
  refine ⟨t0, t, lines, hmake, hrun, hal0.2.2.1, hal.2.2.1, hpw,
    fun l hmem => ⟨(hl l hmem).1, (hl l hmem).2.1⟩, ?_⟩
  intro pre s post heq
  obtain ⟨t1, lines1, hrun1, hal1, _, _, _⟩ := progressTracker.run_aligned rf pre t0 hal0
    (fun s' hs' => hblocks s' (by rw [heq]; exact List.mem_append_left _ hs'))
  have hs := hblocks s (by rw [heq]; simp)
  obtain ⟨t2, line, hpost, _, hiff, _, _⟩ :=
    progressTracker.PostBlock_aligned rf t1 s hal1 hs.1 hs.2
  exact ⟨t1, lines1, t2, line, hrun1, hpost, hal1.2.2.1, hiff⟩

/-- C17 at `config.First = 250`, frequency 100 and `PostBlock` calls for the
blocks 250, 299, 310, 399, 1000: lines are logged for the boundaries 300 and
1000. -/
theorem progressTracker_reports_on_aligned_boundaries_witness :
    ∃ t0 t lines, makeProgressTracker 250 100 = some t0 ∧
      t0.run [Hook.PostBlock ⟨250, none, 0⟩, Hook.PostBlock ⟨299, none, 0⟩,
        Hook.PostBlock ⟨310, none, 0⟩, Hook.PostBlock ⟨399, none, 0⟩,
        Hook.PostBlock ⟨1000, none, 0⟩] = some (t, lines) ∧
      (100 : Int) ∣ t.lastReportedBlock ∧ (lines.map reachedBlock).Pairwise (· < ·) := by
  obtain ⟨t0, t, lines, h1, h2, _, h4, h5, _⟩ :=
    progressTracker_reports_on_aligned_boundaries 250 100
      [Hook.PostBlock ⟨250, none, 0⟩, Hook.PostBlock ⟨299, none, 0⟩,
        Hook.PostBlock ⟨310, none, 0⟩, Hook.PostBlock ⟨399, none, 0⟩,
        Hook.PostBlock ⟨1000, none, 0⟩] (by decide) (by decide)
      (by
        intro s hs
        simp only [List.mem_cons, Hook.PostBlock.injEq, List.mem_singleton, List.not_mem_nil,
          or_false] at hs
        rcases hs with rfl | rfl | rfl | rfl | rfl <;> constructor <;> decide)
  exact ⟨t0, t, lines, h1, h2, h4, h5⟩

/-- C18: `PostTransaction` adds 1 to `numTransactions` and `GasUsed` to `gas`
(both `uint64`) and changes nothing else; a `PostBlock` that logs no line
leaves the tracker unchanged, and one that logs a line computes the two
rates of the line from the counters and resets both counters to zero; so the
rates of a line are computed from the number of `PostTransaction` calls, and
the sum of their `GasUsed`, since the counters were last zero. -/
theorem progressTracker_interval_counts :
    (∀ (t : progressTracker) (gasUsed : Nat),
        t.PostTransaction gasUsed
          = { reportFrequency := t.reportFrequency
              lastReportedBlock := t.lastReportedBlock
              lastIntervalInfo :=
                { numTransactions := (t.lastIntervalInfo.numTransactions + 1) % 2 ^ 64
                  gas := (t.lastIntervalInfo.gas + gasUsed) % 2 ^ 64 } }) ∧
      (∀ (t t' : progressTracker) (s : BlockState) (line : Option (List (String × Value))),
        t.PostBlock s = some (t', line) →
        (line = none → t' = t) ∧
        ∀ l, line = some l →
          t'.lastIntervalInfo = { numTransactions := 0, gas := 0 } ∧
          printed l "Tx/s" = some (Value.perSecond t.lastIntervalInfo.numTransactions) ∧
          printed l "Gas/s" = some (Value.perSecond t.lastIntervalInfo.gas)) ∧
      (∀ (t t1 t2 : progressTracker) (hooks : List Hook) (s : BlockState)
          (l : List (String × Value)),
        t.lastIntervalInfo = { numTransactions := 0, gas := 0 } →
        t.run hooks = some (t1, []) →
        t1.PostBlock s = some (t2, some l) →
        printed l "Tx/s" = some (Value.perSecond ((transactionsSeen hooks).1 % 2 ^ 64)) ∧
        printed l "Gas/s" = some (Value.perSecond ((transactionsSeen hooks).2 % 2 ^ 64))) := by
  refine ⟨fun _ _ => rfl, progressTracker.PostBlock_info, ?_⟩
  intro t t1 t2 hooks s l h0 hrun hpost
  have hcount := progressTracker.run_no_report hooks t t1 (by rw [h0]; norm_num)
    (by rw [h0]; norm_num) hrun
  have hinfo := ((progressTracker.PostBlock_info t1 t2 s (some l) hpost).2 l rfl).2
  rw [hinfo.1, hinfo.2, hcount.1, hcount.2, h0]
  simp

/-- C18 at a tracker with frequency 100 created for `config.First = 0`: two
transactions with gas 21000 and 5, a `PostBlock` at block 50 (no line), one
more transaction with gas 7, and a `PostBlock` at block 100, which logs the
rates of 3 transactions and 21012 gas and resets the counters. -/
theorem progressTracker_interval_counts_witness :
    (makeProgressTracker 0 100).bind (fun t =>
        t.run [Hook.PostTransaction 21000, Hook.PostTransaction 5,
          Hook.PostBlock ⟨50, none, 0⟩, Hook.PostTransaction 7,
          Hook.PostBlock ⟨100, none, 0⟩])
      = some ({ reportFrequency := 100, lastReportedBlock := 100,
                lastIntervalInfo := { numTransactions := 0, gas := 0 } },
              [[("Reached block", Value.int 100), ("bytes of memory", Value.int 0),
                ("bytes of disk", Value.int 0), ("Tx/s", Value.perSecond 3),
                ("Gas/s", Value.perSecond 21012)]]) ∧
      ({ reportFrequency := 100, lastReportedBlock := 0,
         lastIntervalInfo := { numTransactions := 2, gas := 21005 } } :
          progressTracker).PostTransaction 7
        = { reportFrequency := 100, lastReportedBlock := 0,
            lastIntervalInfo := { numTransactions := 3, gas := 21012 } } :=
  ⟨by decide,
    (progressTracker_interval_counts.1
      { reportFrequency := 100, lastReportedBlock := 0,
        lastIntervalInfo := { numTransactions := 2, gas := 21005 } } 7).trans (by decide)⟩

/-- C19, the code at a reporting `PostBlock` call with a state-DB directory of
7 bytes and a backend reporting 3 used bytes: the line prints 7 for "bytes of
memory" and 3 for "bytes of disk". -/
theorem progressTracker_prints_disk_as_memory :
    ({ reportFrequency := 100, lastReportedBlock := 0,
       lastIntervalInfo := { numTransactions := 2, gas := 21000 } } :
        progressTracker).PostBlock ⟨100, some 3, 7⟩
      = some ({ reportFrequency := 100, lastReportedBlock := 100,
                lastIntervalInfo := { numTransactions := 0, gas := 0 } },
              some [("Reached block", Value.int 100), ("bytes of memory", Value.int 7),
                ("bytes of disk", Value.int 3), ("Tx/s", Value.perSecond 2),
                ("Gas/s", Value.perSecond 21000)]) := by
  decide

/-! ## Properties of priming -/

theorem primeLoop_bounded (env : PrimeEnv) (bufferSize target : Nat) :
    ∀ (updateSets : List UpdateBlock) (s : PrimeState),
      (s.totalSize ≤ bufferSize ∨ s.merged = 1) →
      (∀ ev ∈ (primeLoop env bufferSize target updateSets s).1, ev.Bounded bufferSize) ∧
        ∀ s', (primeLoop env bufferSize target updateSets s).2 = Except.ok s' →
          s'.totalSize ≤ bufferSize ∨ s'.merged = 1
  | [], s, hs => by
    simp only [primeLoop, List.not_mem_nil, false_implies, implies_true, Except.ok.injEq,
      true_and]
    intro s' h
    exact h ▸ hs
  | newSet :: rest, s, hs => by
    simp only [primeLoop]
    split_ifs with h1 h2
    · simp only [List.not_mem_nil, false_implies, implies_true, Except.ok.injEq, true_and]
      intro s' h
      exact h ▸ hs
    · cases hp : env.PrimeStateDB s.update with
      | some e =>
        simp only [List.mem_singleton, forall_eq, reduceCtorEq, false_implies, implies_true,
          and_true]
        exact hs
      | none =>
        have ih := primeLoop_bounded env bufferSize target rest
          { totalSize := (0 + env.EstimateIncrementalSize s.update newSet.UpdateSet) % 2 ^ 64
            block := (newSet.Block + 1) % 2 ^ 64
            hasPrimed := true
            update := env.Merge (ClearAccountStorage [] newSet.DeletedAccounts)
              newSet.UpdateSet
            merged := 1 } (Or.inr rfl)
        refine ⟨?_, ih.2⟩
        intro ev hev
        simp only [List.cons_append, List.nil_append, List.mem_cons] at hev
        rcases hev with rfl | rfl | hev
        · exact hs
        · trivial
        · exact ih.1 ev hev
    all_goals
      have ih := primeLoop_bounded env bufferSize target rest
        { totalSize :=
            (s.totalSize + env.EstimateIncrementalSize s.update newSet.UpdateSet) % 2 ^ 64
          block := (newSet.Block + 1) % 2 ^ 64
          hasPrimed := s.hasPrimed
          update := env.Merge (ClearAccountStorage s.update newSet.DeletedAccounts)
            newSet.UpdateSet
          merged := s.merged + 1 } (Or.inl (not_lt.1 h2))
      refine ⟨?_, ih.2⟩
      intro ev hev
      rcases List.mem_append.1 hev with hev | hev
      · first
          | (simp only [List.mem_singleton] at hev
             subst hev
             trivial)
          | simp at hev
      · exact ih.1 ev hev

theorem primeRest_bounded (env : PrimeEnv) (bufferSize target : Nat) (s : PrimeState)
    (hs : s.totalSize ≤ bufferSize ∨ s.merged = 1) :
    ∀ ev ∈ (primeRest env target s).1, ev.Bounded bufferSize := by
  have hflush : ∀ ev ∈ (if s.update.length > 0 then
        match env.PrimeStateDB s.update with
        | some e =>
          ([PrimeEvent.PrimeStateDB s.update s.totalSize s.merged],
            (Except.error ("cannot prime state-db; " ++ e) : Except Err Bool))
        | none => ([PrimeEvent.PrimeStateDB s.update s.totalSize s.merged], Except.ok true)
      else
        ([], Except.ok s.hasPrimed)).1, ev.Bounded bufferSize := by
    intro ev hev
    split_ifs at hev
    · cases hp : env.PrimeStateDB s.update with
      | some e =>
        rw [hp] at hev
        simp only [List.mem_singleton] at hev
        subst hev
        exact hs
      | none =>
        rw [hp] at hev
        simp only [List.mem_singleton] at hev
        subst hev
        exact hs
    · simp at hev
  have hgen : ∀ (hasPrimed : Bool), ∀ ev ∈ (if s.block < target ∨ target = 0 then
        match env.GenerateUpdateSet s.block target with
        | Except.error e =>
          (([] : List PrimeEvent), some ("cannot generate update-set; " ++ e))
        | Except.ok (update, deletedAccounts) =>
          match env.PrimeStateDB update with
          | some e =>
            ((if hasPrimed then [PrimeEvent.SuicideAccounts deletedAccounts] else [])
                ++ [PrimeEvent.PrimeGenerated update],
              some ("cannot prime state-db; " ++ e))
          | none =>
            ((if hasPrimed then [PrimeEvent.SuicideAccounts deletedAccounts] else [])
                ++ [PrimeEvent.PrimeGenerated update], none)
      else
        ([], none)).1, ev.Bounded bufferSize := by
    intro hasPrimed ev hev
    by_cases hc : s.block < target ∨ target = 0
    · rw [if_pos hc] at hev
      cases hg : env.GenerateUpdateSet s.block target with
      | error e => rw [hg] at hev; simp at hev
      | ok r =>
        obtain ⟨update, deletedAccounts⟩ := r
        rw [hg] at hev
        simp only at hev
        cases hp : env.PrimeStateDB update <;> rw [hp] at hev <;> cases hasPrimed <;>
          simp only [if_true, if_false, Bool.false_eq_true, List.mem_append,
            List.mem_singleton, List.not_mem_nil, false_or] at hev <;>
          rcases hev with rfl | rfl <;> trivial
    · rw [if_neg hc] at hev
      simp at hev
  intro ev hev
  unfold primeRest at hev
  simp only at hev
  split at hev
  · exact hflush ev hev
  · rename_i hasPrimed _
    split at hev
    · rcases List.mem_append.1 hev with h | h
      · exact hflush ev h
      · exact hgen hasPrimed ev h
    · split at hev
      · rcases List.mem_append.1 hev with h | h
        · rcases List.mem_append.1 h with h | h
          · exact hflush ev h
          · exact hgen hasPrimed ev h
        · simp only [List.mem_singleton] at h
          subst h
          trivial
      · rcases List.mem_append.1 hev with h | h
        · rcases List.mem_append.1 h with h | h
          · exact hflush ev h
          · exact hgen hasPrimed ev h
        · simp only [List.mem_singleton] at h
          subst h
          trivial

/-- C20, counterexample: `cfg.UpdateBufferSize = 10`, `cfg.First = 5`, and
two update sets, the first with two accounts (incremental size 16), the
second with one (incremental size 8). The first set is merged into an empty
chunk although it exceeds the buffer; when the second set arrives the chunk
is handed to `PrimeStateDB` with `totalSize = 16 > 10`. -/
theorem prime_chunk_exceeds_buffer :
    prime okPrimeEnv 10 5
        [⟨3, [(1, plainAccount 1), (2, plainAccount 1)], []⟩, ⟨4, [(3, plainAccount 1)], []⟩]
      = ([PrimeEvent.PrimeStateDB [] 0 0,
          PrimeEvent.SuicideAccounts [],
          PrimeEvent.PrimeStateDB [(1, plainAccount 1), (2, plainAccount 1)] 16 1,
          PrimeEvent.SuicideAccounts [],
          PrimeEvent.PrimeStateDB [(3, plainAccount 1)] 8 1,
          PrimeEvent.DeleteDestroyedAccountsFromStateDB 4],
         none) := by
  decide

/-- C20, amended: for every sequence of update sets, every estimate and merge
function and all results of the external calls, whenever `prime` hands a
chunk of merged update sets to `PrimeStateDB`, `totalSize` is at most
`cfg.UpdateBufferSize`, or the chunk holds a single update set (one that did
not fit into the buffer on top of the chunk before it). -/
theorem prime_chunk_bounded (env : PrimeEnv) (bufferSize first : Nat)
    (updateSets : List UpdateBlock) (update : SubstateAlloc) (totalSize merged : Nat)
    (hev : PrimeEvent.PrimeStateDB update totalSize merged
      ∈ (prime env bufferSize first updateSets).1) :
    totalSize ≤ bufferSize ∨ merged = 1 := by
  have hloop := primeLoop_bounded env bufferSize (subOne64 first) updateSets
    { totalSize := 0, block := 0, hasPrimed := false, update := [], merged := 0 }
    (Or.inl (Nat.zero_le _))
  unfold prime at hev
  cases ho : env.OpenUpdateDBReadOnly with
  | some e => rw [ho] at hev; simp at hev
  | none =>
    rw [ho] at hev
    simp only at hev
    cases hl : (primeLoop env bufferSize (subOne64 first) updateSets
      { totalSize := 0, block := 0, hasPrimed := false, update := [], merged := 0 }).2 with
    | error e =>
      rw [hl] at hev
      exact hloop.1 _ hev
    | ok s =>
      rw [hl] at hev
      simp only at hev
      rcases List.mem_append.1 hev with h | h
      · exact hloop.1 _ h
      · exact primeRest_bounded env bufferSize (subOne64 first) s (hloop.2 s hl) _ h

/-- C20, amended, at the run of the counterexample: the chunk handed over with
`totalSize = 16` holds one update set. -/
theorem prime_chunk_bounded_witness : 16 ≤ 10 ∨ 1 = 1 :=
  prime_chunk_bounded okPrimeEnv 10 5
    [⟨3, [(1, plainAccount 1), (2, plainAccount 1)], []⟩, ⟨4, [(3, plainAccount 1)], []⟩]
    [(1, plainAccount 1), (2, plainAccount 1)] 16 1 (by decide)

/-! ## Properties of the sequential pipeline -/

theorem runTransactionsLoop_same_block (b : Nat) (rest : List TransactionInfo) :
    ∀ (txs : List (Nat × Nat)),
      runTransactionsLoop (some b) (blockRecords (b, txs) ++ rest)
        = txs.flatMap (fun tx =>
            [Call.PreTransaction b tx.1, Call.Process b tx.1, Call.PostTransaction b tx.1])
          ++ runTransactionsLoop (some b) rest
  | [] => rfl
  | tx :: txs => by
    have ih := runTransactionsLoop_same_block b rest txs
    simp only [blockRecords, List.map_cons, List.cons_append, runTransactionsLoop, if_true,
      List.nil_append, List.flatMap_cons, List.append_assoc, List.append_eq] at ih ⊢
    rw [ih]

theorem runTransactionsLoop_new_block (current : Option Nat) (b : Nat) (tx : Nat × Nat)
    (txs : List (Nat × Nat)) (rest : List TransactionInfo) (hne : current ≠ some b) :
    runTransactionsLoop current (blockRecords (b, tx :: txs) ++ rest)
      = (if current.isSome then [Call.EndBlock] else []) ++ blockCalls (b, tx :: txs)
        ++ runTransactionsLoop (some b) rest := by
  have h := runTransactionsLoop_same_block b rest txs
  simp only [blockRecords, List.map_cons, List.cons_append, runTransactionsLoop, if_neg hne,
    blockCalls, List.flatMap_cons, List.append_assoc, List.append_eq] at h ⊢
  rw [h]
  simp

theorem runTransactionsLoop_blocks :
    ∀ (blocks : List (Nat × List (Nat × Nat))) (b0 : Nat),
      (∀ g ∈ blocks, g.2 ≠ []) → ((b0 :: blocks.map Prod.fst).Pairwise (· < ·)) →
      runTransactionsLoop (some b0) (blocks.flatMap blockRecords)
        = blocks.flatMap (fun g => Call.EndBlock :: blockCalls g)
  | [], _, _, _ => rfl
  | (b, []) :: _, _, hne, _ => absurd rfl (hne (b, []) (List.mem_cons_self _ _))
  | (b, tx :: txs) :: blocks, b0, hne, hasc => by
    rw [List.map_cons, List.pairwise_cons] at hasc
    have hb : b0 < b := hasc.1 b (List.mem_cons_self _ _)
    have hcur : (some b0 : Option Nat) ≠ some b := by
      intro h
      simp only [Option.some.injEq] at h
      omega
    rw [List.flatMap_cons, runTransactionsLoop_new_block (some b0) b tx txs _ hcur,
      runTransactionsLoop_blocks blocks b (fun g hg => hne g (List.mem_cons_of_mem _ hg))
        hasc.2]
    simp

theorem blockRecords_getLast (g : Nat × List (Nat × Nat)) (hne : g.2 ≠ []) :
    (blockRecords g).getLast?.map (fun r => r.Block) = some g.1 := by
  unfold blockRecords
  rw [List.getLast?_map]
  cases h : g.2.getLast? with
  | none => exact absurd (List.getLast?_eq_none_iff.1 h) hne
  | some tx => rfl

theorem blocks_getLast :
    ∀ (blocks : List (Nat × List (Nat × Nat))) (block : Nat × List (Nat × Nat)),
      (∀ g ∈ block :: blocks, g.2 ≠ []) →
      ((block :: blocks).flatMap blockRecords).getLast?.map (fun r => r.Block)
        = some ((blocks.getLast?.getD block).1)
  | [], block, hne => by
    simp only [List.flatMap_cons, List.flatMap_nil, List.append_nil, List.getLast?_nil,
      Option.getD_none]
    exact blockRecords_getLast block (hne block (List.mem_cons_self _ _))
  | g :: blocks, block, hne => by
    have ih := blocks_getLast blocks g (fun x hx => hne x (List.mem_cons_of_mem _ hx))
    rw [List.flatMap_cons, List.getLast?_append]
    cases h : ((g :: blocks).flatMap blockRecords).getLast? with
    | none => rw [h] at ih; simp at ih
    | some r =>
      rw [h] at ih
      simp only [Option.map_some', Option.some.injEq] at ih
      simp only [Option.or_some, Option.map_some', List.getLast?_cons, Option.getD_some,
        Option.some.injEq]
      exact ih

/-- C15: for a stream made of blocks with strictly ascending block numbers,
each with at least one transaction, the calls of the sequential pipeline
with one extension are: `PreRun`; for the first block `BeginBlock(b)` and
`PreTransaction`, `Process`, `PostTransaction` for each of its transactions
in order; for every later block `EndBlock`, then the same calls; after the
last `PostTransaction`, `PostRun` with a `nil` error, the final `EndBlock`,
and `Close`; and no other call. -/
theorem runTransactions_call_order (first : Nat) (block : Nat × List (Nat × Nat))
    (blocks : List (Nat × List (Nat × Nat)))
    (hasc : ((block :: blocks).map Prod.fst).Pairwise (· < ·))
    (hne : ∀ g ∈ block :: blocks, g.2 ≠ []) :
    runTransactions first ((block :: blocks).flatMap blockRecords)
      = [Call.PreRun first] ++ blockCalls block
        ++ blocks.flatMap (fun g => Call.EndBlock :: blockCalls g)
        ++ [Call.PostRun (blocks.getLast?.getD block).1 none, Call.EndBlock, Call.Close] := by
  obtain ⟨b, txs⟩ := block
  cases txs with
  | nil => exact absurd rfl (hne (b, []) (List.mem_cons_self _ _))
  | cons tx txs =>
    have hlast := blocks_getLast blocks (b, tx :: txs) hne
    have hloop : runTransactionsLoop none (((b, tx :: txs) :: blocks).flatMap blockRecords)
        = blockCalls (b, tx :: txs)
          ++ blocks.flatMap (fun g => Call.EndBlock :: blockCalls g) := by
      rw [List.flatMap_cons, runTransactionsLoop_new_block none b tx txs _ (by simp),
        runTransactionsLoop_blocks blocks b (fun g hg => hne g (List.mem_cons_of_mem _ hg))
          hasc]
      simp
    have hempty : (((b, tx :: txs) :: blocks).flatMap blockRecords).isEmpty = false := by
      simp [blockRecords]
    unfold runTransactions
    rw [hloop, hlast, hempty]
    simp

/-- C15 at the stream of the test: records `(2,1),(2,2),(3,1),(4,1)` with
`cfg.First = 2`. -/
theorem runTransactions_call_order_witness :
    runTransactions 2 [⟨2, 1, 0⟩, ⟨2, 2, 0⟩, ⟨3, 1, 0⟩, ⟨4, 1, 0⟩]
      = [Call.PreRun 2,
         Call.BeginBlock 2,
         Call.PreTransaction 2 1, Call.Process 2 1, Call.PostTransaction 2 1,
         Call.PreTransaction 2 2, Call.Process 2 2, Call.PostTransaction 2 2,
         Call.EndBlock,
         Call.BeginBlock 3,
         Call.PreTransaction 3 1, Call.Process 3 1, Call.PostTransaction 3 1,
         Call.EndBlock,
         Call.BeginBlock 4,
         Call.PreTransaction 4 1, Call.Process 4 1, Call.PostTransaction 4 1,
         Call.PostRun 4 none,
         Call.EndBlock,
         Call.Close] :=
  (runTransactions_call_order 2 (2, [(1, 0), (2, 0)]) [(3, [(1, 0)]), (4, [(1, 0)])]
    (by decide) (by decide)).trans (by decide)

theorem runTransactionsLoop_no_postRun :
    ∀ (current : Option Nat) (records : List TransactionInfo),
      (runTransactionsLoop current records).filter Call.isPostRun = []
  | _, [] => rfl
  | current, r :: rest => by
    have ih := runTransactionsLoop_no_postRun (some r.Block) rest
    simp only [runTransactionsLoop, List.filter_append, ih, List.append_nil]
    split_ifs <;> rfl

theorem runTransactionsLoop_ends :
    ∀ (init : List TransactionInfo) (current : Option Nat) (last : TransactionInfo),
      ∃ pre, runTransactionsLoop current (init ++ [last])
        = pre ++ [Call.PostTransaction last.Block last.Transaction]
  | [], current, last =>
    ⟨(if current = some last.Block then []
        else (if current.isSome then [Call.EndBlock] else []) ++ [Call.BeginBlock last.Block])
      ++ [Call.PreTransaction last.Block last.Transaction,
          Call.Process last.Block last.Transaction], by
      simp [runTransactionsLoop]⟩
  | r :: init, current, last => by
    obtain ⟨pre, hpre⟩ := runTransactionsLoop_ends init (some r.Block) last
    refine ⟨(if current = some r.Block then []
        else (if current.isSome then [Call.EndBlock] else []) ++ [Call.BeginBlock r.Block])
      ++ [Call.PreTransaction r.Block r.Transaction, Call.Process r.Block r.Transaction,
          Call.PostTransaction r.Block r.Transaction] ++ pre, ?_⟩
    rw [List.cons_append]
    simp only [runTransactionsLoop, hpre, List.append_assoc]

/-- C16, counterexample: in the run of the test (records
`(2,1),(2,2),(3,1),(4,1)`, no error) the last four calls are
`PostTransaction(4,1)`, `PostRun` with a `nil` error, `EndBlock`, `Close`:
`PostRun` is invoked before the `EndBlock` call for the final block. -/
theorem runTransactions_postRun_precedes_endBlock :
    (runTransactions 2 [⟨2, 1, 0⟩, ⟨2, 2, 0⟩, ⟨3, 1, 0⟩, ⟨4, 1, 0⟩]).drop 17
      = [Call.PostTransaction 4 1, Call.PostRun 4 none, Call.EndBlock, Call.Close] := by
  decide

/-- C16, amended: in a sequential run without error over a non-empty stream,
`PostRun` is invoked exactly once, with a `nil` error, right after the last
`PostTransaction` and before the `EndBlock` call for the final block, which
is followed by `Close`. -/
theorem runTransactions_postRun_once (first : Nat) (init : List TransactionInfo)
    (last : TransactionInfo) :
    (runTransactions first (init ++ [last])).filter Call.isPostRun
        = [Call.PostRun last.Block none] ∧
      ∃ pre, runTransactions first (init ++ [last])
        = pre ++ [Call.PostTransaction last.Block last.Transaction,
            Call.PostRun last.Block none, Call.EndBlock, Call.Close] := by
  have hempty : (init ++ [last]).isEmpty = false := by simp
  constructor
  · unfold runTransactions
    rw [List.getLast?_concat, hempty]
    simp only [List.filter_append, runTransactionsLoop_no_postRun]
    rfl
  · obtain ⟨pre, hpre⟩ := runTransactionsLoop_ends init none last
    refine ⟨Call.PreRun first :: pre, ?_⟩
    unfold runTransactions
    rw [List.getLast?_concat, hempty, hpre]
    simp

/-! ## Properties of the goroutines of `RunArchive` together -/

theorem sum_map_set {α : Type} (f : α → Nat) :
    ∀ (l : List α) (j : Nat) (w x : α), l[j]? = some w →
      ((l.set j x).map f).sum + f w = (l.map f).sum + f x
  | [], j, w, x, h => by simp at h
  | a :: l, 0, w, x, h => by
    simp only [List.getElem?_cons_zero, Option.some.injEq] at h
    subst h
    simp only [List.set_cons_zero, List.map_cons, List.sum_cons]
    omega
  | a :: l, j + 1, w, x, h => by
    simp only [List.getElem?_cons_succ] at h
    have ih := sum_map_set f l j w x h
    simp only [List.set_cons_succ, List.map_cons, List.sum_cons]
    omega

theorem runTxLoop_cost (env : Env) (state : Handle) (block : Nat) :
    ∀ (err : Option Err) (txs : List Transaction),
      eventsCost (runTxLoop env state block err txs).2 ≤ 5 * txs.length
  | _, [] => by simp [runTxLoop, eventsCost]
  | _, tx :: rest => by
    have ih := runTxLoop_cost env state block none rest
    simp only [runTxLoop]
    cases env.ProcessTx Handle.db tx.Block tx.Transaction tx.Substate with
    | none =>
      simp only [eventsCost, List.map_append, List.sum_append, List.map_cons, List.map_nil,
        List.sum_cons, List.sum_nil, Event.cost, List.length_cons] at ih ⊢
      omega
    | some e =>
      simp only [eventsCost, List.map_cons, List.map_nil, List.sum_cons, List.sum_nil,
        Event.cost, List.length_cons]
      omega

theorem runBatch_cost (env : Env) (err : Option Err) (batch : List Transaction) :
    eventsCost (runBatch env err batch).2 ≤ 5 * batch.length + 7 := by
  cases batch with
  | nil => simp [runBatch, eventsCost]
  | cons first rest =>
    cases h : env.GetArchiveState (subOne64 first.Block) with
    | some e =>
      simp only [runBatch, h, eventsCost, List.map_cons, List.map_nil, List.sum_cons,
        List.sum_nil, Event.cost, List.length_cons]
      omega
    | none =>
      have hl := runTxLoop_cost env (Handle.archive (subOne64 first.Block)) first.Block none
        (first :: rest)
      rw [runBatch_events env err first rest h]
      unfold closeBatch
      cases env.Close (Handle.archive (subOne64 first.Block)) <;>
        simp only [eventsCost, List.map_append, List.sum_append, List.map_cons, List.map_nil,
          List.sum_cons, List.sum_nil, Event.cost, List.length_cons] at hl ⊢ <;>
        omega

theorem Aggregator.step_measure (cfg : Config) (a : Action) (s t : Aggregator)
    (h : s.step cfg a = Outcome.ok t) :
    match a with
    | Action.sendIssue _ => t.measure = s.measure + 1
    | Action.sendTransaction _ => t.measure = s.measure + 1
    | Action.sendBlock _ => t.measure = s.measure + 1
    | Action.closeDone _ => t.measure = s.measure
    | _ => t.measure + 1 = s.measure := by
  cases a with
  | sendIssue issue =>
    simp only [Aggregator.step] at h
    split_ifs at h
    simp only [Outcome.ok.injEq] at h
    subst h
    simp only [Aggregator.measure, List.length_append, List.length_singleton]
    omega
  | sendTransaction tx =>
    simp only [Aggregator.step] at h
    split_ifs at h
    simp only [Outcome.ok.injEq] at h
    subst h
    simp only [Aggregator.measure, List.length_append, List.length_singleton]
    omega
  | sendBlock block =>
    simp only [Aggregator.step] at h
    split_ifs at h
    simp only [Outcome.ok.injEq] at h
    subst h
    simp only [Aggregator.measure, List.length_append, List.length_singleton]
    omega
  | closeDone j =>
    simp only [Aggregator.step] at h
    split_ifs at h
    simp only [Outcome.ok.injEq] at h
    subst h
    simp only [Aggregator.measure, List.length_set]
  | recvIssue =>
    simp only [Aggregator.step] at h
    split_ifs at h with hi
    simp only [Aggregator.select] at h
    cases hq : s.issues with
    | nil => rw [hq] at h; simp at h
    | cons issue queue =>
      rw [hq] at h
      simp only at h
      split_ifs at h <;>
      · simp only [Outcome.ok.injEq] at h
        subst h
        simp only [Aggregator.measure, hq, List.length_cons]
        omega
  | recvTransaction =>
    simp only [Aggregator.step] at h
    split_ifs at h with hi
    simp only [Aggregator.select] at h
    cases hq : s.finishedTransaction with
    | nil => rw [hq] at h; simp at h
    | cons tx queue =>
      rw [hq] at h
      simp only at h
      split_ifs at h <;>
      · simp only [Outcome.ok.injEq] at h
        subst h
        simp only [Aggregator.measure, hq, List.length_cons]
        omega
  | recvBlock =>
    simp only [Aggregator.step] at h
    split_ifs at h with hi
    simp only [Aggregator.select] at h
    cases hq : s.finishedBlock with
    | nil => rw [hq] at h; simp at h
    | cons block queue =>
      rw [hq] at h
      simp only at h
      split_ifs at h <;>
      · simp only [Outcome.ok.injEq] at h
        subst h
        simp only [Aggregator.measure, hq, List.length_cons]
        omega
  | recvDone =>
    simp only [Aggregator.step] at h
    split_ifs at h with hi
    simp only [Aggregator.select] at h
    split_ifs at h
    simp only [Outcome.ok.injEq] at h
    subst h
    simp only [Aggregator.measure]
    omega

theorem Event.cost_pos (e : Event) : 1 ≤ e.cost := by
  cases e <;> simp [Event.cost]

theorem Event.toAction_measure (cfg : Config) (j : Nat) (e : Event) (a : Action)
    (s t : Aggregator) (ha : e.toAction j = some a) (hst : s.step cfg a = Outcome.ok t) :
    t.measure + 1 ≤ s.measure + e.cost := by
  have hm := Aggregator.step_measure cfg a s t hst
  cases e <;> simp only [Event.toAction, Option.some.injEq, reduceCtorEq] at ha <;>
    subst ha <;> simp only [Event.cost] at hm ⊢ <;> omega

theorem System.producerStep_measure (cfg : Config) (last : Nat) (s t : System)
    (h : s.producerStep cfg last = some t) : t.measure < s.measure := by
  unfold System.producerStep at h
  cases hp : s.producer with
  | loop iter currentBlock transactions =>
    rw [hp] at h
    cases iter with
    | nil =>
      simp only [Option.some.injEq] at h
      subst h
      simp only [System.measure, hp, Producer.measure, List.length_nil]
      omega
    | cons tx rest =>
      simp only at h
      split_ifs at h <;>
      · simp only [Option.some.injEq] at h
        subst h
        simp only [System.measure, hp, Producer.measure, List.length_cons, List.length_append,
          List.length_singleton, List.length_nil]
        omega
  | send batch next =>
    rw [hp] at h
    simp only at h
    split_ifs at h
    cases next with
    | none =>
      simp only [Option.some.injEq] at h
      subst h
      simp only [System.measure, hp, Producer.measure, List.map_append, List.sum_append,
        List.map_cons, List.map_nil, List.sum_cons, List.sum_nil, batchBound]
      omega
    | some next =>
      obtain ⟨rest, currentBlock, transactions⟩ := next
      simp only [Option.some.injEq] at h
      subst h
      simp only [System.measure, hp, Producer.measure, List.map_append, List.sum_append,
        List.map_cons, List.map_nil, List.sum_cons, List.sum_nil, batchBound]
      omega
  | closed =>
    rw [hp] at h
    simp at h

theorem System.workerStep_measure (cfg : Config) (env : Env) (j : Nat) (s t : System)
    (h : s.workerStep cfg env j = some t) : t.measure < s.measure := by
  unfold System.workerStep at h
  cases hw : s.workers[j]? with
  | none => rw [hw] at h; simp at h
  | some w =>
    rw [hw] at h
    cases w with
    | done => simp at h
    | idle err =>
      simp only at h
      cases hb : s.blocks with
      | nil =>
        rw [hb] at h
        simp only at h
        split_ifs at h
        simp only [Option.some.injEq] at h
        subst h
        have hs := sum_map_set Worker.measure s.workers j (Worker.idle err) Worker.done hw
        simp only [System.measure, Aggregator.measure, List.length_set, Worker.measure, hb,
          List.map_nil, List.sum_nil] at hs ⊢
        omega
      | cons batch queue =>
        rw [hb] at h
        simp only [Option.some.injEq] at h
        subst h
        have hs := sum_map_set Worker.measure s.workers j (Worker.idle err)
          (Worker.busy (runBatch env err batch).2 (runBatch env err batch).1) hw
        have hc := runBatch_cost env err batch
        simp only [System.measure, hb, List.map_cons, List.sum_cons, batchBound,
          Worker.measure] at hs ⊢
        omega
    | busy events err =>
      cases events with
      | nil =>
        simp only [Option.some.injEq] at h
        subst h
        have hs := sum_map_set Worker.measure s.workers j (Worker.busy [] err)
          (Worker.idle err) hw
        simp only [System.measure, Worker.measure, eventsCost, List.map_nil, List.sum_nil]
          at hs ⊢
        omega
      | cons e events =>
        simp only at h
        have hs := sum_map_set Worker.measure s.workers j (Worker.busy (e :: events) err)
          (Worker.busy events err) hw
        have hpos := Event.cost_pos e
        cases ha : e.toAction j with
        | none =>
          rw [ha] at h
          simp only [Option.some.injEq] at h
          subst h
          simp only [System.measure, Worker.measure, eventsCost, List.map_cons, List.sum_cons]
            at hs ⊢
          omega
        | some a =>
          rw [ha] at h
          simp only at h
          cases hst : s.agg.step cfg a with
          | ok u =>
            rw [hst] at h
            simp only [Option.some.injEq] at h
            subst h
            have hm := Event.toAction_measure cfg j e a s.agg u ha hst
            simp only [System.measure, Worker.measure, eventsCost, List.map_cons,
              List.sum_cons] at hs ⊢
            omega
          | blocked => rw [hst] at h; simp at h
          | panic => rw [hst] at h; simp at h

theorem System.aggregatorStep_measure (cfg : Config) (a : Action) (s t : System)
    (h : s.aggregatorStep cfg a = some t) : t.measure < s.measure := by
  unfold System.aggregatorStep at h
  cases a with
  | recvIssue =>
    simp only at h
    cases hst : s.agg.step cfg Action.recvIssue with
    | ok u =>
      rw [hst] at h
      simp only [Option.some.injEq] at h
      subst h
      have hm := Aggregator.step_measure cfg _ s.agg u hst
      simp only [System.measure] at hm ⊢
      omega
    | blocked => rw [hst] at h; simp at h
    | panic => rw [hst] at h; simp at h
  | recvTransaction =>
    simp only at h
    cases hst : s.agg.step cfg Action.recvTransaction with
    | ok u =>
      rw [hst] at h
      simp only [Option.some.injEq] at h
      subst h
      have hm := Aggregator.step_measure cfg _ s.agg u hst
      simp only [System.measure] at hm ⊢
      omega
    | blocked => rw [hst] at h; simp at h
    | panic => rw [hst] at h; simp at h
  | recvBlock =>
    simp only at h
    cases hst : s.agg.step cfg Action.recvBlock with
    | ok u =>
      rw [hst] at h
      simp only [Option.some.injEq] at h
      subst h
      have hm := Aggregator.step_measure cfg _ s.agg u hst
      simp only [System.measure] at hm ⊢
      omega
    | blocked => rw [hst] at h; simp at h
    | panic => rw [hst] at h; simp at h
  | recvDone =>
    simp only at h
    cases hst : s.agg.step cfg Action.recvDone with
    | ok u =>
      rw [hst] at h
      simp only [Option.some.injEq] at h
      subst h
      have hm := Aggregator.step_measure cfg _ s.agg u hst
      simp only [System.measure] at hm ⊢
      omega
    | blocked => rw [hst] at h; simp at h
    | panic => rw [hst] at h; simp at h
  | sendIssue _ => simp at h
  | sendTransaction _ => simp at h
  | sendBlock _ => simp at h
  | closeDone _ => simp at h

theorem System.step_decreases (cfg : Config) (env : Env) (last : Nat) (move : Move)
    (s t : System) (h : s.step cfg env last move = some t) : t.measure < s.measure := by
  cases move with
  | producer => exact System.producerStep_measure cfg last s t h
  | worker j => exact System.workerStep_measure cfg env j s t h
  | aggregator a => exact System.aggregatorStep_measure cfg a s t h

theorem System.run_measure (cfg : Config) (env : Env) (last : Nat) :
    ∀ (schedule : List Move) (s t : System), s.run cfg env last schedule = some t →
      t.measure + schedule.length ≤ s.measure
  | [], s, t, h => by
    simp only [System.run, Option.some.injEq] at h
    subst h
    simp
  | move :: schedule, s, t, h => by
    simp only [System.run] at h
    cases hst : s.step cfg env last move with
    | none => rw [hst] at h; simp at h
    | some u =>
      rw [hst] at h
      have h1 := System.step_decreases cfg env last move s u hst
      have h2 := System.run_measure cfg env last schedule u t h
      simp only [List.length_cons]
      omega

theorem getD_true {l : List Bool} {i : Nat} (h : l.getD i false = true) : l[i]? = some true := by
  rw [List.getD_eq_getElem?_getD] at h
  cases hl : l[i]? with
  | none => rw [hl] at h; simp at h
  | some b =>
    rw [hl] at h
    simp only [Option.getD_some] at h
    rw [h]

theorem Aggregator.step_frame (cfg : Config) (a : Action) (s t : Aggregator)
    (h : s.step cfg a = Outcome.ok t) (ha : ∀ j, a ≠ Action.closeDone j) :
    t.dones = s.dones ∧ s.i ≤ t.i ∧
      (t.i ≠ s.i → t.i = s.i + 1 ∧ s.dones[s.i]? = some true) := by
  cases a with
  | sendIssue issue =>
    simp only [Aggregator.step] at h
    split_ifs at h
    simp only [Outcome.ok.injEq] at h
    subst h
    exact ⟨rfl, le_refl _, fun hne => absurd rfl hne⟩
  | sendTransaction tx =>
    simp only [Aggregator.step] at h
    split_ifs at h
    simp only [Outcome.ok.injEq] at h
    subst h
    exact ⟨rfl, le_refl _, fun hne => absurd rfl hne⟩
  | sendBlock block =>
    simp only [Aggregator.step] at h
    split_ifs at h
    simp only [Outcome.ok.injEq] at h
    subst h
    exact ⟨rfl, le_refl _, fun hne => absurd rfl hne⟩
  | closeDone j => exact absurd rfl (ha j)
  | recvIssue =>
    simp only [Aggregator.step] at h
    split_ifs at h with hi
    simp only [Aggregator.select] at h
    cases hq : s.issues with
    | nil => rw [hq] at h; simp at h
    | cons issue queue =>
      rw [hq] at h
      simp only at h
      split_ifs at h <;>
      · simp only [Outcome.ok.injEq] at h
        subst h
        exact ⟨rfl, le_refl _, fun hne => absurd rfl hne⟩
  | recvTransaction =>
    simp only [Aggregator.step] at h
    split_ifs at h with hi
    simp only [Aggregator.select] at h
    cases hq : s.finishedTransaction with
    | nil => rw [hq] at h; simp at h
    | cons tx queue =>
      rw [hq] at h
      simp only at h
      split_ifs at h <;>
      · simp only [Outcome.ok.injEq] at h
        subst h
        exact ⟨rfl, le_refl _, fun hne => absurd rfl hne⟩
  | recvBlock =>
    simp only [Aggregator.step] at h
    split_ifs at h with hi
    simp only [Aggregator.select] at h
    cases hq : s.finishedBlock with
    | nil => rw [hq] at h; simp at h
    | cons block queue =>
      rw [hq] at h
      simp only at h
      split_ifs at h <;>
      · simp only [Outcome.ok.injEq] at h
        subst h
        exact ⟨rfl, le_refl _, fun hne => absurd rfl hne⟩
  | recvDone =>
    simp only [Aggregator.step] at h
    split_ifs at h with hi
    simp only [Aggregator.select] at h
    split_ifs at h with hd
    simp only [Outcome.ok.injEq] at h
    subst h
    exact ⟨rfl, Nat.le_succ _, fun _ => ⟨rfl, getD_true hd⟩⟩

theorem set_done_iff (l : List Worker) (j : Nat) (w w' : Worker) (hw : l[j]? = some w)
    (hne : w ≠ Worker.done) (hne' : w' ≠ Worker.done) (k : Nat) :
    (l.set j w')[k]? = some Worker.done ↔ l[k]? = some Worker.done := by
  by_cases hjk : j = k
  · subst hjk
    have hlt : j < l.length := by
      by_contra hge
      rw [List.getElem?_eq_none (not_lt.1 hge)] at hw
      simp at hw
    rw [List.getElem?_set_self hlt, hw]
    simp only [Option.some.injEq]
    exact ⟨fun h => absurd h hne', fun h => absurd h hne⟩
  · rw [List.getElem?_set_ne hjk]

theorem set_busy_iff (l : List Worker) (j : Nat) (w' : Worker) (k : Nat)
    (events : List Event) (err : Option Err)
    (h : (l.set j w')[k]? = some (Worker.busy events err)) :
    l[k]? = some (Worker.busy events err) ∨ w' = Worker.busy events err := by
  by_cases hjk : j = k
  · subst hjk
    by_cases hlt : j < l.length
    · rw [List.getElem?_set_self hlt] at h
      simp only [Option.some.injEq] at h
      exact Or.inr h
    · rw [List.getElem?_eq_none (by simpa using hlt)] at h
      simp at h
  · rw [List.getElem?_set_ne hjk] at h
    exact Or.inl h

theorem System.producerStep_inv (cfg : Config) (last : Nat) (s t : System)
    (hs : s.Inv cfg) (h : s.producerStep cfg last = some t) : t.Inv cfg := by
  have hnd : ∀ j : Nat, s.workers[j]? ≠ some Worker.done := by
    intro j hj
    have hc := (hs.closed_iff.1 (hs.drained j hj).1)
    unfold System.producerStep at h
    rw [hc] at h
    simp at h
  unfold System.producerStep at h
  cases hp : s.producer with
  | loop iter currentBlock transactions =>
    rw [hp] at h
    have hopen : s.blocksClosed = false := by
      cases hb : s.blocksClosed with
      | false => rfl
      | true =>
        have := hs.closed_iff.1 hb
        rw [hp] at this
        exact absurd this (by simp)
    cases iter with
    | nil =>
      simp only [Option.some.injEq] at h
      subst h
      exact ⟨hs.workers_length, hs.dones_length, hs.done_iff,
        by simp [hopen], hs.passed, hs.i_le, hs.drained, hs.no_close, hs.agg_inv⟩
    | cons tx rest =>
      simp only at h
      split_ifs at h <;> simp only [Option.some.injEq] at h <;> subst h
      · exact ⟨hs.workers_length, hs.dones_length, hs.done_iff, by simp, hs.passed, hs.i_le,
          fun j hj => absurd hj (hnd j), hs.no_close, hs.agg_inv⟩
      · exact ⟨hs.workers_length, hs.dones_length, hs.done_iff, by simp [hopen], hs.passed,
          hs.i_le, hs.drained, hs.no_close, hs.agg_inv⟩
      · exact ⟨hs.workers_length, hs.dones_length, hs.done_iff, by simp [hopen], hs.passed,
          hs.i_le, hs.drained, hs.no_close, hs.agg_inv⟩
      · exact ⟨hs.workers_length, hs.dones_length, hs.done_iff, by simp [hopen], hs.passed,
          hs.i_le, hs.drained, hs.no_close, hs.agg_inv⟩
  | send batch next =>
    rw [hp] at h
    have hopen : s.blocksClosed = false := by
      cases hb : s.blocksClosed with
      | false => rfl
      | true =>
        have := hs.closed_iff.1 hb
        rw [hp] at this
        exact absurd this (by simp)
    simp only at h
    split_ifs at h
    cases next with
    | none =>
      simp only [Option.some.injEq] at h
      subst h
      exact ⟨hs.workers_length, hs.dones_length, hs.done_iff, by simp, hs.passed, hs.i_le,
        fun j hj => absurd hj (hnd j), hs.no_close, hs.agg_inv⟩
    | some next =>
      obtain ⟨rest, currentBlock, transactions⟩ := next
      simp only [Option.some.injEq] at h
      subst h
      exact ⟨hs.workers_length, hs.dones_length, hs.done_iff, by simp [hopen], hs.passed,
        hs.i_le, fun j hj => absurd hj (hnd j), hs.no_close, hs.agg_inv⟩
  | closed =>
    rw [hp] at h
    simp at h

theorem Event.toAction_ne_close (j : Nat) (e : Event) (a : Action)
    (h : e.toAction j = some a) (hne : e ≠ Event.closeDone) (k : Nat) :
    a ≠ Action.closeDone k := by
  cases e <;> simp only [Event.toAction, Option.some.injEq, reduceCtorEq] at h <;>
    first
      | exact absurd rfl hne
      | (subst h; simp)

theorem System.frame_passed (cfg : Config) (s : System) (hs : s.Inv cfg) (u : Aggregator)
    (hd : u.dones = s.agg.dones)
    (hi' : u.i ≠ s.agg.i → u.i = s.agg.i + 1 ∧ s.agg.dones[s.agg.i]? = some true) :
    (∀ k : Nat, k < u.i → u.dones[k]? = some true) ∧ u.i ≤ cfg.Workers ∧
      u.dones.length = cfg.Workers := by
  by_cases heq : u.i = s.agg.i
  · refine ⟨?_, heq ▸ hs.i_le, hd ▸ hs.dones_length⟩
    intro k hk
    rw [hd]
    exact hs.passed k (heq ▸ hk)
  · obtain ⟨h1, h2⟩ := hi' heq
    have hlt : s.agg.i < s.agg.dones.length := by
      by_contra hge
      rw [List.getElem?_eq_none (not_lt.1 hge)] at h2
      simp at h2
    refine ⟨?_, by rw [h1, ← hs.dones_length]; exact hlt, hd ▸ hs.dones_length⟩
    intro k hk
    rw [hd]
    by_cases hks : k < s.agg.i
    · exact hs.passed k hks
    · have : k = s.agg.i := by omega
      rw [this]
      exact h2

theorem System.workerStep_inv (cfg : Config) (env : Env) (j : Nat) (s t : System)
    (hs : s.Inv cfg) (h : s.workerStep cfg env j = some t) : t.Inv cfg := by
  unfold System.workerStep at h
  cases hw : s.workers[j]? with
  | none => rw [hw] at h; simp at h
  | some w =>
    rw [hw] at h
    have hj : j < s.workers.length := by
      by_contra hge
      rw [List.getElem?_eq_none (not_lt.1 hge)] at hw
      simp at hw
    cases w with
    | done => simp at h
    | idle err =>
      simp only at h
      cases hb : s.blocks with
      | cons batch queue =>
        rw [hb] at h
        simp only [Option.some.injEq] at h
        subst h
        have hiff := set_done_iff s.workers j (Worker.idle err)
          (Worker.busy (runBatch env err batch).2 (runBatch env err batch).1) hw
          (by simp) (by simp)
        refine ⟨by simp [hs.workers_length], hs.dones_length,
          fun k => (hiff k).trans (hs.done_iff k), hs.closed_iff, hs.passed, hs.i_le, ?_, ?_,
          hs.agg_inv⟩
        · intro k hk
          have := (hs.drained k ((hiff k).1 hk)).2
          rw [hb] at this
          simp at this
        · intro k events err' hk
          rcases set_busy_iff s.workers j _ k events err' hk with h1 | h1
          · exact hs.no_close k events err' h1
          · simp only [Worker.busy.injEq] at h1
            rw [← h1.1]
            exact (runBatch_open env err batch).2
      | nil =>
        rw [hb] at h
        simp only at h
        split_ifs at h with hc
        simp only [Option.some.injEq] at h
        subst h
        have hjd : j < s.agg.dones.length := by
          rw [hs.dones_length, ← hs.workers_length]
          exact hj
        refine ⟨by simp [hs.workers_length], by simp [hs.dones_length], ?_, hs.closed_iff, ?_,
          hs.i_le, fun _ _ => ⟨hc, rfl⟩, ?_,
          ⟨hs.agg_inv.log_eq, hs.agg_inv.err_eq, hs.agg_inv.abort_eq, hs.agg_inv.closed_eq⟩⟩
        · intro k
          by_cases hjk : j = k
          · subst hjk
            show (s.workers.set j Worker.done)[j]? = some Worker.done ↔
              (s.agg.dones.set j true)[j]? = some true
            rw [List.getElem?_set_self hj, List.getElem?_set_self hjd]
            simp
          · show (s.workers.set j Worker.done)[k]? = some Worker.done ↔
              (s.agg.dones.set j true)[k]? = some true
            rw [List.getElem?_set_ne hjk, List.getElem?_set_ne hjk]
            exact hs.done_iff k
        · intro k hk
          show (s.agg.dones.set j true)[k]? = some true
          by_cases hjk : j = k
          · subst hjk
            exact List.getElem?_set_self hjd
          · rw [List.getElem?_set_ne hjk]
            exact hs.passed k hk
        · intro k events err' hk
          rcases set_busy_iff s.workers j _ k events err' hk with h1 | h1
          · exact hs.no_close k events err' h1
          · simp at h1
    | busy events err =>
      cases events with
      | nil =>
        simp only [Option.some.injEq] at h
        subst h
        have hiff := set_done_iff s.workers j (Worker.busy [] err) (Worker.idle err) hw
          (by simp) (by simp)
        refine ⟨by simp [hs.workers_length], hs.dones_length,
          fun k => (hiff k).trans (hs.done_iff k), hs.closed_iff, hs.passed, hs.i_le,
          fun k hk => hs.drained k ((hiff k).1 hk), ?_, hs.agg_inv⟩
        intro k events err' hk
        rcases set_busy_iff s.workers j _ k events err' hk with h1 | h1
        · exact hs.no_close k events err' h1
        · simp at h1
      | cons e events =>
        simp only at h
        have hnc := hs.no_close j (e :: events) err hw
        have hne : e ≠ Event.closeDone := fun he => hnc (he ▸ List.mem_cons_self _ _)
        have hiff := set_done_iff s.workers j (Worker.busy (e :: events) err)
          (Worker.busy events err) hw (by simp) (by simp)
        have hbusy : ∀ (k : Nat) (events' : List Event) (err' : Option Err),
            (s.workers.set j (Worker.busy events err))[k]? = some (Worker.busy events' err') →
            Event.closeDone ∉ events' := by
          intro k events' err' hk
          rcases set_busy_iff s.workers j _ k events' err' hk with h1 | h1
          · exact hs.no_close k events' err' h1
          · simp only [Worker.busy.injEq] at h1
            rw [← h1.1]
            exact fun hm => hnc (List.mem_cons_of_mem _ hm)
        cases ha : e.toAction j with
        | none =>
          rw [ha] at h
          simp only [Option.some.injEq] at h
          subst h
          exact ⟨by simp [hs.workers_length], hs.dones_length,
            fun k => (hiff k).trans (hs.done_iff k), hs.closed_iff, hs.passed, hs.i_le,
            fun k hk => hs.drained k ((hiff k).1 hk), hbusy, hs.agg_inv⟩
        | some a =>
          rw [ha] at h
          simp only at h
          cases hst : s.agg.step cfg a with
          | ok u =>
            rw [hst] at h
            simp only [Option.some.injEq] at h
            subst h
            obtain ⟨hd, _, hi'⟩ := Aggregator.step_frame cfg a s.agg u hst
              (Event.toAction_ne_close j e a ha hne)
            obtain ⟨hp, hle, hlen⟩ := System.frame_passed cfg s hs u hd hi'
            exact ⟨by simp [hs.workers_length], hlen,
              fun k => (hiff k).trans (by rw [hd]; exact hs.done_iff k), hs.closed_iff, hp,
              hle, fun k hk => hs.drained k ((hiff k).1 hk), hbusy,
              (Aggregator.step_inv cfg a s.agg hs.agg_inv).2 u hst⟩
          | blocked => rw [hst] at h; simp at h
          | panic => rw [hst] at h; simp at h

theorem System.aggregatorStep_inv (cfg : Config) (a : Action) (s t : System)
    (hs : s.Inv cfg) (h : s.aggregatorStep cfg a = some t) : t.Inv cfg := by
  have key : ∀ u, s.agg.step cfg a = Outcome.ok u → (∀ k, a ≠ Action.closeDone k) →
      ({ s with agg := u } : System).Inv cfg := by
    intro u hst hne
    obtain ⟨hd, _, hi'⟩ := Aggregator.step_frame cfg a s.agg u hst hne
    obtain ⟨hp, hle, hlen⟩ := System.frame_passed cfg s hs u hd hi'
    exact ⟨hs.workers_length, hlen, fun k => by rw [hd]; exact hs.done_iff k, hs.closed_iff,
      hp, hle, hs.drained, hs.no_close, (Aggregator.step_inv cfg a s.agg hs.agg_inv).2 u hst⟩
  unfold System.aggregatorStep at h
  cases a with
  | recvIssue =>
    simp only at h
    cases hst : s.agg.step cfg Action.recvIssue with
    | ok u =>
      rw [hst] at h
      simp only [Option.some.injEq] at h
      subst h
      exact key u hst (by simp)
    | blocked => rw [hst] at h; simp at h
    | panic => rw [hst] at h; simp at h
  | recvTransaction =>
    simp only at h
    cases hst : s.agg.step cfg Action.recvTransaction with
    | ok u =>
      rw [hst] at h
      simp only [Option.some.injEq] at h
      subst h
      exact key u hst (by simp)
    | blocked => rw [hst] at h; simp at h
    | panic => rw [hst] at h; simp at h
  | recvBlock =>
    simp only at h
    cases hst : s.agg.step cfg Action.recvBlock with
    | ok u =>
      rw [hst] at h
      simp only [Option.some.injEq] at h
      subst h
      exact key u hst (by simp)
    | blocked => rw [hst] at h; simp at h
    | panic => rw [hst] at h; simp at h
  | recvDone =>
    simp only at h
    cases hst : s.agg.step cfg Action.recvDone with
    | ok u =>
      rw [hst] at h
      simp only [Option.some.injEq] at h
      subst h
      exact key u hst (by simp)
    | blocked => rw [hst] at h; simp at h
    | panic => rw [hst] at h; simp at h
  | sendIssue _ => simp at h
  | sendTransaction _ => simp at h
  | sendBlock _ => simp at h
  | closeDone _ => simp at h

theorem System.init_invariant (cfg : Config) (iter : List Transaction) :
    (System.init cfg iter).Inv cfg := by
  refine ⟨by simp [System.init], by simp [System.init, Aggregator.init], ?_,
    by simp [System.init], ?_, Nat.zero_le _, ?_, ?_, Aggregator.init_inv cfg⟩
  · intro j
    simp only [System.init, Aggregator.init, List.getElem?_replicate]
    split_ifs <;> simp
  · intro j hj
    simp [System.init, Aggregator.init] at hj
  · intro j hj
    simp only [System.init, List.getElem?_replicate] at hj
    split_ifs at hj
    simp at hj
  · intro j events err hj
    simp only [System.init, List.getElem?_replicate] at hj
    split_ifs at hj
    simp at hj

theorem System.run_invariant (cfg : Config) (env : Env) (last : Nat) :
    ∀ (schedule : List Move) (s t : System), s.Inv cfg →
      s.run cfg env last schedule = some t → t.Inv cfg
  | [], s, t, hs, h => by
    simp only [System.run, Option.some.injEq] at h
    exact h ▸ hs
  | move :: schedule, s, t, hs, h => by
    simp only [System.run] at h
    cases hst : s.step cfg env last move with
    | none => rw [hst] at h; simp at h
    | some u =>
      rw [hst] at h
      have hu : u.Inv cfg := by
        cases move with
        | producer => exact System.producerStep_inv cfg last s u hs hst
        | worker j => exact System.workerStep_inv cfg env j s u hs hst
        | aggregator a => exact System.aggregatorStep_inv cfg a s u hs hst
      exact System.run_invariant cfg env last schedule u t hu h

theorem System.progress (cfg : Config) (env : Env) (last : Nat) (s : System)
    (hs : s.Inv cfg) (hi : s.agg.i < cfg.Workers) :
    ∃ move t, s.step cfg env last move = some t := by
  have hlen : s.agg.i < s.agg.dones.length := by rw [hs.dones_length]; exact hi
  have hcap : 0 < 10 * cfg.Workers := by omega
  suffices h : ∃ move, (s.step cfg env last move).isSome = true by
    obtain ⟨move, hm⟩ := h
    exact ⟨move, Option.isSome_iff_exists.1 hm⟩
  cases hq1 : s.agg.issues with
  | cons issue queue =>
    refine ⟨Move.aggregator Action.recvIssue, ?_⟩
    have hcl := hs.agg_inv.closed_eq
    cases hab : s.agg.abort with
    | true =>
      rw [hab] at hcl
      simp [System.step, System.aggregatorStep, Aggregator.step, hlen, Aggregator.select, hq1,
        hab, hcl]
    | false =>
      simp [System.step, System.aggregatorStep, Aggregator.step, hlen, Aggregator.select, hq1,
        hab]
  | nil =>
  cases hq2 : s.agg.finishedTransaction with
  | cons tx queue =>
    refine ⟨Move.aggregator Action.recvTransaction, ?_⟩
    cases hp : cfg.EnableProgress <;>
      simp [System.step, System.aggregatorStep, Aggregator.step, hlen, Aggregator.select, hq2,
        hp]
  | nil =>
  cases hq3 : s.agg.finishedBlock with
  | cons block queue =>
    refine ⟨Move.aggregator Action.recvBlock, ?_⟩
    cases hp : cfg.EnableProgress <;>
      simp [System.step, System.aggregatorStep, Aggregator.step, hlen, Aggregator.select, hq3,
        hp]
  | nil =>
  have hiw : s.agg.i < s.workers.length := by rw [hs.workers_length]; exact hi
  have hw : s.workers[s.agg.i]? = some s.workers[s.agg.i] := List.getElem?_eq_getElem hiw
  cases hwi : s.workers[s.agg.i] with
  | done =>
    rw [hwi] at hw
    have hd := (hs.done_iff s.agg.i).1 hw
    refine ⟨Move.aggregator Action.recvDone, ?_⟩
    simp [System.step, System.aggregatorStep, Aggregator.step, hlen, Aggregator.select,
      List.getD_eq_getElem?_getD, hd]
  | idle err =>
    rw [hwi] at hw
    cases hb : s.blocks with
    | cons batch queue =>
      refine ⟨Move.worker s.agg.i, ?_⟩
      simp [System.step, System.workerStep, hw, hb]
    | nil =>
      cases hc : s.blocksClosed with
      | true =>
        refine ⟨Move.worker s.agg.i, ?_⟩
        simp [System.step, System.workerStep, hw, hb, hc]
      | false =>
        refine ⟨Move.producer, ?_⟩
        cases hp : s.producer with
        | closed =>
          have := hs.closed_iff.2 hp
          rw [hc] at this
          simp at this
        | loop iter currentBlock transactions =>
          cases iter with
          | nil => simp [System.step, System.producerStep, hp]
          | cons tx rest =>
            simp only [System.step, System.producerStep, hp]
            split_ifs <;> simp
        | send batch next =>
          cases next with
          | none => simp [System.step, System.producerStep, hp, hb, hcap]
          | some next =>
            obtain ⟨rest, currentBlock, transactions⟩ := next
            simp [System.step, System.producerStep, hp, hb, hcap]
  | busy events err =>
    rw [hwi] at hw
    refine ⟨Move.worker s.agg.i, ?_⟩
    cases events with
    | nil => simp [System.step, System.workerStep, hw]
    | cons e events =>
      have hnc := hs.no_close s.agg.i (e :: events) err hw
      have hne : e ≠ Event.closeDone := fun he => hnc (he ▸ List.mem_cons_self _ _)
      cases e <;>
        first
          | exact absurd rfl hne
          | simp [System.step, System.workerStep, hw, Event.toAction, Aggregator.step, hq1, hq2,
              hq3, hcap]

theorem System.completes (cfg : Config) (env : Env) (last : Nat) :
    ∀ (n : Nat) (s : System), s.measure ≤ n → s.Inv cfg →
      ∃ schedule t, s.run cfg env last schedule = some t ∧ ¬ t.agg.i < cfg.Workers
  | 0, s, hn, hs => by
    by_cases hi : s.agg.i < cfg.Workers
    · obtain ⟨move, u, hu⟩ := System.progress cfg env last s hs hi
      have := System.step_decreases cfg env last move s u hu
      omega
    · exact ⟨[], s, rfl, hi⟩
  | n + 1, s, hn, hs => by
    by_cases hi : s.agg.i < cfg.Workers
    · obtain ⟨move, u, hu⟩ := System.progress cfg env last s hs hi
      have hm := System.step_decreases cfg env last move s u hu
      have hinv : u.Inv cfg := System.run_invariant cfg env last [move] s u hs (by
        simp [System.run, hu])
      obtain ⟨schedule, t, hrun, ht⟩ := System.completes cfg env last n u (by omega) hinv
      exact ⟨move :: schedule, t, by simp [System.run, hu, hrun], ht⟩
    · exact ⟨[], s, rfl, hi⟩

theorem System.returned_final (cfg : Config) (env : Env) (last : Nat) (s : System)
    (hs : s.Inv cfg) (hW : 1 ≤ cfg.Workers) (hi : ¬ s.agg.i < cfg.Workers) :
    s.agg.returned = some s.agg.err ∧
      (∀ j : Nat, j < cfg.Workers →
        s.agg.dones[j]? = some true ∧ s.workers[j]? = some Worker.done) ∧
      s.producer = Producer.closed ∧ s.blocks = [] ∧
      ∀ move, s.step cfg env last move = none := by
  have hieq : s.agg.i = cfg.Workers := le_antisymm hs.i_le (not_lt.1 hi)
  have hnl : ¬ s.agg.i < s.agg.dones.length := by rw [hs.dones_length]; exact hi
  have hall : ∀ j : Nat, j < cfg.Workers →
      s.agg.dones[j]? = some true ∧ s.workers[j]? = some Worker.done := by
    intro j hj
    have hd := hs.passed j (by rw [hieq]; exact hj)
    exact ⟨hd, (hs.done_iff j).2 hd⟩
  have h0 := hs.drained 0 (hall 0 (by omega)).2
  have hclosed := hs.closed_iff.1 h0.1
  refine ⟨by simp [Aggregator.returned, hnl], hall, hclosed, h0.2, ?_⟩
  intro move
  cases move with
  | producer => simp [System.step, System.producerStep, hclosed]
  | worker j =>
    by_cases hj : j < cfg.Workers
    · simp [System.step, System.workerStep, (hall j hj).2]
    · have : s.workers[j]? = none :=
        List.getElem?_eq_none (by rw [hs.workers_length]; exact not_lt.1 hj)
      simp [System.step, System.workerStep, this]
  | aggregator a =>
    cases a <;> simp [System.step, System.aggregatorStep, Aggregator.step, hnl]


/-- C13: for every worker count of at least one, every input stream and every
outcome of the calls, the producer, the workers and the aggregator loop of
`RunArchive` never block forever. For every state `s` that a schedule of
moves reaches from the start: the schedule is no longer than the measure of
the initial state allows, so no run goes on forever; while the aggregator
has not passed every `done` channel some goroutine can move; the run can be
continued to a state where the aggregator has passed them all; and in such a
state `RunArchive` returns, every worker has returned with its `done`
channel closed, the producer has returned with `blocks` closed and empty,
and no move is left. -/
theorem RunArchive_never_blocks_forever (cfg : Config) (env : Env) (last : Nat)
    (iter : List Transaction) (hW : 1 ≤ cfg.Workers) (schedule : List Move) (s : System)
    (hrun : (System.init cfg iter).run cfg env last schedule = some s) :
    s.measure + schedule.length ≤ (System.init cfg iter).measure ∧
      (s.agg.i < cfg.Workers → ∃ move t, s.step cfg env last move = some t) ∧
      (∃ rest t, s.run cfg env last rest = some t ∧ ¬ t.agg.i < cfg.Workers) ∧
      (¬ s.agg.i < cfg.Workers →
        s.agg.returned = some s.agg.err ∧
          (∀ j : Nat, j < cfg.Workers →
            s.agg.dones[j]? = some true ∧ s.workers[j]? = some Worker.done) ∧
          s.producer = Producer.closed ∧ s.blocks = [] ∧
          ∀ move, s.step cfg env last move = none) := by
  have hs : s.Inv cfg :=
    System.run_invariant cfg env last schedule (System.init cfg iter) s
      (System.init_invariant cfg iter) hrun
  exact ⟨System.run_measure cfg env last schedule (System.init cfg iter) s hrun,
    System.progress cfg env last s hs,
    System.completes cfg env last s.measure s (Nat.le_refl _) hs,
    System.returned_final cfg env last s hs hW⟩

/-- C13 at a run with one worker whose only transaction fails: after nineteen
moves the aggregator has passed the `done` channel, `RunArchive` returns the
error and every goroutine has returned. -/
theorem RunArchive_never_blocks_forever_witness :
    (System.init ⟨1, false⟩ [⟨5, 1, 0⟩]).measure = 32 ∧
      (Aggregator.returned
          { issues := [], finishedTransaction := [], finishedBlock := [], dones := [true],
            abortClosed := true, err := some (Issue.process 5 1 "boom"), abort := false,
            txCount := 0, lastBlock := 0, i := 1,
            log := [AggEvent.recv (Issue.process 5 1 "boom"), AggEvent.closeAbort] }
        = some (some (Issue.process 5 1 "boom"))) :=
  ⟨by decide,
    ((RunArchive_never_blocks_forever ⟨1, false⟩ (failAt 5 1 "boom") 6 [⟨5, 1, 0⟩] (by decide)
      [Move.producer, Move.producer, Move.producer, Move.producer,
       Move.worker 0, Move.worker 0, Move.worker 0, Move.worker 0, Move.worker 0, Move.worker 0,
       Move.worker 0, Move.worker 0, Move.worker 0, Move.worker 0, Move.worker 0, Move.worker 0,
       Move.aggregator Action.recvIssue, Move.aggregator Action.recvBlock,
       Move.aggregator Action.recvDone]
      { producer := Producer.closed
        blocks := []
        blocksClosed := true
        workers := [Worker.done]
        agg :=
          { issues := [], finishedTransaction := [], finishedBlock := [], dones := [true],
            abortClosed := true, err := some (Issue.process 5 1 "boom"), abort := false,
            txCount := 0, lastBlock := 0, i := 1,
            log := [AggEvent.recv (Issue.process 5 1 "boom"), AggEvent.closeAbort] } }
      (by decide)).2.2.2 (by decide)).1⟩


/-! ## Properties of `ClearAccountStorage` -/

theorem clearStorage_eq_map (update : SubstateAlloc) (addr : Address) :
    clearStorage update addr
      = update.map (fun entry =>
          if entry.1 = addr then (entry.1, { entry.2 with Storage := [] }) else entry) := by
  unfold clearStorage
  split_ifs with h
  · rfl
  · have hnone : update.lookup addr = none := by
      cases hl : update.lookup addr with
      | none => rfl
      | some acc => rw [hl] at h; simp at h
    clear h
    induction update with
    | nil => rfl
    | cons entry rest ih =>
      obtain ⟨k, acc⟩ := entry
      by_cases hk : addr = k
      · subst hk
        simp [List.lookup] at hnone
      · have hk2 : ¬ k = addr := fun e => hk e.symm
        have hne : (addr == k) = false := by simpa using hk
        rw [List.lookup, hne] at hnone
        simp only [List.map_cons, hk2, if_false]
        rw [← ih hnone]

theorem ClearAccountStorage_eq_map (accounts : List Address) :
    ∀ update : SubstateAlloc,
      ClearAccountStorage update accounts
        = update.map (fun entry =>
            if entry.1 ∈ accounts then (entry.1, { entry.2 with Storage := [] }) else entry) := by
  induction accounts with
  | nil =>
    intro update
    simp [ClearAccountStorage]
  | cons addr accounts ih =>
    intro update
    have hstep : ClearAccountStorage update (addr :: accounts)
        = ClearAccountStorage (clearStorage update addr) accounts := rfl
    rw [hstep, ih, clearStorage_eq_map, List.map_map]
    apply List.map_congr_left
    intro entry _
    simp only [Function.comp]
    by_cases h1 : entry.1 = addr
    · by_cases h2 : entry.1 ∈ accounts <;> simp [h1, h2]
    · by_cases h2 : entry.1 ∈ accounts <;> simp [h1, h2]

theorem lookup_map_clear (accounts : List Address) (addr : Address) :
    ∀ update : SubstateAlloc,
      (update.map (fun entry =>
          if entry.1 ∈ accounts then (entry.1, { entry.2 with Storage := [] }) else entry)).lookup
          addr
        = (update.lookup addr).map (fun acc =>
            if addr ∈ accounts then { acc with Storage := [] } else acc) := by
  intro update
  induction update with
  | nil => rfl
  | cons entry rest ih =>
    obtain ⟨k, acc⟩ := entry
    by_cases h2 : k ∈ accounts
    · simp only [List.map_cons, h2, if_true, List.lookup_cons]
      by_cases hk : addr = k
      · subst hk
        simp [h2]
      · have hne : (addr == k) = false := by simpa using hk
        simp only [hne]
        exact ih
    · simp only [List.map_cons, h2, if_false, List.lookup_cons]
      by_cases hk : addr = k
      · subst hk
        simp [h2]
      · have hne : (addr == k) = false := by simpa using hk
        simp only [hne]
        exact ih

/-- C21: `ClearAccountStorage(update, accounts)` leaves every listed address
that is present in `update` with an empty storage map; the addresses of
`update` are the same before and after, so no account is added or removed;
an address that is not listed keeps its account as it was; nonce, balance and
code of every account are unchanged; and a second application changes
nothing. -/
theorem ClearAccountStorage_frame (update : SubstateAlloc) (accounts : List Address) :
    (∀ addr acc, addr ∈ accounts →
        (ClearAccountStorage update accounts).lookup addr = some acc → acc.Storage = []) ∧
      (ClearAccountStorage update accounts).map Prod.fst = update.map Prod.fst ∧
      (∀ addr, ((ClearAccountStorage update accounts).lookup addr).isSome
        = (update.lookup addr).isSome) ∧
      (∀ addr, addr ∉ accounts →
        (ClearAccountStorage update accounts).lookup addr = update.lookup addr) ∧
      (∀ addr,
        ((ClearAccountStorage update accounts).lookup addr).map
            (fun acc => (acc.Nonce, acc.Balance, acc.Code))
          = (update.lookup addr).map (fun acc => (acc.Nonce, acc.Balance, acc.Code))) ∧
      ClearAccountStorage (ClearAccountStorage update accounts) accounts
        = ClearAccountStorage update accounts := by
  refine ⟨?_, ?_, ?_, ?_, ?_, ?_⟩
  · intro addr acc hmem hl
    rw [ClearAccountStorage_eq_map, lookup_map_clear] at hl
    cases hu : update.lookup addr with
    | none => rw [hu] at hl; simp at hl
    | some old =>
      rw [hu] at hl
      simp only [Option.map_some', hmem, if_true, Option.some.injEq] at hl
      rw [← hl]
  · rw [ClearAccountStorage_eq_map, List.map_map]
    apply List.map_congr_left
    intro entry _
    simp only [Function.comp]
    split_ifs <;> rfl
  · intro addr
    rw [ClearAccountStorage_eq_map, lookup_map_clear]
    cases update.lookup addr <;> rfl
  · intro addr hmem
    rw [ClearAccountStorage_eq_map, lookup_map_clear]
    cases update.lookup addr <;> simp [hmem]
  · intro addr
    rw [ClearAccountStorage_eq_map, lookup_map_clear]
    cases update.lookup addr with
    | none => rfl
    | some old => by_cases h : addr ∈ accounts <;> simp [h]
  · rw [ClearAccountStorage_eq_map (accounts) (ClearAccountStorage update accounts),
      ClearAccountStorage_eq_map, List.map_map]
    apply List.map_congr_left
    intro entry _
    simp only [Function.comp]
    by_cases h : entry.1 ∈ accounts <;> simp [h]


/-! ## Properties of `FilterUniqueAccounts` and `collectSubStateAccounts` -/

theorem filterLoop_sent (input : List Address) :
    ∀ (k : Nat) (visited : List Address),
      FilterEvent.sent (filterLoop noCancellation input k visited)
        = (firstOccurrences input).filter (fun adr => decide (adr ∉ visited)) := by
  induction input with
  | nil => intro k visited; rfl
  | cons adr rest ih =>
    intro k visited
    by_cases hv : adr ∈ visited
    · simp only [filterLoop, noCancellation, Bool.false_eq_true, if_false, hv, if_true,
        firstOccurrences]
      rw [ih, List.filter_cons]
      simp only [hv, not_true_eq_false, decide_False, Bool.false_eq_true, if_false,
        List.filter_filter]
      apply List.filter_congr
      intro other _
      by_cases ho : other ∈ visited
      · simp [ho]
      · have : other ≠ adr := fun e => ho (e ▸ hv)
        simp [ho, this]
    · simp only [filterLoop, noCancellation, Bool.false_eq_true, if_false, hv,
        firstOccurrences, FilterEvent.sent]
      rw [ih, List.filter_cons]
      simp only [hv, not_false_eq_true, decide_True, if_true, List.filter_filter]
      congr 1
      apply List.filter_congr
      intro other _
      by_cases ho : other = adr <;> simp [ho]

theorem filterLoop_closes (ctxDone : Nat → Bool) (input : List Address) :
    ∀ (k : Nat) (visited : List Address),
      filterLoop ctxDone input k visited
        = (FilterEvent.sent (filterLoop ctxDone input k visited)).map FilterEvent.send
          ++ [FilterEvent.closeOut] := by
  induction input with
  | nil => intro k visited; rfl
  | cons adr rest ih =>
    intro k visited
    simp only [filterLoop]
    split_ifs
    · rfl
    · exact ih _ _
    · rfl
    · simp only [FilterEvent.sent, List.map_cons, List.cons_append]
      rw [← ih]

theorem firstOccurrences_mem (input : List Address) (adr : Address) :
    adr ∈ firstOccurrences input ↔ adr ∈ input := by
  induction input with
  | nil => simp [firstOccurrences]
  | cons head rest ih =>
    simp only [firstOccurrences, List.mem_cons, List.mem_filter, ih, decide_eq_true_eq]
    by_cases h : adr = head <;> simp [h]

theorem firstOccurrences_nodup (input : List Address) : (firstOccurrences input).Nodup := by
  induction input with
  | nil => simp [firstOccurrences]
  | cons head rest ih =>
    simp only [firstOccurrences, List.nodup_cons, List.mem_filter, decide_eq_true_eq]
    exact ⟨fun h => h.2 rfl, ih.filter _⟩

theorem firstOccurrences_sublist (input : List Address) :
    (firstOccurrences input).Sublist input := by
  induction input with
  | nil => simp [firstOccurrences]
  | cons head rest ih =>
    simp only [firstOccurrences]
    exact ((List.filter_sublist _).trans ih).cons₂ head

/-- C22: with no cancellation the addresses `FilterUniqueAccounts` sends are
the input with every repeated address removed, first occurrences kept in
their order, so none is sent twice, every input address is sent, and the
output is a subsequence of the input; and for every behaviour of the
context the events on `out` are sends followed by one `close(out)`. -/
theorem FilterUniqueAccounts_first_occurrences (input : List Address) :
    FilterEvent.sent (FilterUniqueAccounts noCancellation input) = firstOccurrences input ∧
      (FilterEvent.sent (FilterUniqueAccounts noCancellation input)).Nodup ∧
      (∀ adr, adr ∈ FilterEvent.sent (FilterUniqueAccounts noCancellation input) ↔ adr ∈ input) ∧
      (FilterEvent.sent (FilterUniqueAccounts noCancellation input)).Sublist input ∧
      (∀ adr rest, firstOccurrences (adr :: rest)
        = adr :: (firstOccurrences rest).filter (fun other => decide (other ≠ adr))) ∧
      ∀ ctxDone : Nat → Bool,
        FilterUniqueAccounts ctxDone input
          = (FilterEvent.sent (FilterUniqueAccounts ctxDone input)).map FilterEvent.send
            ++ [FilterEvent.closeOut] := by
  have hsent : FilterEvent.sent (FilterUniqueAccounts noCancellation input)
      = firstOccurrences input := by
    unfold FilterUniqueAccounts
    rw [filterLoop_sent]
    simp
  refine ⟨hsent, ?_, ?_, ?_, fun _ _ => rfl, ?_⟩
  · rw [hsent]; exact firstOccurrences_nodup input
  · intro adr; rw [hsent]; exact firstOccurrences_mem input adr
  · rw [hsent]; exact firstOccurrences_sublist input
  · intro ctxDone
    exact filterLoop_closes ctxDone input 0 []

theorem collectLoop_next_count (toBlock : Nat) (ctxDone : Nat → Bool) :
    ∀ (iter : List Transaction) (k : Nat), toBlock = 0 →
      ((collectLoop toBlock ctxDone iter k).filter CollectEvent.isNext).length
        = iter.length + 1 := by
  intro iter
  induction iter with
  | nil => intro k _; rfl
  | cons tx rest ih =>
    intro k h0
    subst h0
    simp only [collectLoop, gt_iff_lt, lt_self_iff_false, false_and, if_false]
    split_ifs <;>
      simp [List.filter_cons, CollectEvent.isNext, ih _ rfl]

/-- C29 fails on the code: the `break` in the case `<-ctxDone` leaves only
the `select`. With a context cancelled from the start and an iterator of two
transactions, `select` number 0 takes `<-ctxDone`, and afterwards
`collectSubStateAccounts` still calls `in.Next()` twice and queues the
second transaction before it closes `work`. Without a block limit the
number of `in.Next()` calls is the same for every behaviour of the
context. -/
theorem collectSubStateAccounts_pulls_after_cancel :
    collectSubStateAccounts 0 (fun k => decide (k = 0)) [⟨5, 0, 0⟩, ⟨5, 1, 0⟩]
        = [CollectEvent.Next true, CollectEvent.ctxDone,
           CollectEvent.Next true, CollectEvent.work ⟨5, 1, 0⟩,
           CollectEvent.Next false,
           CollectEvent.closeWork, CollectEvent.Wait, CollectEvent.closeOut] ∧
      (afterCtxDone
          (collectSubStateAccounts 0 (fun k => decide (k = 0)) [⟨5, 0, 0⟩, ⟨5, 1, 0⟩])).filter
          CollectEvent.isNext
        = [CollectEvent.Next true, CollectEvent.Next false] ∧
      (afterCtxDone
          (collectSubStateAccounts 0 (fun k => decide (k = 0)) [⟨5, 0, 0⟩, ⟨5, 1, 0⟩])).filter
          CollectEvent.isWork
        = [CollectEvent.work ⟨5, 1, 0⟩] ∧
      ∀ (ctxDone : Nat → Bool) (iter : List Transaction),
        ((collectSubStateAccounts 0 ctxDone iter).filter CollectEvent.isNext).length
          = iter.length + 1 := by
  refine ⟨by decide, by decide, by decide, ?_⟩
  intro ctxDone iter
  unfold collectSubStateAccounts
  rw [List.filter_append, List.length_append, collectLoop_next_count 0 ctxDone iter 0 rfl]
  rfl


/-! ## Round trips of the fixed-layout operations -/

theorem getBool_putBool (b : Bool) : getBool (putBool b) = (b, none) := by
  cases b <;> simp [getBool, putBool]

theorem getUint32_putUint32 (v : Nat) (hv : v < 4294967296) :
    getUint32 (putUint32 v) = (v, none) := by
  simp only [getUint32, putUint32, Prod.mk.injEq, and_true]
  omega

theorem getInt32_putInt32 (v : Int) (hlo : -2147483648 ≤ v) (hhi : v < 2147483648) :
    getInt32 (putInt32 v) = (v, none) := by
  have hnn : (0 : Int) ≤ v % 4294967296 := Int.emod_nonneg v (by norm_num)
  have hlt : v % 4294967296 < 4294967296 := Int.emod_lt_of_pos v (by norm_num)
  have hcast : (((v % 4294967296).toNat : Nat) : Int) = v % 4294967296 := Int.toNat_of_nonneg hnn
  have hn : (v % 4294967296).toNat < 4294967296 := by omega
  simp only [getInt32, putInt32, getUint32_putUint32 _ hn, Prod.mk.injEq, and_true]
  split_ifs with h <;> omega

/-- C23: for `Finalise` with any `DeleteEmptyObjects`, `CreateAccount` and
`GetNonce` with any `uint32` contract index and `Snapshot` with any `int32`
identifier, the operation's read function applied to exactly the bytes its
`Write` produced returns no error and an operation equal to the original. -/
theorem operation_read_write_roundtrip (deleteEmptyObjects : Bool) (cIdx nIdx : Nat)
    (snapID : Int) (hc : cIdx < 2 ^ 32) (hn : nIdx < 2 ^ 32)
    (hs : -(2 ^ 31) ≤ snapID ∧ snapID < 2 ^ 31) :
    ReadFinalise (Finalise.Write ⟨deleteEmptyObjects⟩) = (⟨deleteEmptyObjects⟩, none) ∧
      ReadCreateAccount (CreateAccount.Write ⟨cIdx⟩) = (⟨cIdx⟩, none) ∧
      ReadGetNonce (GetNonce.Write ⟨nIdx⟩) = (⟨nIdx⟩, none) ∧
      ReadSnapshot (Snapshot.Write ⟨snapID⟩) = (⟨snapID⟩, none) := by
  have hc2 : cIdx < 4294967296 := by norm_num at hc; exact hc
  have hn2 : nIdx < 4294967296 := by norm_num at hn; exact hn
  have hs1 : -2147483648 ≤ snapID := by have := hs.1; norm_num at this; exact this
  have hs2 : snapID < 2147483648 := by have := hs.2; norm_num at this; exact this
  refine ⟨?_, ?_, ?_, ?_⟩
  · simp only [ReadFinalise, Finalise.Write, getBool_putBool]
  · simp only [ReadCreateAccount, CreateAccount.Write, getUint32_putUint32 _ hc2]
  · simp only [ReadGetNonce, GetNonce.Write, getUint32_putUint32 _ hn2]
  · simp only [ReadSnapshot, Snapshot.Write, getInt32_putInt32 _ hs1 hs2]

/-- C23 at `Finalise{true}`, `CreateAccount{305419896}`, `GetNonce{7}` and
`Snapshot{-2}`. -/
theorem operation_read_write_roundtrip_witness :
    ReadFinalise (Finalise.Write ⟨true⟩) = (⟨true⟩, none) ∧
      ReadCreateAccount (CreateAccount.Write ⟨305419896⟩) = (⟨305419896⟩, none) ∧
      ReadGetNonce (GetNonce.Write ⟨7⟩) = (⟨7⟩, none) ∧
      ReadSnapshot (Snapshot.Write ⟨-2⟩) = (⟨-2⟩, none) :=
  operation_read_write_roundtrip true 305419896 7 (-2) (by decide) (by decide)
    ⟨by decide, by decide⟩


/-! ## Properties of `getHash` -/

theorem lookup_mem {κ τ : Type} [BEq κ] [LawfulBEq κ] (key : κ) (value : τ) :
    ∀ l : List (κ × τ), l.lookup key = some value → (key, value) ∈ l := by
  intro l
  induction l with
  | nil => intro h; simp at h
  | cons entry rest ih =>
    obtain ⟨k, v⟩ := entry
    intro h
    rw [List.lookup_cons] at h
    by_cases hk : key = k
    · subst hk
      simp at h
      simp [h]
    · have hne : (key == k) = false := by simpa using hk
      simp only [hne] at h
      exact List.mem_cons_of_mem _ (ih h)

theorem getHash_sound (Keccak256Hash : List Nat → Hash) (code_hashes : CodeHashes)
    (addr : Address) (code : List Nat) (hs : code_hashes.Sound Keccak256Hash) :
    (getHash Keccak256Hash code_hashes addr code).1 = Keccak256Hash code ∧
      (getHash Keccak256Hash code_hashes addr code).2.Sound Keccak256Hash := by
  unfold getHash
  cases hl : code_hashes.lookup ⟨addr, code⟩ with
  | none =>
    refine ⟨rfl, ?_⟩
    intro entry hmem
    rcases List.mem_cons.1 hmem with h | h
    · rw [h]
    · exact hs entry h
  | some res =>
    exact ⟨hs _ (lookup_mem _ _ _ hl), hs⟩

theorem runCacheCalls_sound (Keccak256Hash : List Nat → Hash) :
    ∀ (calls : List CacheCall) (code_hashes : CodeHashes),
      code_hashes.Sound Keccak256Hash →
      (runCacheCalls Keccak256Hash calls code_hashes).Sound Keccak256Hash
  | [], _, hs => hs
  | CacheCall.getHash addr code :: calls, code_hashes, hs =>
    runCacheCalls_sound Keccak256Hash calls _
      (getHash_sound Keccak256Hash code_hashes addr code hs).2
  | CacheCall.ReleaseCache :: calls, _, _ =>
    runCacheCalls_sound Keccak256Hash calls _ (fun _ h => by simp [ReleaseCache] at h)

theorem runCacheSteps_sound (Keccak256Hash : List Nat → Hash) :
    ∀ (steps : List CacheStep) (code_hashes : CodeHashes),
      code_hashes.Sound Keccak256Hash →
      (runCacheSteps Keccak256Hash steps code_hashes).Sound Keccak256Hash
  | [], _, hs => hs
  | CacheStep.store addr code :: steps, code_hashes, hs =>
    runCacheSteps_sound Keccak256Hash steps _ (by
      intro entry hmem
      rcases List.mem_cons.1 hmem with h | h
      · rw [h]
      · exact hs entry h)
  | CacheStep.release :: steps, _, _ =>
    runCacheSteps_sound Keccak256Hash steps _ (fun _ h => by simp at h)

/-- C24: after any sequence of earlier `getHash` and `ReleaseCache` calls on
the initially empty map, `getHash(addr, code)` returns `Keccak256Hash(code)`,
every entry of the map holds the hash of the code of its key, and the result
is the same for every address; the same holds when the critical sections of
concurrent calls are taken in any order. -/
theorem getHash_returns_keccak (Keccak256Hash : List Nat → Hash) (calls : List CacheCall)
    (steps : List CacheStep) (addr other : Address) (code : List Nat) :
    (getHash Keccak256Hash (runCacheCalls Keccak256Hash calls []) addr code).1
        = Keccak256Hash code ∧
      (getHash Keccak256Hash (runCacheCalls Keccak256Hash calls []) addr code).2.Sound
        Keccak256Hash ∧
      (getHash Keccak256Hash (runCacheCalls Keccak256Hash calls []) addr code).1
        = (getHash Keccak256Hash (runCacheCalls Keccak256Hash calls []) other code).1 ∧
      (getHash Keccak256Hash (runCacheSteps Keccak256Hash steps []) addr code).1
        = Keccak256Hash code := by
  have h0 : CodeHashes.Sound Keccak256Hash [] := fun _ h => by simp at h
  have hc := runCacheCalls_sound Keccak256Hash calls [] h0
  have hst := runCacheSteps_sound Keccak256Hash steps [] h0
  refine ⟨(getHash_sound _ _ addr code hc).1, (getHash_sound _ _ addr code hc).2, ?_,
    (getHash_sound _ _ addr code hst).1⟩
  rw [(getHash_sound _ _ addr code hc).1, (getHash_sound _ _ other code hc).1]


/-! ## The new-blocks check of `recordSubstate` -/

theorem prepareAndRecord_importEnv (before after : Nat) (cfg : GenerateConfig)
    (hb : 1 ≤ before) (ha : 1 ≤ after) (hmax : before + 1 < 2 ^ 64) :
    prepareAndRecord (importEnv before after) cfg
      = if before + 1 ≥ after then
          ({ First := before + 1, Last := after },
            some "supplied events didn't produce any new blocks")
        else ({ First := before + 1, Last := after }, none) := by
  have hb2 : ¬ before < 1 := by omega
  have ha2 : ¬ after < 1 := by omega
  simp only [prepareAndRecord, prepareOpera, recordSubstate, getOperaBlock, importEnv, if_true,
    hb2, ha2, if_false, Nat.mod_eq_of_lt hmax, Bool.not_true, Bool.false_eq_true,
    one_ne_zero, ge_iff_le]

/-- C25 fails on the code by an off-by-one in the test `cfg.First >=
cfg.Last`: with every call succeeding, the head block of opera at 10 before
the import and at 11 after it, `prepareOpera` sets `cfg.First` to 11,
`recordSubstate` sets `cfg.Last` to 11 and returns "supplied events didn't
produce any new blocks" although the import advanced the head by one block;
an import that advances the head by two blocks or more passes. -/
theorem recordSubstate_rejects_one_new_block :
    prepareAndRecord (importEnv 10 11) ⟨0, 0⟩
        = (⟨11, 11⟩, some "supplied events didn't produce any new blocks") ∧
      prepareAndRecord (importEnv 10 12) ⟨0, 0⟩ = (⟨11, 12⟩, none) ∧
      ∀ (before after : Nat) (cfg : GenerateConfig), 1 ≤ before → before + 1 < 2 ^ 64 →
        before + 2 ≤ after →
        (prepareAndRecord (importEnv before after) cfg).2 = none := by
  refine ⟨by decide, by decide, ?_⟩
  intro before after cfg hb hmax hadv
  rw [prepareAndRecord_importEnv before after cfg hb (by omega) hmax]
  have : ¬ before + 1 ≥ after := by omega
  simp [this]


/-! ## The artificial epoch operations of `traceReplayTask` -/

theorem replayLoop_no_endEpoch (cfg : TraceConfig) :
    ∀ (ops : List Operation) (firstBlock : Bool),
      (∀ block, Operation.BeginBlock block ∈ ops → block ≤ cfg.last) →
      Ran.artificial Operation.EndEpoch ∉ replayLoop cfg ops firstBlock := by
  intro ops
  induction ops with
  | nil => intro firstBlock _; simp [replayLoop]
  | cons op rest ih =>
    intro firstBlock hall
    have hrest : ∀ block, Operation.BeginBlock block ∈ rest → block ≤ cfg.last :=
      fun block h => hall block (List.mem_cons_of_mem _ h)
    cases op with
    | BeginBlock block =>
      have hb : ¬ block > cfg.last := by
        have := hall block (List.mem_cons_self _ _)
        omega
      simp only [replayLoop, hb, if_false]
      split_ifs <;> simp [ih false hrest]
    | BeginEpoch n => simp [replayLoop, ih firstBlock hrest]
    | EndEpoch => simp [replayLoop, ih firstBlock hrest]
    | other id => simp [replayLoop, ih firstBlock hrest]

/-- C26 fails on the code when the trace ends without a block beyond
`cfg.last`: with `cfg.first = 1`, `cfg.last = 5`, an epoch length of 300 and
the stream `BeginBlock 1`, operation 7, `BeginBlock 2`, the loop runs the
artificial `BeginEpoch(0)` and the three operations and no `EndEpoch`; the
artificial `EndEpoch` is run only at a `BeginBlock` beyond `cfg.last`, as in
the same stream followed by `BeginBlock 6`, and never when no such block is
in the stream. -/
theorem traceReplayTask_misses_final_endEpoch :
    traceReplayTask ⟨1, 5, 300⟩
        [Operation.BeginBlock 1, Operation.other 7, Operation.BeginBlock 2]
        = [Ran.artificial (Operation.BeginEpoch 0), Ran.replayed (Operation.BeginBlock 1),
           Ran.replayed (Operation.other 7), Ran.replayed (Operation.BeginBlock 2)] ∧
      traceReplayTask ⟨1, 5, 300⟩
        [Operation.BeginBlock 1, Operation.other 7, Operation.BeginBlock 2,
         Operation.BeginBlock 6, Operation.other 8]
        = [Ran.artificial (Operation.BeginEpoch 0), Ran.replayed (Operation.BeginBlock 1),
           Ran.replayed (Operation.other 7), Ran.replayed (Operation.BeginBlock 2),
           Ran.artificial Operation.EndEpoch] ∧
      ∀ (cfg : TraceConfig) (ops : List Operation),
        (∀ block, Operation.BeginBlock block ∈ ops → block ≤ cfg.last) →
        Ran.artificial Operation.EndEpoch ∉ traceReplayTask cfg ops := by
  refine ⟨by decide, by decide, ?_⟩
  intro cfg ops hall
  exact replayLoop_no_endEpoch cfg ops true hall


/-! ## The argument of `flatBulkLoad.SetBalance` -/

theorem flatBulkLoad.digest_bigInts {σ : Type} (lib : FlatLibrary σ) (l : BulkLoadState σ) :
    (flatBulkLoad.digest lib l).bigInts = l.bigInts := by
  unfold flatBulkLoad.digest
  simp only
  split_ifs <;> rfl

/-- C27 fails on the code: `value.Sub(value, old)` stores the difference in
the caller's own `big.Int`. For an address whose balance in the database is
5 and a caller's value of 8, `SetBalance` leaves the balance at 8 and the
caller's value at 3; for every database and every state, the caller's value
after the call is its value before minus the old balance. -/
theorem flatBulkLoad_SetBalance_changes_argument :
    (flatBulkLoad.SetBalance balanceList ⟨[8], [(10, 5)], 0⟩ 10 0).bigInts = [3] ∧
      balanceList.GetBalance (flatBulkLoad.SetBalance balanceList ⟨[8], [(10, 5)], 0⟩ 10 0).db 10
        = 8 ∧
      ∀ (σ : Type) (lib : FlatLibrary σ) (l : BulkLoadState σ) (addr : Address) (value : Nat),
        value < l.bigInts.length →
        (flatBulkLoad.SetBalance lib l addr value).bigInts.getD value 0
          = l.bigInts.getD value 0 - lib.GetBalance l.db addr := by
  refine ⟨by decide, by decide, ?_⟩
  intro σ lib l addr value hlt
  unfold flatBulkLoad.SetBalance
  simp only [flatBulkLoad.digest_bigInts, bigIntSub]
  rw [List.getD_eq_getElem?_getD, List.getElem?_set_self hlt]
  rfl


/-! ## The error of `traceCompareLogAction` -/

/-- C28 fails on the code: when the capture of the replay trace fails,
`traceCompareLogAction` returns `recErr`, which is nil there, in place of
`repErr`. With two arguments, the record trace captured and the replay
capture failing with "replay failed" the action returns nil; and so it does
whenever the record capture succeeds and the replay capture fails. -/
theorem traceCompareLogAction_drops_replay_error :
    traceCompareLogAction
        { argsLen := 2, debugIsSet := true, Set := none, record := ("log", none),
          replay := ("", some "replay failed"), ReplaceAllString := fun s => s } = none ∧
      ∀ env : CompareEnv, env.argsLen = 2 → env.debugIsSet = true → env.record.2 = none →
        env.replay.2 ≠ none → traceCompareLogAction env = none := by
  refine ⟨by decide, ?_⟩
  intro env h2 hset hrec hrep
  simp [traceCompareLogAction, h2, hset, hrec, hrep]

/-! ## The order of random priming -/

/-- C30 fails on the code: the source made from `cfg.primeSeed` is dropped
and `rand.Shuffle` draws from the global generator. For every library,
world state and state of the global generator the order is the same for any
two seeds; and for the same world state of three accounts and the same seed
42, two states of the global generator give two different orders. -/
theorem primeStateDBRandom_ignores_seed :
    (∀ (γ : Type) (lib : RandLibrary γ) (Hex : Address → String)
        (HexToAddress : String → Address) (global : γ) (ws : List Address) (seed1 seed2 : Int),
        primeStateDBRandom lib Hex HexToAddress global ws seed1
          = primeStateDBRandom lib Hex HexToAddress global ws seed2) ∧
      (primeStateDBRandom listRand smallHex smallHexToAddress [0, 0] [3, 1, 2] 42).1
        = [2, 3, 1] ∧
      (primeStateDBRandom listRand smallHex smallHexToAddress [2, 1] [3, 1, 2] 42).1
        = [1, 2, 3] := by
  refine ⟨fun _ _ _ _ _ _ _ _ => rfl, by decide, by decide⟩

end Aida
